import Mathlib

/-!
9cc: tokenizer, recursive-descent parser and AArch64 code generator.

A shallow embedding of `9cc.c`.

* A `char *` into the NUL-terminated input is the list of characters from the
  pointed-at position up to (not including) the terminating NUL, so the input
  itself is `user_input : List Char` and `loc - user_input` is a difference of
  lengths. A `Char` stands for one `char` of the string, which holds no NUL.
* `isspace` and `isdigit` are those of the C locale; `strtol` clamps to `LONG_MAX`
  and the conversion of its `long` result to `int` reduces modulo `2^32` (LP64).
* The linked list of tokens is a `List Token`; the global cursor `token` is the
  list of tokens from the current one on, and `token = token->next` drops the
  head. The empty list is the null pointer.
* `calloc` returns zeroed memory: fields that are not assigned are `0` / null.
* `error_at` never returns; a call is the result `Res.error_at loc msg`.
* Loops and recursion run on explicit fuel; `tokenize` and `parse` supply it.
-/

namespace NineCC

/-! ## Tokenizer -/

inductive TokenKind
  | TK_RESERVED
  | TK_NUM
  | TK_EOF
deriving DecidableEq, Repr

/-- Token type: `kind`, `val` (an `int`) and `str` (pointer into the input). The `next`
link is the tail of the list the token sits in. -/
structure Token where
  kind : TokenKind
  val : Int
  str : List Char
deriving DecidableEq, Repr

/-- The format strings passed to `error_at`. -/
inductive ErrMsg
  | invalid_token
  | expect_char (op : Char)
  | expect_number
deriving DecidableEq, Repr

/-- Result of a function that may call `error_at` (which exits), dereference a null
pointer, or exhaust the fuel of the model. -/
inductive Res (α : Type)
  | ok (a : α)
  | error_at (loc : List Char) (msg : ErrMsg)
  | null_deref
  | out_of_fuel
deriving DecidableEq, Repr

/-- Sequencing of fallible steps. -/
def Res.bind {α β : Type} (r : Res α) (f : α → Res β) : Res β :=
  match r with
  | .ok a => f a
  | .error_at loc msg => .error_at loc msg
  | .null_deref => .null_deref
  | .out_of_fuel => .out_of_fuel

/-- The character `p[0]` of a C string: the head, or NUL at the end. -/
def char0 (p : List Char) : Char :=
  match p with
  | [] => Char.ofNat 0
  | c :: _ => c

/-- C locale `isspace`: space, `\t`, `\n`, `\v`, `\f`, `\r`. -/
def isspace (c : Char) : Bool :=
  c.toNat = 32 || (9 ≤ c.toNat && c.toNat ≤ 13)

/-- C `isdigit`. -/
def isdigit (c : Char) : Bool :=
  48 ≤ c.toNat && c.toNat ≤ 57

/-- The test `strchr("+-*/()", c)` for a non-NUL `c`. -/
def isreserved (c : Char) : Bool :=
  c = '+' || c = '-' || c = '*' || c = '/' || c = '(' || c = ')'

def LONG_MAX : Nat := 2 ^ 63 - 1

/-- Digit loop of `strtol(p, &p, 10)`: accumulated value and end pointer. -/
def strtol_digits : Nat → List Char → Nat × List Char
  | acc, [] => (acc, [])
  | acc, c :: cs =>
    if isdigit c then strtol_digits (acc * 10 + (c.toNat - 48)) cs else (acc, c :: cs)

/-- `strtol(p, &p, 10)` where `p` starts with a digit (the only call in the source): the
value of the maximal run of digits, clamped to `LONG_MAX`, and the end pointer. -/
def strtol (p : List Char) : Int × List Char :=
  let r := strtol_digits 0 p
  (((min r.1 LONG_MAX : Nat) : Int), r.2)

/-- Conversion of a `long` to `int` (`cur->val = strtol(...)`): reduction modulo `2^32`
into the signed range. -/
def long_to_int (v : Int) : Int :=
  (v + 2 ^ 31) % 2 ^ 32 - 2 ^ 31

/-- `new_token(kind, cur, str)`: a zeroed token with `kind` and `str` set. -/
def new_token (kind : TokenKind) (str : List Char) : Token :=
  { kind := kind, val := 0, str := str }

/-- The loop of `tokenize` from pointer `p`: the tokens linked after `cur`. -/
def tokenize_loop : Nat → List Char → Res (List Token)
  | 0, _ => .out_of_fuel
  | _ + 1, [] => .ok [new_token .TK_EOF []]
  | n + 1, c :: cs =>
    if isspace c then
      tokenize_loop n cs
    else if isreserved c then
      (tokenize_loop n cs).bind fun ts => .ok (new_token .TK_RESERVED (c :: cs) :: ts)
    else if isdigit c then
      let r := strtol (c :: cs)
      (tokenize_loop n r.2).bind fun ts =>
        .ok ({ new_token .TK_NUM (c :: cs) with val := long_to_int r.1 } :: ts)
    else
      .error_at (c :: cs) .invalid_token

/-- `tokenize()`: every iteration of the loop advances `p`, so `length + 1` iterations
are enough. -/
def tokenize (user_input : List Char) : Res (List Token) :=
  tokenize_loop (user_input.length + 1) user_input

/-! ## Parser -/

/-- `consume(op)`: the flag returned and the new value of `token`. -/
def consume (op : Char) (token : List Token) : Res (Bool × List Token) :=
  match token with
  | [] => .null_deref
  | t :: next =>
    if t.kind ≠ .TK_RESERVED ∨ char0 t.str ≠ op then .ok (false, t :: next)
    else .ok (true, next)

/-- `expect(op)`. -/
def expect (op : Char) (token : List Token) : Res (List Token) :=
  match token with
  | [] => .null_deref
  | t :: next =>
    if t.kind ≠ .TK_RESERVED ∨ char0 t.str ≠ op then .error_at t.str (.expect_char op)
    else .ok next

/-- `expect_number()`. -/
def expect_number (token : List Token) : Res (Int × List Token) :=
  match token with
  | [] => .null_deref
  | t :: next =>
    if t.kind ≠ .TK_NUM then .error_at t.str .expect_number
    else .ok (t.val, next)

/-- `at_eof()` (never called by the program). -/
def at_eof (token : List Token) : Res Bool :=
  match token with
  | [] => .null_deref
  | t :: _ => .ok (decide (t.kind = .TK_EOF))

inductive NodeKind
  | ND_ADD
  | ND_SUB
  | ND_MUL
  | ND_DIV
  | ND_NUM
deriving DecidableEq, Repr

/-- AST node type: `null` is the null pointer, `mk kind lhs rhs val` a node struct. -/
inductive Node
  | null
  | mk (kind : NodeKind) (lhs : Node) (rhs : Node) (val : Int)
deriving DecidableEq, Repr

def new_node (kind : NodeKind) : Node :=
  .mk kind .null .null 0

def new_binary (kind : NodeKind) (lhs rhs : Node) : Node :=
  match new_node kind with
  | .null => .null
  | .mk k _ _ v => .mk k lhs rhs v

def new_num (val : Int) : Node :=
  .mk .ND_NUM .null .null val

mutual

/-- `expr = mul ("+" mul | "-" mul)*`. -/
def expr : Nat → List Token → Res (Node × List Token)
  | 0, _ => .out_of_fuel
  | n + 1, token => (mul n token).bind fun r => expr_loop n r.1 r.2

/-- The `for (;;)` of `expr`, entered with `node`. -/
def expr_loop : Nat → Node → List Token → Res (Node × List Token)
  | 0, _, _ => .out_of_fuel
  | n + 1, node, token =>
    (consume '+' token).bind fun c =>
      if c.1 then
        (mul n c.2).bind fun r => expr_loop n (new_binary .ND_ADD node r.1) r.2
      else
        (consume '-' c.2).bind fun d =>
          if d.1 then
            (mul n d.2).bind fun r => expr_loop n (new_binary .ND_SUB node r.1) r.2
          else
            .ok (node, d.2)

/-- `mul = primary ("*" primary | "/" primary)*`. -/
def mul : Nat → List Token → Res (Node × List Token)
  | 0, _ => .out_of_fuel
  | n + 1, token => (primary n token).bind fun r => mul_loop n r.1 r.2

/-- The `for (;;)` of `mul`, entered with `node`. -/
def mul_loop : Nat → Node → List Token → Res (Node × List Token)
  | 0, _, _ => .out_of_fuel
  | n + 1, node, token =>
    (consume '*' token).bind fun c =>
      if c.1 then
        (primary n c.2).bind fun r => mul_loop n (new_binary .ND_MUL node r.1) r.2
      else
        (consume '/' c.2).bind fun d =>
          if d.1 then
            (primary n d.2).bind fun r => mul_loop n (new_binary .ND_DIV node r.1) r.2
          else
            .ok (node, d.2)

/-- `primary = "(" expr ")" | num`. -/
def primary : Nat → List Token → Res (Node × List Token)
  | 0, _ => .out_of_fuel
  | n + 1, token =>
    (consume '(' token).bind fun c =>
      if c.1 then
        (expr n c.2).bind fun r =>
          (expect ')' r.2).bind fun t => .ok (r.1, t)
      else
        (expect_number c.2).bind fun v => .ok (new_num v.1, v.2)

end

/-- Fuel that the parser is run with by `main`: each call level and each loop iteration
below the top consumes a token. -/
def parse_fuel (token : List Token) : Nat :=
  3 * token.length + 4

/-- The call `expr()` in `main`, with the cursor at `token`. -/
def parse (token : List Token) : Res (Node × List Token) :=
  expr (parse_fuel token) token

/-! ## Code generator -/

/-- The instruction lines that `gen` and `main` print. -/
inductive Instr
  | mov_x0_imm (val : Int)
  | str_x0_push
  | ldr_x1_pop
  | ldr_x0_pop
  | add_x0_x0_x1
  | sub_x0_x0_x1
  | mul_x0_x0_x1
  | sdiv_x0_x0_x1
  | ret
deriving DecidableEq, Repr

/-- The text of each line, without the newline. -/
def Instr.text : Instr → String
  | .mov_x0_imm val => "  mov x0,  #" ++ toString val
  | .str_x0_push => "  str x0, [sp, -16]!"
  | .ldr_x1_pop => "  ldr x1, [sp], 16"
  | .ldr_x0_pop => "  ldr x0, [sp], 16"
  | .add_x0_x0_x1 => "  add x0, x0, x1"
  | .sub_x0_x0_x1 => "  sub x0, x0, x1"
  | .mul_x0_x0_x1 => "  mul x0, x0, x1"
  | .sdiv_x0_x0_x1 => "  sdiv x0, x0, x1"
  | .ret => "  ret"

/-- The `switch (node->kind)` of `gen`: no case for `ND_NUM`. -/
def gen_switch : NodeKind → List Instr
  | .ND_ADD => [.add_x0_x0_x1]
  | .ND_SUB => [.sub_x0_x0_x1]
  | .ND_MUL => [.mul_x0_x0_x1]
  | .ND_DIV => [.sdiv_x0_x0_x1]
  | .ND_NUM => []

/-- `gen(node)`: the lines printed, in order. -/
def gen : Node → Res (List Instr)
  | .null => .null_deref
  | .mk kind lhs rhs val =>
    if kind = .ND_NUM then
      .ok [.mov_x0_imm val, .str_x0_push]
    else
      (gen lhs).bind fun l =>
        (gen rhs).bind fun r =>
          .ok (l ++ r ++ [.ldr_x1_pop, .ldr_x0_pop] ++ gen_switch kind ++ [.str_x0_push])

/-! ## Diagnostics and `main` -/

/-- The message `error_at` formats. -/
def ErrMsg.text : ErrMsg → List Char
  | .invalid_token => "invalid token".toList
  | .expect_char op => "expect \x27".toList ++ [op] ++ "\x27".toList
  | .expect_number => "expect a number".toList

/-- `pos = loc - user_input`. -/
def error_pos (user_input loc : List Char) : Nat :=
  user_input.length - loc.length

/-- `printf("%*s", pos, " ")`: the one-character string `" "` right-justified in a field
of width `pos`. -/
def pad_field (pos : Nat) : List Char :=
  List.replicate (pos - 1) ' ' ++ [' ']

/-- What `error_at(loc, fmt, ...)` writes to standard error. -/
def error_at (user_input loc : List Char) (msg : ErrMsg) : List Char :=
  user_input ++ ['\n'] ++ pad_field (error_pos user_input loc) ++ "^ ".toList
    ++ msg.text ++ ['\n']

/-- What a terminated run of the compiler has done. -/
structure Process where
  stdout : List String
  stderr : List Char
  status : Nat
deriving DecidableEq, Repr

/-- The two calls `token = tokenize(); Node *node = expr();` of `main`: the tree and the
final value of the cursor `token`. -/
def front_end (user_input : List Char) : Res (Node × List Token) :=
  (tokenize user_input).bind parse

/-- The steps of `main` after `user_input = argv[1]`. A call of `error_at` writes its text
to standard error and exits with status 1 before anything is printed. -/
def compile (user_input : List Char) : Res Process :=
  match front_end user_input with
  | .error_at loc msg =>
    .ok { stdout := [], stderr := error_at user_input loc msg, status := 1 }
  | .null_deref => .null_deref
  | .out_of_fuel => .out_of_fuel
  | .ok (node, _) =>
    match gen node with
    | .error_at loc msg =>
      .ok { stdout := [], stderr := error_at user_input loc msg, status := 1 }
    | .null_deref => .null_deref
    | .out_of_fuel => .out_of_fuel
    | .ok code =>
      .ok { stdout := [".globl main", "main:"] ++ code.map Instr.text
              ++ [Instr.text .ldr_x0_pop, Instr.text .ret],
            stderr := [], status := 0 }

/-- `main(argc, argv)` with `argv` the list of `argc` arguments. -/
def main (argv : List (List Char)) : Res Process :=
  match argv with
  | [] => .null_deref
  | [_, user_input] => compile user_input
  | prog :: _ =>
    .ok { stdout := [], stderr := prog ++ ": invalid number of arguments\n".toList,
          status := 1 }

/-! ## Target machine -/

/-- Registers `x0`, `x1` and the 16-byte slots above `sp` that the program has pushed. -/
structure Machine where
  x0 : Int
  x1 : Int
  stack : List Int
deriving DecidableEq, Repr

/-- Reduction of an integer into the signed 64-bit range. -/
def wrap64 (v : Int) : Int :=
  (v + 2 ^ 63) % 2 ^ 64 - 2 ^ 63

/-- AArch64 semantics of one emitted instruction on 64-bit registers: `str x0, [sp, -16]!`
pushes, `ldr xN, [sp], 16` pops (stuck when the program has nothing pushed), `add`, `sub`
and `mul` wrap, `sdiv` truncates toward zero and gives `0` for a zero divisor. -/
def step (i : Instr) (m : Machine) : Option Machine :=
  match i with
  | .mov_x0_imm val => some { m with x0 := val }
  | .str_x0_push => some { m with stack := m.x0 :: m.stack }
  | .ldr_x1_pop =>
    match m.stack with
    | [] => none
    | v :: s => some { m with x1 := v, stack := s }
  | .ldr_x0_pop =>
    match m.stack with
    | [] => none
    | v :: s => some { m with x0 := v, stack := s }
  | .add_x0_x0_x1 => some { m with x0 := wrap64 (m.x0 + m.x1) }
  | .sub_x0_x0_x1 => some { m with x0 := wrap64 (m.x0 - m.x1) }
  | .mul_x0_x0_x1 => some { m with x0 := wrap64 (m.x0 * m.x1) }
  | .sdiv_x0_x0_x1 =>
    some { m with x0 := if m.x1 = 0 then 0 else wrap64 (Int.tdiv m.x0 m.x1) }
  | .ret => some m

/-- Execution of a straight-line instruction sequence. -/
def run : List Instr → Machine → Option Machine
  | [], m => some m
  | i :: is, m => (step i m).bind (run is)

/-- The value that the generated program leaves in `x0` when it is started in machine
state `m`: the code of `gen`, then the final `ldr x0, [sp], 16` and `ret` of `main`. -/
def result_x0 (user_input : List Char) (m : Machine) : Option Int :=
  match front_end user_input with
  | .ok (node, _) =>
    match gen node with
    | .ok code => (run (code ++ [.ldr_x0_pop, .ret]) m).map fun m1 => m1.x0
    | _ => none
  | _ => none

/-! ## Specification vocabulary -/

/-- The token is the operator or punctuation character `c`. -/
def is_op (c : Char) (t : Token) : Prop :=
  t.kind = .TK_RESERVED ∧ char0 t.str = c

instance (c : Char) (t : Token) : Decidable (is_op c t) := by
  unfold is_op
  infer_instance

/-- The nonterminals of the grammar. -/
inductive NT
  | expr
  | mul
  | primary
deriving DecidableEq, Repr

/-- The grammar of the specification over token sequences,
`expr = mul (("+" | "-") mul)*`, `mul = primary (("*" | "/") primary)*`,
`primary = "(" expr ")" | integer-literal`; a repetition is read as closure under
appending one more operator and operand. -/
inductive Sentence : NT → List Token → Prop
  | num (t : Token) : t.kind = .TK_NUM → Sentence .primary [t]
  | paren (l r : Token) (w : List Token) :
      is_op '(' l → Sentence .expr w → is_op ')' r → Sentence .primary (l :: w ++ [r])
  | mul_first (p : List Token) : Sentence .primary p → Sentence .mul p
  | mul_more (w : List Token) (t : Token) (p : List Token) :
      Sentence .mul w → is_op '*' t ∨ is_op '/' t → Sentence .primary p →
      Sentence .mul (w ++ t :: p)
  | expr_first (m : List Token) : Sentence .mul m → Sentence .expr m
  | expr_more (w : List Token) (t : Token) (m : List Token) :
      Sentence .expr w → is_op '+' t ∨ is_op '-' t → Sentence .mul m →
      Sentence .expr (w ++ t :: m)

/-- Grammar symbols for derivations that build the tree: the three productions, and the
two repetitions, which carry the operand built so far. -/
inductive Sym
  | expr
  | mul
  | primary
  | expr_rest (lhs : Node)
  | mul_rest (lhs : Node)

/-- The tree that the specification assigns to a sentence: a literal is a `new_num`,
parentheses give the tree of the inner expression, and each repetition step makes the tree
built so far the left child of a new binary node. -/
inductive Derives : Sym → List Token → Node → Prop
  | num (t : Token) : t.kind = .TK_NUM → Derives .primary [t] (new_num t.val)
  | paren (l r : Token) (w : List Token) (node : Node) :
      is_op '(' l → Derives .expr w node → is_op ')' r →
      Derives .primary (l :: w ++ [r]) node
  | mul (p r : List Token) (a node : Node) :
      Derives .primary p a → Derives (.mul_rest a) r node → Derives .mul (p ++ r) node
  | mul_done (a : Node) : Derives (.mul_rest a) [] a
  | mul_times (a : Node) (t : Token) (p : List Token) (b : Node) (r : List Token)
      (node : Node) :
      is_op '*' t → Derives .primary p b →
      Derives (.mul_rest (new_binary .ND_MUL a b)) r node →
      Derives (.mul_rest a) (t :: p ++ r) node
  | mul_over (a : Node) (t : Token) (p : List Token) (b : Node) (r : List Token)
      (node : Node) :
      is_op '/' t → Derives .primary p b →
      Derives (.mul_rest (new_binary .ND_DIV a b)) r node →
      Derives (.mul_rest a) (t :: p ++ r) node
  | expr (m r : List Token) (a node : Node) :
      Derives .mul m a → Derives (.expr_rest a) r node → Derives .expr (m ++ r) node
  | expr_done (a : Node) : Derives (.expr_rest a) [] a
  | expr_plus (a : Node) (t : Token) (m : List Token) (b : Node) (r : List Token)
      (node : Node) :
      is_op '+' t → Derives .mul m b →
      Derives (.expr_rest (new_binary .ND_ADD a b)) r node →
      Derives (.expr_rest a) (t :: m ++ r) node
  | expr_minus (a : Node) (t : Token) (m : List Token) (b : Node) (r : List Token)
      (node : Node) :
      is_op '-' t → Derives .mul m b →
      Derives (.expr_rest (new_binary .ND_SUB a b)) r node →
      Derives (.expr_rest a) (t :: m ++ r) node

/-- Value of a tree under integer arithmetic; division truncates toward zero. -/
def eval : Node → Int
  | .null => 0
  | .mk .ND_NUM _ _ val => val
  | .mk .ND_ADD lhs rhs _ => eval lhs + eval rhs
  | .mk .ND_SUB lhs rhs _ => eval lhs - eval rhs
  | .mk .ND_MUL lhs rhs _ => eval lhs * eval rhs
  | .mk .ND_DIV lhs rhs _ => Int.tdiv (eval lhs) (eval rhs)

/-- No `ND_DIV` node of the tree has a right operand of value zero. -/
def no_div_zero : Node → Bool
  | .null => true
  | .mk kind lhs rhs _ =>
    no_div_zero lhs && no_div_zero rhs && (kind != .ND_DIV || eval rhs != 0)

/-- The integer is in the signed 64-bit range. -/
def in_int64 (v : Int) : Bool :=
  decide (-(2 ^ 63) ≤ v) && decide (v < 2 ^ 63)

/-- The value of every subtree is in the signed 64-bit range. -/
def fits64 : Node → Bool
  | .null => true
  | .mk kind lhs rhs val => in_int64 (eval (.mk kind lhs rhs val)) && fits64 lhs && fits64 rhs

/-- Decimal value of a string of digits. -/
def decimal (ds : List Char) : Nat :=
  ds.foldl (fun acc c => acc * 10 + (c.toNat - 48)) 0

/-- The characters of which the tokenizer makes tokens or which it skips. -/
def lexical (c : Char) : Bool :=
  isspace c || isdigit c || isreserved c

/-- The token sequence that the specification requires for the text `p`, read character by
character; `prev_digit` tells whether the character before `p` is a digit. An operator
character gives an operator token, a digit that starts a run gives a literal token with
the value of the whole run, whitespace and the further digits of a run give nothing, and
the end of the text gives the end-of-input token. Each token points at its first
character. -/
def expected_tokens : Bool → List Char → List Token
  | _, [] => [{ kind := .TK_EOF, val := 0, str := [] }]
  | prev_digit, c :: cs =>
    if isreserved c then
      { kind := .TK_RESERVED, val := 0, str := c :: cs } :: expected_tokens false cs
    else if isdigit c && !prev_digit then
      { kind := .TK_NUM, val := decimal ((c :: cs).takeWhile isdigit), str := c :: cs }
        :: expected_tokens true cs
    else
      expected_tokens (isdigit c) cs

/-- An integer literal of the source text: a non-empty string of decimal digits (leading
zeros allowed) whose value fits in `int`. -/
def is_literal (ds : List Char) : Bool :=
  !ds.isEmpty && ds.all isdigit && decide (decimal ds < 2 ^ 31)

/-- A non-empty string of decimal digits. -/
def is_digits (ds : List Char) : Bool :=
  !ds.isEmpty && ds.all isdigit

/-- The `int` that the tokenizer stores for the string of digits `ds`: the result of
`strtol` converted to `int`. -/
def literal_val (ds : List Char) : Int :=
  long_to_int ((min (decimal ds) LONG_MAX : Nat) : Int)

/-- The node kind of an operator character. -/
def binop_kind (c : Char) : NodeKind :=
  if c = '+' then .ND_ADD
  else if c = '-' then .ND_SUB
  else if c = '*' then .ND_MUL
  else .ND_DIV

/-- One step of a chain: the operator character, its token, and an operand with its tree. -/
structure Link where
  op : Char
  tok : Token
  operand : List Token
  tree : Node

/-- The tokens of a chain after its first operand. -/
def links_tokens : List Link → List Token
  | [] => []
  | l :: ls => l.tok :: l.operand ++ links_tokens ls

/-- The left-leaning tree `(((a op1 p1) op2 p2) ... opn pn)`. -/
def left_tree (a : Node) (ls : List Link) : Node :=
  ls.foldl (fun acc l => new_binary (binop_kind l.op) acc l.tree) a

/-- A step of a chain of primaries at the level of `mul`. -/
def mul_link (l : Link) : Prop :=
  (l.op = '*' ∨ l.op = '/') ∧ is_op l.op l.tok ∧ Derives .primary l.operand l.tree

/-- A step of a chain of primaries at the level of `expr`. -/
def expr_link (l : Link) : Prop :=
  (l.op = '+' ∨ l.op = '-') ∧ is_op l.op l.tok ∧ Derives .primary l.operand l.tree

/-- The four binary operators of the grammar. -/
def is_binop (c : Char) : Prop :=
  c = '+' ∨ c = '-' ∨ c = '*' ∨ c = '/'

/-- The token as the tokenizer stores it: its value goes through `strtol` and the
conversion to `int`. -/
def stored (t : Token) : Token :=
  { t with val := long_to_int ((min t.val.toNat LONG_MAX : Nat) : Int) }

/-! ## Proof vocabulary -/

/-- The token sequence starts with a token that does not continue a `mul`. -/
def mul_stop (rest : List Token) : Prop :=
  ∃ t ts, rest = t :: ts ∧ ¬ is_op '*' t ∧ ¬ is_op '/' t

/-- The token sequence starts with a token that does not continue an `expr`. -/
def expr_stop (rest : List Token) : Prop :=
  ∃ t ts, rest = t :: ts ∧ ¬ is_op '*' t ∧ ¬ is_op '/' t ∧ ¬ is_op '+' t ∧ ¬ is_op '-' t

/-- What a derivation of `w` guarantees of the parser on `w` followed by `rest`, for every
amount of fuel from a bound linear in the length of `w`. -/
def Complete : Sym → List Token → Node → Prop
  | .primary, w, node =>
    ∀ n rest, 3 * w.length ≤ n → primary n (w ++ rest) = .ok (node, rest)
  | .mul_rest a, w, node =>
    ∀ n rest, 3 * w.length + 1 ≤ n → mul_stop rest → mul_loop n a (w ++ rest) = .ok (node, rest)
  | .mul, w, node =>
    ∀ n rest, 3 * w.length + 2 ≤ n → mul_stop rest → mul n (w ++ rest) = .ok (node, rest)
  | .expr_rest a, w, node =>
    ∀ n rest, 3 * w.length + 3 ≤ n → expr_stop rest →
      expr_loop n a (w ++ rest) = .ok (node, rest)
  | .expr, w, node =>
    ∀ n rest, 3 * w.length + 4 ≤ n → expr_stop rest → expr n (w ++ rest) = .ok (node, rest)

/-- Every result of the parser functions with fuel `n` comes with a derivation of the
tokens consumed. -/
def Sound (n : Nat) : Prop :=
  (∀ ts node rest, primary n ts = .ok (node, rest) →
      ∃ w, ts = w ++ rest ∧ Derives .primary w node) ∧
  (∀ a ts node rest, mul_loop n a ts = .ok (node, rest) →
      ∃ w, ts = w ++ rest ∧ Derives (.mul_rest a) w node) ∧
  (∀ ts node rest, mul n ts = .ok (node, rest) →
      ∃ w, ts = w ++ rest ∧ Derives .mul w node) ∧
  (∀ a ts node rest, expr_loop n a ts = .ok (node, rest) →
      ∃ w, ts = w ++ rest ∧ Derives (.expr_rest a) w node) ∧
  (∀ ts node rest, expr n ts = .ok (node, rest) →
      ∃ w, ts = w ++ rest ∧ Derives .expr w node)

/-- The shape of a tree: a literal has no children, a binary node has two trees as
children. -/
def well_formed : Node → Bool
  | .null => false
  | .mk .ND_NUM lhs rhs _ => decide (lhs = .null) && decide (rhs = .null)
  | .mk _ lhs rhs _ => well_formed lhs && well_formed rhs

/-- Well-formedness of the tree of a derivation; a repetition keeps it. -/
def Shaped : Sym → Node → Prop
  | .expr_rest a, node => well_formed a = true → well_formed node = true
  | .mul_rest a, node => well_formed a = true → well_formed node = true
  | _, node => well_formed node = true

/-- The production of a nonterminal. -/
def NT.sym : NT → Sym
  | .expr => .expr
  | .mul => .mul
  | .primary => .primary

/-- A repetition can be extended at its end by one more operator and operand. -/
def Extends : Sym → List Token → Node → Prop
  | .mul_rest a, w, node =>
    ∀ t p b, Derives .primary p b →
      (is_op '*' t → Derives (.mul_rest a) (w ++ t :: p) (new_binary .ND_MUL node b)) ∧
      (is_op '/' t → Derives (.mul_rest a) (w ++ t :: p) (new_binary .ND_DIV node b))
  | .expr_rest a, w, node =>
    ∀ t m b, Derives .mul m b →
      (is_op '+' t → Derives (.expr_rest a) (w ++ t :: m) (new_binary .ND_ADD node b)) ∧
      (is_op '-' t → Derives (.expr_rest a) (w ++ t :: m) (new_binary .ND_SUB node b))
  | _, _, _ => True

/-- The tokens of a text `p` when the text `q` with tokens `tq` is appended to it: every
token points into the longer text, and the tokens of `q` take the place of the
end-of-input token. -/
def splice (q : List Char) (tq : List Token) : List Token → List Token
  | [] => []
  | t :: ts =>
    if t.kind = .TK_EOF then tq else { t with str := t.str ++ q } :: splice q tq ts

/-- The derivation only looks at the kind, the value and the operator character. -/
def Respects (f : Token → Token) : Prop :=
  ∀ t, (f t).kind = t.kind ∧ (f t).val = t.val ∧
    ∀ c, c ≠ Char.ofNat 0 → is_op c t → is_op c (f t)

/-- The 64-bit register contents of an integer. -/
def to_u64 (v : Int) : Nat :=
  (v % 2 ^ 64).toNat

/-- MOVZ: a 16-bit value shifted left by 0, 16, 32 or 48. -/
def is_wide_imm (u : Nat) : Bool :=
  [0, 16, 32, 48].any fun s => u % 2 ^ s == 0 && decide (u / 2 ^ s < 2 ^ 16)

/-- The `e`-bit element with `k` low ones rotated right by `r`. -/
def rotated_ones (e k r : Nat) : Nat :=
  ((2 ^ k - 1) / 2 ^ r + (2 ^ k - 1) % 2 ^ r * 2 ^ (e - r)) % 2 ^ e

/-- The 64-bit value made of copies of the `e`-bit element `x`. -/
def replicate_elt (e x : Nat) : Nat :=
  ((List.range (64 / e)).map fun i => x * 2 ^ (e * i)).sum

/-- Logical (bitmask) immediate: copies of an element of 2, 4, 8, 16, 32 or 64 bits that is
a rotation of a run of ones, neither empty nor full. -/
def is_bitmask_imm (u : Nat) : Bool :=
  [2, 4, 8, 16, 32, 64].any fun e =>
    (List.range e).any fun k =>
      decide (1 ≤ k) && (List.range e).any fun r => replicate_elt e (rotated_ones e k r) == u

/-- The immediates that a single AArch64 `mov x0, #v` encodes: a 16-bit value shifted by
0, 16, 32 or 48 (MOVZ), the bitwise inverse of one (MOVN), or a bitmask immediate (ORR). -/
def mov_encodable (v : Int) : Bool :=
  is_wide_imm (to_u64 v) || is_wide_imm (2 ^ 64 - 1 - to_u64 v) || is_bitmask_imm (to_u64 v)

/-- The token sequence ends with an end-of-input token. -/
def ends_eof (ts : List Token) : Prop :=
  ∃ body eof, ts = body ++ [eof] ∧ eof.kind = .TK_EOF

/-- A parser result from cursor `ts` that respects the end of the sequence: no null
cursor was dereferenced, and a returned cursor still ends with the end-of-input token and
is not longer than `ts`. -/
def Good (ts : List Token) (r : Res (Node × List Token)) : Prop :=
  r ≠ .null_deref ∧
    ∀ node rest, r = .ok (node, rest) → ends_eof rest ∧ rest.length ≤ ts.length

/-- All five parser functions, run with fuel `n` from a cursor that ends with the
end-of-input token, give a result that respects the end of the sequence. -/
def Keeps (n : Nat) : Prop :=
  ∀ ts, ends_eof ts →
    Good ts (primary n ts) ∧ (∀ a, Good ts (mul_loop n a ts)) ∧ Good ts (mul n ts) ∧
    (∀ a, Good ts (expr_loop n a ts)) ∧ Good ts (expr n ts)

/-- Fuel from which each parser function returns on a cursor of a given length. -/
def Enough (n : Nat) : Prop :=
  ∀ ts, ends_eof ts →
    (3 * ts.length ≤ n → primary n ts ≠ .out_of_fuel) ∧
    (∀ a, 3 * ts.length ≤ n → mul_loop n a ts ≠ .out_of_fuel) ∧
    (3 * ts.length + 1 ≤ n → mul n ts ≠ .out_of_fuel) ∧
    (∀ a, 3 * ts.length ≤ n → expr_loop n a ts ≠ .out_of_fuel) ∧
    (3 * ts.length + 2 ≤ n → expr n ts ≠ .out_of_fuel)

/-- A result that is not a lack of fuel is not changed by one more unit of fuel. -/
def Stable (n : Nat) : Prop :=
  ∀ ts,
    (primary n ts ≠ .out_of_fuel → primary (n + 1) ts = primary n ts) ∧
    (∀ a, mul_loop n a ts ≠ .out_of_fuel → mul_loop (n + 1) a ts = mul_loop n a ts) ∧
    (mul n ts ≠ .out_of_fuel → mul (n + 1) ts = mul n ts) ∧
    (∀ a, expr_loop n a ts ≠ .out_of_fuel → expr_loop (n + 1) a ts = expr_loop n a ts) ∧
    (expr n ts ≠ .out_of_fuel → expr (n + 1) ts = expr n ts)

/-- With enough fuel the computation `f` gives `r`. -/
def Returns {α : Type} (f : Nat → Res α) (r : Res α) : Prop :=
  ∃ n0, ∀ n, n0 ≤ n → f n = r

/-- The tokens `pre` end with `(` or with a binary operator: a primary is required next. -/
def after_opener (pre : List Token) : Prop :=
  ∃ p0 o, pre = p0 ++ [o] ∧
    (is_op '(' o ∨ is_op '+' o ∨ is_op '-' o ∨ is_op '*' o ∨ is_op '/' o)

/-- The tokens `pre` end with `(` and an expression after it: a `)` is required next, or an
operator that continues the expression. -/
def after_group (pre : List Token) : Prop :=
  ∃ p0 l w node, pre = p0 ++ l :: w ∧ is_op '(' l ∧ Derives .expr w node

/-- The parser function `f` for the symbol `s`, called with cursor `ts`, fails with `msg` at
`loc` on the token `t` after consuming the tokens `pre`: `loc` is where `t` points, `pre`
is the beginning of a derivation of `s` that asks for the token of the message next, `t`
is not that token, and `f` fails on `t` whatever follows it. With `start` the function
starts with a primary. -/
def Fails (start : Bool) (f : Nat → List Token → Res (Node × List Token)) (s : Sym)
    (ts : List Token) (loc : List Char) (msg : ErrMsg) : Prop :=
  ∃ pre t rest, ts = pre ++ t :: rest ∧ loc = t.str ∧
    ((msg = .expect_char ')' ∧ ¬ is_op ')' t ∧ (∀ c, is_binop c → ¬ is_op c t) ∧
        after_group pre) ∨
      (msg = .expect_number ∧ t.kind ≠ .TK_NUM ∧ ¬ is_op '(' t ∧
        ((start = true ∧ pre = []) ∨ after_opener pre))) ∧
    (∃ ext node, Derives s (pre ++ ext) node) ∧
    ∀ rest2, Returns (fun n => f n (pre ++ t :: rest2)) (.error_at t.str msg)

/-- Every error of the five parser functions with fuel `n` is reported on the token that
follows the tokens consumed. -/
def Pinpoints (n : Nat) : Prop :=
  ∀ ts loc msg,
    (primary n ts = .error_at loc msg → Fails true primary .primary ts loc msg) ∧
    (∀ a, mul_loop n a ts = .error_at loc msg →
      Fails false (fun k => mul_loop k a) (.mul_rest a) ts loc msg) ∧
    (mul n ts = .error_at loc msg → Fails true mul .mul ts loc msg) ∧
    (∀ a, expr_loop n a ts = .error_at loc msg →
      Fails false (fun k => expr_loop k a) (.expr_rest a) ts loc msg) ∧
    (expr n ts = .error_at loc msg → Fails true expr .expr ts loc msg)

/-- A tree returned by the parser functions with fuel `n` leaves the cursor on a token that
does not continue the production. -/
def Stops (n : Nat) : Prop :=
  ∀ ts node rest,
    (∀ a, mul_loop n a ts = .ok (node, rest) → mul_stop rest) ∧
    (mul n ts = .ok (node, rest) → mul_stop rest) ∧
    (∀ a, mul_stop ts → expr_loop n a ts = .ok (node, rest) → expr_stop rest) ∧
    (expr n ts = .ok (node, rest) → expr_stop rest)

/-- The tokens of a derivation form a sentence of the grammar; those of a repetition extend
a sentence. -/
def Spells : Sym → List Token → Prop
  | .primary, w => Sentence .primary w
  | .mul, w => Sentence .mul w
  | .expr, w => Sentence .expr w
  | .mul_rest _, w => ∀ w0, Sentence .mul w0 → Sentence .mul (w0 ++ w)
  | .expr_rest _, w => ∀ w0, Sentence .expr w0 → Sentence .expr (w0 ++ w)

/-- The operator character of a binary node kind. -/
def op_char : NodeKind → Char
  | .ND_ADD => '+'
  | .ND_SUB => '-'
  | .ND_MUL => '*'
  | .ND_DIV => '/'
  | .ND_NUM => '0'

/-- The text of a tree: a literal in decimal, a binary node as `(` left op right `)`. -/
def render : Node → List Char
  | .null => []
  | .mk .ND_NUM _ _ val => Nat.toDigits 10 val.toNat
  | .mk kind lhs rhs _ => ['('] ++ render lhs ++ [op_char kind] ++ render rhs ++ [')']

/-- The trees that `new_num` and `new_binary` build, with every literal non-negative and
within `int` range. -/
def is_ast : Node → Bool
  | .null => false
  | .mk .ND_NUM lhs rhs val =>
    decide (lhs = .null) && decide (rhs = .null) && decide (0 ≤ val) && decide (val < 2 ^ 31)
  | .mk _ lhs rhs val => decide (val = 0) && is_ast lhs && is_ast rhs

/-! ## Theorems -/

/-! ### Tokenizer equations -/

theorem strtol_digits_length (p : List Char) :
    ∀ acc, (strtol_digits acc p).2.length ≤ p.length := by
  induction p with
  | nil => intro acc; simp [strtol_digits]
  | cons c cs ih =>
    intro acc
    unfold strtol_digits
    split
    · exact Nat.le_succ_of_le (ih _)
    · simp

theorem strtol_end_length (c : Char) (cs : List Char) (h : isdigit c = true) :
    (strtol (c :: cs)).2.length ≤ cs.length := by
  simp only [strtol, strtol_digits, h, if_true]
  exact strtol_digits_length cs _

theorem tokenize_loop_fuel (n : Nat) :
    ∀ (m : Nat) (p : List Char), p.length < n → p.length < m →
      tokenize_loop n p = tokenize_loop m p := by
  induction n with
  | zero => intro m p h; omega
  | succ n ih =>
    intro m p hn hm
    cases m with
    | zero => omega
    | succ m =>
      cases p with
      | nil => simp [tokenize_loop]
      | cons c cs =>
        simp only [List.length_cons] at hn hm
        simp only [tokenize_loop]
        by_cases hs : isspace c = true
        · simp only [hs, if_true]
          exact ih m cs (by omega) (by omega)
        · by_cases hr : isreserved c = true
          · simp only [hs, hr, if_true]
            rw [ih m cs (by omega) (by omega)]
          · by_cases hd : isdigit c = true
            · have hl := strtol_end_length c cs hd
              simp only [hs, hr, hd, if_true]
              rw [ih m (strtol (c :: cs)).2 (by omega) (by omega)]
              simp
            · simp [hs, hr, hd]

theorem tokenize_nil : tokenize [] = .ok [new_token .TK_EOF []] := rfl

theorem tokenize_cons (c : Char) (cs : List Char) :
    tokenize (c :: cs) =
      if isspace c then tokenize cs
      else if isreserved c then
        (tokenize cs).bind fun ts => .ok (new_token .TK_RESERVED (c :: cs) :: ts)
      else if isdigit c then
        (tokenize (strtol (c :: cs)).2).bind fun ts =>
          .ok ({ new_token .TK_NUM (c :: cs) with val := long_to_int (strtol (c :: cs)).1 } :: ts)
      else .error_at (c :: cs) .invalid_token := by
  unfold tokenize
  simp only [List.length_cons, tokenize_loop]
  by_cases hs : isspace c = true
  · simp only [hs, if_true]
  · by_cases hr : isreserved c = true
    · simp only [hs, hr, if_true]
    · by_cases hd : isdigit c = true
      · have hl := strtol_end_length c cs hd
        simp only [hs, hr, hd, if_true]
        rw [tokenize_loop_fuel (cs.length + 1) ((strtol (c :: cs)).2.length + 1)
          (strtol (c :: cs)).2 (by omega) (by omega)]
      · simp [hs, hr, hd]

/-! ### Parser: every derivation is parsed -/

theorem consume_hit (c : Char) (t : Token) (ts : List Token) (h : is_op c t) :
    consume c (t :: ts) = .ok (true, ts) := by
  obtain ⟨h1, h2⟩ := h
  simp [consume, h1, h2]

theorem consume_miss (c : Char) (t : Token) (ts : List Token) (h : ¬ is_op c t) :
    consume c (t :: ts) = .ok (false, t :: ts) := by
  unfold is_op at h
  have hc : t.kind ≠ .TK_RESERVED ∨ char0 t.str ≠ c := by
    by_cases hk : t.kind = .TK_RESERVED
    · right; exact fun hc => h ⟨hk, hc⟩
    · left; exact hk
  simp only [consume, if_pos hc]

theorem expect_hit (c : Char) (t : Token) (ts : List Token) (h : is_op c t) :
    expect c (t :: ts) = .ok ts := by
  obtain ⟨h1, h2⟩ := h
  simp [expect, h1, h2]

theorem expect_miss (c : Char) (t : Token) (ts : List Token) (h : ¬ is_op c t) :
    expect c (t :: ts) = .error_at t.str (.expect_char c) := by
  unfold is_op at h
  have hc : t.kind ≠ .TK_RESERVED ∨ char0 t.str ≠ c := by
    by_cases hk : t.kind = .TK_RESERVED
    · right; exact fun hc => h ⟨hk, hc⟩
    · left; exact hk
  simp only [expect, if_pos hc]

theorem expect_number_hit (t : Token) (ts : List Token) (h : t.kind = .TK_NUM) :
    expect_number (t :: ts) = .ok (t.val, ts) := by
  simp [expect_number, h]

theorem expect_number_miss (t : Token) (ts : List Token) (h : t.kind ≠ .TK_NUM) :
    expect_number (t :: ts) = .error_at t.str .expect_number := by
  simp [expect_number, h]

theorem bind_eq_ok {α β : Type} {r : Res α} {f : α → Res β} {b : β}
    (h : r.bind f = .ok b) : ∃ a, r = .ok a ∧ f a = .ok b := by
  cases r with
  | ok a => exact ⟨a, rfl, h⟩
  | error_at loc msg => simp [Res.bind] at h
  | null_deref => simp [Res.bind] at h
  | out_of_fuel => simp [Res.bind] at h

theorem is_op_ne {c d : Char} {t : Token} (h : is_op c t) (hcd : c ≠ d) : ¬ is_op d t := by
  intro h2
  exact hcd (h.2.symm.trans h2.2)

theorem num_not_op {c : Char} {t : Token} (h : t.kind = .TK_NUM) : ¬ is_op c t := by
  intro h2
  rw [h2.1] at h
  exact absurd h (by decide)

theorem expr_stop_mul_stop {rest : List Token} (h : expr_stop rest) : mul_stop rest := by
  obtain ⟨t, ts, h1, h2, h3, _, _⟩ := h
  exact ⟨t, ts, h1, h2, h3⟩

theorem expr_rest_mul_stop {a node : Node} {r rest : List Token}
    (h : Derives (.expr_rest a) r node) (hs : expr_stop rest) : mul_stop (r ++ rest) := by
  cases h with
  | expr_done => exact expr_stop_mul_stop hs
  | expr_plus _ t m b r node ht _ _ =>
    exact ⟨t, _, rfl, is_op_ne ht (by decide), is_op_ne ht (by decide)⟩
  | expr_minus _ t m b r node ht _ _ =>
    exact ⟨t, _, rfl, is_op_ne ht (by decide), is_op_ne ht (by decide)⟩

theorem derives_complete {s : Sym} {w : List Token} {node : Node} (h : Derives s w node) :
    Complete s w node := by
  induction h with
  | num t ht =>
    intro n rest hn
    obtain ⟨k, rfl⟩ : ∃ k, n = k + 1 := ⟨n - 1, by simp at hn; omega⟩
    simp [primary, consume_miss _ _ _ (num_not_op ht), expect_number_hit _ _ ht, Res.bind]
  | paren l r w node hl _ hr ih =>
    intro n rest hn
    obtain ⟨k, rfl⟩ : ∃ k, n = k + 1 := ⟨n - 1, by simp at hn; omega⟩
    have hstop : expr_stop (r :: rest) :=
      ⟨r, rest, rfl, is_op_ne hr (by decide), is_op_ne hr (by decide),
        is_op_ne hr (by decide), is_op_ne hr (by decide)⟩
    have h1 := ih k (r :: rest) (by simp at hn; omega) hstop
    simp [primary, consume_hit _ _ _ hl, Res.bind, h1, expect_hit _ _ _ hr]
  | mul p r a node _ _ ih1 ih2 =>
    intro n rest hn hstop
    obtain ⟨k, rfl⟩ : ∃ k, n = k + 1 := ⟨n - 1, by omega⟩
    have h1 := ih1 k (r ++ rest) (by simp at hn; omega)
    have h2 := ih2 k rest (by simp at hn; omega) hstop
    simp [mul, Res.bind, h1, h2]
  | mul_done a =>
    intro n rest hn hstop
    obtain ⟨k, rfl⟩ : ∃ k, n = k + 1 := ⟨n - 1, by omega⟩
    obtain ⟨t, ts, rfl, h1, h2⟩ := hstop
    simp [mul_loop, consume_miss _ _ _ h1, consume_miss _ _ _ h2, Res.bind]
  | mul_times a t p b r node ht _ _ ih1 ih2 =>
    intro n rest hn hstop
    obtain ⟨k, rfl⟩ : ∃ k, n = k + 1 := ⟨n - 1, by omega⟩
    have h1 := ih1 k (r ++ rest) (by simp at hn; omega)
    have h2 := ih2 k rest (by simp at hn; omega) hstop
    simp [mul_loop, consume_hit _ _ _ ht, Res.bind, h1, h2]
  | mul_over a t p b r node ht _ _ ih1 ih2 =>
    intro n rest hn hstop
    obtain ⟨k, rfl⟩ : ∃ k, n = k + 1 := ⟨n - 1, by omega⟩
    have h1 := ih1 k (r ++ rest) (by simp at hn; omega)
    have h2 := ih2 k rest (by simp at hn; omega) hstop
    have hm : ¬ is_op '*' t := is_op_ne ht (by decide)
    simp [mul_loop, consume_miss _ _ _ hm, consume_hit _ _ _ ht, Res.bind, h1, h2]
  | expr m r a node _ hr ih1 ih2 =>
    intro n rest hn hstop
    obtain ⟨k, rfl⟩ : ∃ k, n = k + 1 := ⟨n - 1, by omega⟩
    have h1 := ih1 k (r ++ rest) (by simp at hn; omega) (expr_rest_mul_stop hr hstop)
    have h2 := ih2 k rest (by simp at hn; omega) hstop
    simp [expr, Res.bind, h1, h2]
  | expr_done a =>
    intro n rest hn hstop
    obtain ⟨k, rfl⟩ : ∃ k, n = k + 1 := ⟨n - 1, by omega⟩
    obtain ⟨t, ts, rfl, _, _, h1, h2⟩ := hstop
    simp [expr_loop, consume_miss _ _ _ h1, consume_miss _ _ _ h2, Res.bind]
  | expr_plus a t m b r node ht _ hr ih1 ih2 =>
    intro n rest hn hstop
    obtain ⟨k, rfl⟩ : ∃ k, n = k + 1 := ⟨n - 1, by omega⟩
    have h1 := ih1 k (r ++ rest) (by simp at hn; omega) (expr_rest_mul_stop hr hstop)
    have h2 := ih2 k rest (by simp at hn; omega) hstop
    simp [expr_loop, consume_hit _ _ _ ht, Res.bind, h1, h2]
  | expr_minus a t m b r node ht _ hr ih1 ih2 =>
    intro n rest hn hstop
    obtain ⟨k, rfl⟩ : ∃ k, n = k + 1 := ⟨n - 1, by omega⟩
    have h1 := ih1 k (r ++ rest) (by simp at hn; omega) (expr_rest_mul_stop hr hstop)
    have h2 := ih2 k rest (by simp at hn; omega) hstop
    have hm : ¬ is_op '+' t := is_op_ne ht (by decide)
    simp [expr_loop, consume_miss _ _ _ hm, consume_hit _ _ _ ht, Res.bind, h1, h2]

/-! ### Parser: every result has a derivation -/

theorem sound_primary (n : Nat) (ih : Sound n) (ts : List Token) (node : Node)
    (rest : List Token) (h : primary (n + 1) ts = .ok (node, rest)) :
    ∃ w, ts = w ++ rest ∧ Derives .primary w node := by
  cases ts with
  | nil => simp [primary, consume, Res.bind] at h
  | cons t tl =>
    by_cases hp : is_op '(' t
    · simp only [primary, consume_hit _ _ _ hp, Res.bind, if_true] at h
      obtain ⟨⟨a, r1⟩, he, h2⟩ := bind_eq_ok h
      obtain ⟨w, hw, hd⟩ := ih.2.2.2.2 tl a r1 he
      cases r1 with
      | nil => simp [expect, Res.bind] at h2
      | cons t2 tl2 =>
        by_cases hq : is_op ')' t2
        · simp only [expect_hit _ _ _ hq, Res.bind, Res.ok.injEq, Prod.mk.injEq] at h2
          obtain ⟨rfl, rfl⟩ := h2
          exact ⟨t :: w ++ [t2], by simp [hw], Derives.paren t t2 w a hp hd hq⟩
        · simp [expect_miss _ _ _ hq, Res.bind] at h2
    · simp only [primary, consume_miss _ _ _ hp, Res.bind] at h
      by_cases hk : t.kind = .TK_NUM
      · simp only [expect_number_hit _ _ hk, Res.bind, Res.ok.injEq, Prod.mk.injEq] at h
        simp at h
        obtain ⟨rfl, rfl⟩ := h
        exact ⟨[t], rfl, Derives.num t hk⟩
      · simp [expect_number_miss _ _ hk, Res.bind] at h

theorem sound_mul_loop (n : Nat) (ih : Sound n) (a : Node) (ts : List Token) (node : Node)
    (rest : List Token) (h : mul_loop (n + 1) a ts = .ok (node, rest)) :
    ∃ w, ts = w ++ rest ∧ Derives (.mul_rest a) w node := by
  cases ts with
  | nil => simp [mul_loop, consume, Res.bind] at h
  | cons t tl =>
    by_cases hp : is_op '*' t
    · simp only [mul_loop, consume_hit _ _ _ hp, Res.bind, if_true] at h
      obtain ⟨⟨b, r1⟩, he, h2⟩ := bind_eq_ok h
      obtain ⟨w1, hw1, hd1⟩ := ih.1 tl b r1 he
      obtain ⟨w2, hw2, hd2⟩ := ih.2.1 _ r1 node rest h2
      exact ⟨t :: w1 ++ w2, by simp [hw1, hw2], Derives.mul_times a t w1 b w2 node hp hd1 hd2⟩
    · by_cases hq : is_op '/' t
      · simp only [mul_loop, consume_miss _ _ _ hp, consume_hit _ _ _ hq, Res.bind] at h
        simp at h
        obtain ⟨⟨b, r1⟩, he, h2⟩ := bind_eq_ok h
        obtain ⟨w1, hw1, hd1⟩ := ih.1 tl b r1 he
        obtain ⟨w2, hw2, hd2⟩ := ih.2.1 _ r1 node rest h2
        exact ⟨t :: w1 ++ w2, by simp [hw1, hw2], Derives.mul_over a t w1 b w2 node hq hd1 hd2⟩
      · simp only [mul_loop, consume_miss _ _ _ hp, consume_miss _ _ _ hq, Res.bind] at h
        simp at h
        obtain ⟨rfl, rfl⟩ := h
        exact ⟨[], rfl, Derives.mul_done a⟩

theorem sound_expr_loop (n : Nat) (ih : Sound n) (a : Node) (ts : List Token) (node : Node)
    (rest : List Token) (h : expr_loop (n + 1) a ts = .ok (node, rest)) :
    ∃ w, ts = w ++ rest ∧ Derives (.expr_rest a) w node := by
  cases ts with
  | nil => simp [expr_loop, consume, Res.bind] at h
  | cons t tl =>
    by_cases hp : is_op '+' t
    · simp only [expr_loop, consume_hit _ _ _ hp, Res.bind, if_true] at h
      obtain ⟨⟨b, r1⟩, he, h2⟩ := bind_eq_ok h
      obtain ⟨w1, hw1, hd1⟩ := ih.2.2.1 tl b r1 he
      obtain ⟨w2, hw2, hd2⟩ := ih.2.2.2.1 _ r1 node rest h2
      exact ⟨t :: w1 ++ w2, by simp [hw1, hw2], Derives.expr_plus a t w1 b w2 node hp hd1 hd2⟩
    · by_cases hq : is_op '-' t
      · simp only [expr_loop, consume_miss _ _ _ hp, consume_hit _ _ _ hq, Res.bind] at h
        simp at h
        obtain ⟨⟨b, r1⟩, he, h2⟩ := bind_eq_ok h
        obtain ⟨w1, hw1, hd1⟩ := ih.2.2.1 tl b r1 he
        obtain ⟨w2, hw2, hd2⟩ := ih.2.2.2.1 _ r1 node rest h2
        exact ⟨t :: w1 ++ w2, by simp [hw1, hw2],
          Derives.expr_minus a t w1 b w2 node hq hd1 hd2⟩
      · simp only [expr_loop, consume_miss _ _ _ hp, consume_miss _ _ _ hq, Res.bind] at h
        simp at h
        obtain ⟨rfl, rfl⟩ := h
        exact ⟨[], rfl, Derives.expr_done a⟩

theorem parser_sound (n : Nat) : Sound n := by
  induction n with
  | zero =>
    refine ⟨?_, ?_, ?_, ?_, ?_⟩ <;> intros <;> simp_all [primary, mul_loop, mul, expr_loop, expr]
  | succ n ih =>
    refine ⟨sound_primary n ih, sound_mul_loop n ih, ?_, sound_expr_loop n ih, ?_⟩
    · intro ts node rest h
      simp only [mul] at h
      obtain ⟨⟨a, r1⟩, he, h2⟩ := bind_eq_ok h
      obtain ⟨w1, hw1, hd1⟩ := ih.1 ts a r1 he
      obtain ⟨w2, hw2, hd2⟩ := ih.2.1 _ r1 node rest h2
      exact ⟨w1 ++ w2, by simp [hw1, hw2], Derives.mul w1 w2 a node hd1 hd2⟩
    · intro ts node rest h
      simp only [expr] at h
      obtain ⟨⟨a, r1⟩, he, h2⟩ := bind_eq_ok h
      obtain ⟨w1, hw1, hd1⟩ := ih.2.2.1 ts a r1 he
      obtain ⟨w2, hw2, hd2⟩ := ih.2.2.2.1 _ r1 node rest h2
      exact ⟨w1 ++ w2, by simp [hw1, hw2], Derives.expr w1 w2 a node hd1 hd2⟩

/-! ### Code generator and machine -/

theorem run_append (a b : List Instr) (m : Machine) :
    run (a ++ b) m = (run a m).bind (run b) := by
  induction a generalizing m with
  | nil => simp [run]
  | cons i is ih =>
    simp only [List.cons_append, run]
    cases step i m with
    | none => simp
    | some m1 => simpa using ih m1

theorem wrap64_of_in_int64 (v : Int) (h : in_int64 v = true) : wrap64 v = v := by
  simp only [in_int64, Bool.and_eq_true, decide_eq_true_eq] at h
  unfold wrap64
  omega

/-- The code of a well-formed tree is emitted, and it pushes the value of the tree. -/
theorem gen_pushes (node : Node) (hwf : well_formed node = true) :
    ∃ code, gen node = .ok code ∧
      (no_div_zero node = true → fits64 node = true →
        ∀ m : Machine, ∃ m1, run code m = some m1 ∧ m1.x0 = eval node ∧
          m1.stack = eval node :: m.stack) := by
  induction node with
  | null => simp [well_formed] at hwf
  | mk kind lhs rhs val ihl ihr =>
    by_cases hk : kind = .ND_NUM
    · subst hk
      refine ⟨[.mov_x0_imm val, .str_x0_push], by simp [gen], ?_⟩
      intro _ _ m
      exact ⟨_, rfl, by simp [eval], by simp [eval]⟩
    · have hwf2 : well_formed lhs = true ∧ well_formed rhs = true := by
        cases kind <;> simp_all [well_formed]
      obtain ⟨cl, hcl, hrl⟩ := ihl hwf2.1
      obtain ⟨cr, hcr, hrr⟩ := ihr hwf2.2
      refine ⟨cl ++ cr ++ [.ldr_x1_pop, .ldr_x0_pop] ++ gen_switch kind ++ [.str_x0_push],
        by simp [gen, hk, hcl, hcr, Res.bind], ?_⟩
      intro hnz hfit m
      simp only [no_div_zero, fits64, Bool.and_eq_true] at hnz hfit
      obtain ⟨m1, hm1, hx1, hs1⟩ := hrl hnz.1.1 hfit.1.2 m
      obtain ⟨m2, hm2, hx2, hs2⟩ := hrr hnz.1.2 hfit.2 m1
      have hin := wrap64_of_in_int64 _ hfit.1.1
      simp only [List.append_assoc, run_append, hm1, hm2, Option.some_bind, Option.bind_eq_bind]
      cases kind with
      | ND_NUM => exact absurd rfl hk
      | ND_ADD =>
        simp only [eval] at hin
        simp [run, step, hs2, hs1, gen_switch, eval, hx2, hin]
      | ND_SUB =>
        simp only [eval] at hin
        simp [run, step, hs2, hs1, gen_switch, eval, hx2, hin]
      | ND_MUL =>
        simp only [eval] at hin
        simp [run, step, hs2, hs1, gen_switch, eval, hx2, hin]
      | ND_DIV =>
        simp only [eval] at hin
        have hz : eval rhs ≠ 0 := by simpa using hnz.2
        simp [run, step, hs2, hs1, gen_switch, eval, hx2, hin, hz]

/-! ### The compiled program -/

theorem derives_shaped {s : Sym} {w : List Token} {node : Node} (h : Derives s w node) :
    Shaped s node := by
  induction h with
  | num t ht => simp [Shaped, new_num, well_formed]
  | paren l r w node _ _ _ ih => exact ih
  | mul p r a node _ _ ih1 ih2 => exact ih2 ih1
  | mul_done a => exact fun h => h
  | mul_times a t p b r node _ _ _ ih1 ih2 =>
    intro ha
    exact ih2 (by simp_all [Shaped, new_binary, new_node, well_formed])
  | mul_over a t p b r node _ _ _ ih1 ih2 =>
    intro ha
    exact ih2 (by simp_all [Shaped, new_binary, new_node, well_formed])
  | expr m r a node _ _ ih1 ih2 => exact ih2 ih1
  | expr_done a => exact fun h => h
  | expr_plus a t m b r node _ _ _ ih1 ih2 =>
    intro ha
    exact ih2 (by simp_all [Shaped, new_binary, new_node, well_formed])
  | expr_minus a t m b r node _ _ _ ih1 ih2 =>
    intro ha
    exact ih2 (by simp_all [Shaped, new_binary, new_node, well_formed])

theorem parse_derives {token : List Token} {node : Node} {rest : List Token}
    (h : parse token = .ok (node, rest)) :
    ∃ consumed, token = consumed ++ rest ∧ Derives .expr consumed node :=
  (parser_sound (parse_fuel token)).2.2.2.2 token node rest h

theorem front_end_ok {user_input : List Char} {node : Node} {rest : List Token}
    (h : front_end user_input = .ok (node, rest)) :
    ∃ token, tokenize user_input = .ok token ∧ parse token = .ok (node, rest) :=
  bind_eq_ok h

theorem run_program {node : Node} {code : List Instr} (hwf : well_formed node = true)
    (hgen : gen node = .ok code) (hdiv : no_div_zero node = true)
    (hfit : fits64 node = true) (m : Machine) :
    ∃ m1, run (code ++ [.ldr_x0_pop]) m = some m1 ∧ m1.x0 = eval node ∧
      m1.stack = m.stack := by
  obtain ⟨code2, hgen2, hrun⟩ := gen_pushes node hwf
  rw [hgen] at hgen2
  cases hgen2
  obtain ⟨m1, hm1, _, hs1⟩ := hrun hdiv hfit m
  refine ⟨{ m1 with x0 := eval node, stack := m.stack }, ?_, rfl, rfl⟩
  simp [run_append, hm1, run, step, hs1]

theorem result_x0_eq {user_input : List Char} {node : Node} {rest : List Token}
    (h : front_end user_input = .ok (node, rest)) (hdiv : no_div_zero node = true)
    (hfit : fits64 node = true) (m : Machine) :
    result_x0 user_input m = some (eval node) := by
  obtain ⟨token, _, hparse⟩ := front_end_ok h
  obtain ⟨consumed, _, hder⟩ := parse_derives hparse
  have hwf : well_formed node = true := derives_shaped hder
  obtain ⟨code, hgen, _⟩ := gen_pushes node hwf
  obtain ⟨m1, hm1, hx, _⟩ := run_program hwf hgen hdiv hfit m
  have hrun : run (code ++ [.ldr_x0_pop, .ret]) m = some m1 := by
    have : code ++ [Instr.ldr_x0_pop, Instr.ret] = (code ++ [.ldr_x0_pop]) ++ [.ret] := by simp
    rw [this, run_append, hm1]
    simp [run, step]
  simp [result_x0, h, hgen, hrun, hx]

/-! ### Sentences of the grammar -/

theorem derives_extends {s : Sym} {w : List Token} {node : Node} (h : Derives s w node) :
    Extends s w node := by
  induction h with
  | num t ht => trivial
  | paren l r w node _ _ _ ih => trivial
  | mul p r a node _ _ ih1 ih2 => trivial
  | expr m r a node _ _ ih1 ih2 => trivial
  | mul_done a =>
    intro t p b hp
    constructor
    · intro ht
      have := Derives.mul_times a t p b [] _ ht hp (Derives.mul_done _)
      simpa using this
    · intro ht
      have := Derives.mul_over a t p b [] _ ht hp (Derives.mul_done _)
      simpa using this
  | expr_done a =>
    intro t p b hp
    constructor
    · intro ht
      have := Derives.expr_plus a t p b [] _ ht hp (Derives.expr_done _)
      simpa using this
    · intro ht
      have := Derives.expr_minus a t p b [] _ ht hp (Derives.expr_done _)
      simpa using this
  | mul_times a t p b r node ht hp _ ih1 ih2 =>
    intro t2 p2 b2 hp2
    constructor
    · intro ht2
      have := Derives.mul_times a t p b _ _ ht hp ((ih2 t2 p2 b2 hp2).1 ht2)
      simpa using this
    · intro ht2
      have := Derives.mul_times a t p b _ _ ht hp ((ih2 t2 p2 b2 hp2).2 ht2)
      simpa using this
  | mul_over a t p b r node ht hp _ ih1 ih2 =>
    intro t2 p2 b2 hp2
    constructor
    · intro ht2
      have := Derives.mul_over a t p b _ _ ht hp ((ih2 t2 p2 b2 hp2).1 ht2)
      simpa using this
    · intro ht2
      have := Derives.mul_over a t p b _ _ ht hp ((ih2 t2 p2 b2 hp2).2 ht2)
      simpa using this
  | expr_plus a t p b r node ht hp _ ih1 ih2 =>
    intro t2 p2 b2 hp2
    constructor
    · intro ht2
      have := Derives.expr_plus a t p b _ _ ht hp ((ih2 t2 p2 b2 hp2).1 ht2)
      simpa using this
    · intro ht2
      have := Derives.expr_plus a t p b _ _ ht hp ((ih2 t2 p2 b2 hp2).2 ht2)
      simpa using this
  | expr_minus a t p b r node ht hp _ ih1 ih2 =>
    intro t2 p2 b2 hp2
    constructor
    · intro ht2
      have := Derives.expr_minus a t p b _ _ ht hp ((ih2 t2 p2 b2 hp2).1 ht2)
      simpa using this
    · intro ht2
      have := Derives.expr_minus a t p b _ _ ht hp ((ih2 t2 p2 b2 hp2).2 ht2)
      simpa using this

theorem sentence_derives {nt : NT} {w : List Token} (h : Sentence nt w) :
    ∃ node, Derives nt.sym w node := by
  induction h with
  | num t ht => exact ⟨_, Derives.num t ht⟩
  | paren l r w hl _ hr ih =>
    obtain ⟨node, hn⟩ := ih
    exact ⟨node, Derives.paren l r w node hl hn hr⟩
  | mul_first p _ ih =>
    obtain ⟨a, ha⟩ := ih
    have := Derives.mul p [] a a ha (Derives.mul_done a)
    exact ⟨a, by simpa using this⟩
  | mul_more w t p _ ht _ ih1 ih2 =>
    obtain ⟨node, hn⟩ := ih1
    obtain ⟨b, hb⟩ := ih2
    cases hn with
    | mul p0 r a _ hp0 hr =>
      have hext := derives_extends hr t p b hb
      rcases ht with ht | ht
      · have := Derives.mul p0 _ a _ hp0 (hext.1 ht)
        exact ⟨_, by simpa using this⟩
      · have := Derives.mul p0 _ a _ hp0 (hext.2 ht)
        exact ⟨_, by simpa using this⟩
  | expr_first m _ ih =>
    obtain ⟨a, ha⟩ := ih
    have := Derives.expr m [] a a ha (Derives.expr_done a)
    exact ⟨a, by simpa using this⟩
  | expr_more w t m _ ht _ ih1 ih2 =>
    obtain ⟨node, hn⟩ := ih1
    obtain ⟨b, hb⟩ := ih2
    cases hn with
    | expr m0 r a _ hm0 hr =>
      have hext := derives_extends hr t m b hb
      rcases ht with ht | ht
      · have := Derives.expr m0 _ a _ hm0 (hext.1 ht)
        exact ⟨_, by simpa using this⟩
      · have := Derives.expr m0 _ a _ hm0 (hext.2 ht)
        exact ⟨_, by simpa using this⟩

theorem eof_expr_stop {eof : Token} (h : eof.kind = .TK_EOF) (ts : List Token) :
    expr_stop (eof :: ts) := by
  have hno : ∀ c, ¬ is_op c eof := by
    intro c hc
    rw [hc.1] at h
    exact absurd h (by decide)
  exact ⟨eof, ts, rfl, hno _, hno _, hno _, hno _⟩

theorem derives_parse {w : List Token} {node : Node} (h : Derives .expr w node)
    {rest : List Token} (hstop : expr_stop rest) :
    parse (w ++ rest) = .ok (node, rest) := by
  have hc : Complete .expr w node := derives_complete h
  exact hc (parse_fuel (w ++ rest)) rest (by simp [parse_fuel]) hstop

theorem sentence_parses {w : List Token} (h : Sentence .expr w) {eof : Token}
    (heof : eof.kind = .TK_EOF) :
    ∃ node, parse (w ++ [eof]) = .ok (node, [eof]) ∧ Derives .expr w node := by
  obtain ⟨node, hn⟩ := sentence_derives h
  exact ⟨node, derives_parse hn (eof_expr_stop heof []), hn⟩

/-- C3: for every token sequence that is a sentence of the grammar followed by the
end-of-input token, `expr` as called by `main` returns a tree (no `error_at`, no null
cursor, fuel left) and leaves the cursor on the end-of-input token: it consumes every
token of the expression and nothing else. -/
theorem parser_complete (w : List Token) (eof : Token) (h : Sentence .expr w)
    (heof : eof.kind = .TK_EOF) :
    ∃ node, parse (w ++ [eof]) = .ok (node, [eof]) := by
  obtain ⟨node, hn, _⟩ := sentence_parses h heof
  exact ⟨node, hn⟩

theorem parser_complete_witness :
    Sentence .expr
      [{ kind := .TK_NUM, val := 1, str := "1+2".toList },
       { kind := .TK_RESERVED, val := 0, str := "+2".toList },
       { kind := .TK_NUM, val := 2, str := "2".toList }] ∧
    ∃ node,
      parse ([{ kind := .TK_NUM, val := 1, str := "1+2".toList },
              { kind := .TK_RESERVED, val := 0, str := "+2".toList },
              { kind := .TK_NUM, val := 2, str := "2".toList }]
            ++ [{ kind := .TK_EOF, val := 0, str := [] }])
        = .ok (node, [{ kind := .TK_EOF, val := 0, str := [] }]) :=
  have hs : Sentence .expr
      [{ kind := .TK_NUM, val := 1, str := "1+2".toList },
       { kind := .TK_RESERVED, val := 0, str := "+2".toList },
       { kind := .TK_NUM, val := 2, str := "2".toList }] :=
    Sentence.expr_more [{ kind := .TK_NUM, val := 1, str := "1+2".toList }]
      { kind := .TK_RESERVED, val := 0, str := "+2".toList }
      [{ kind := .TK_NUM, val := 2, str := "2".toList }]
      (Sentence.expr_first _ (Sentence.mul_first _ (Sentence.num _ rfl)))
      (Or.inl ⟨rfl, rfl⟩)
      (Sentence.mul_first _ (Sentence.num _ rfl))
  ⟨hs, parser_complete _ { kind := .TK_EOF, val := 0, str := [] } hs rfl⟩

/-- C2 (failing inputs): the tokens of `"1 2"` and of `"1)"` before the end-of-input token
are not sentences of the grammar, yet tokenize-then-parse returns the tree of `1` with the
cursor on the second token, and `main` prints a program and exits with status 0. -/
theorem trailing_tokens_accepted :
    (tokenize "1 2".toList
        = .ok [{ kind := .TK_NUM, val := 1, str := "1 2".toList },
               { kind := .TK_NUM, val := 2, str := "2".toList },
               { kind := .TK_EOF, val := 0, str := [] }] ∧
      ¬ Sentence .expr [{ kind := .TK_NUM, val := 1, str := "1 2".toList },
                        { kind := .TK_NUM, val := 2, str := "2".toList }] ∧
      front_end "1 2".toList
        = .ok (new_num 1, [{ kind := .TK_NUM, val := 2, str := "2".toList },
                           { kind := .TK_EOF, val := 0, str := [] }]) ∧
      compile "1 2".toList
        = .ok { stdout := [".globl main", "main:", "  mov x0,  #1", "  str x0, [sp, -16]!",
                           "  ldr x0, [sp], 16", "  ret"],
                stderr := [], status := 0 }) ∧
    (tokenize "1)".toList
        = .ok [{ kind := .TK_NUM, val := 1, str := "1)".toList },
               { kind := .TK_RESERVED, val := 0, str := ")".toList },
               { kind := .TK_EOF, val := 0, str := [] }] ∧
      ¬ Sentence .expr [{ kind := .TK_NUM, val := 1, str := "1)".toList },
                        { kind := .TK_RESERVED, val := 0, str := ")".toList }] ∧
      front_end "1)".toList
        = .ok (new_num 1, [{ kind := .TK_RESERVED, val := 0, str := ")".toList },
                           { kind := .TK_EOF, val := 0, str := [] }]) ∧
      compile "1)".toList
        = .ok { stdout := [".globl main", "main:", "  mov x0,  #1", "  str x0, [sp, -16]!",
                           "  ldr x0, [sp], 16", "  ret"],
                stderr := [], status := 0 }) := by
  refine ⟨⟨by decide, ?_, by decide, by decide⟩, ⟨by decide, ?_, by decide, by decide⟩⟩
  · intro hs
    obtain ⟨node, hp, _⟩ :=
      sentence_parses hs (show (Token.mk .TK_EOF 0 []).kind = .TK_EOF from rfl)
    have hq : parse ([{ kind := .TK_NUM, val := 1, str := "1 2".toList },
        { kind := .TK_NUM, val := 2, str := "2".toList }]
          ++ [{ kind := .TK_EOF, val := 0, str := [] }])
        = .ok (new_num 1, [{ kind := .TK_NUM, val := 2, str := "2".toList },
                           { kind := .TK_EOF, val := 0, str := [] }]) := by decide
    rw [hq] at hp
    simp at hp
  · intro hs
    obtain ⟨node, hp, _⟩ :=
      sentence_parses hs (show (Token.mk .TK_EOF 0 []).kind = .TK_EOF from rfl)
    have hq : parse ([{ kind := .TK_NUM, val := 1, str := "1)".toList },
        { kind := .TK_RESERVED, val := 0, str := ")".toList }]
          ++ [{ kind := .TK_EOF, val := 0, str := [] }])
        = .ok (new_num 1, [{ kind := .TK_RESERVED, val := 0, str := ")".toList },
                           { kind := .TK_EOF, val := 0, str := [] }]) := by decide
    rw [hq] at hp
    simp at hp

/-! ### Tokens of literals and operators -/

theorem isdigit_not_isspace {c : Char} (h : isdigit c = true) : isspace c = false := by
  simp only [isdigit, Bool.and_eq_true, decide_eq_true_eq] at h
  simp only [isspace, Bool.or_eq_false_iff, Bool.and_eq_false_iff, decide_eq_false_iff_not]
  omega

theorem isreserved_toNat {c : Char} (h : isreserved c = true) :
    c.toNat = 43 ∨ c.toNat = 45 ∨ c.toNat = 42 ∨ c.toNat = 47 ∨ c.toNat = 40 ∨ c.toNat = 41 := by
  simp only [isreserved, Bool.or_eq_true, decide_eq_true_eq] at h
  rcases h with ((((h | h) | h) | h) | h) | h <;> subst h <;> decide

theorem isreserved_not_isspace {c : Char} (h : isreserved c = true) : isspace c = false := by
  have := isreserved_toNat h
  simp only [isspace, Bool.or_eq_false_iff, Bool.and_eq_false_iff, decide_eq_false_iff_not]
  omega

theorem isreserved_not_isdigit {c : Char} (h : isreserved c = true) : isdigit c = false := by
  have := isreserved_toNat h
  simp only [isdigit, Bool.and_eq_false_iff, decide_eq_false_iff_not]
  omega

theorem isdigit_not_isreserved {c : Char} (h : isdigit c = true) : isreserved c = false := by
  cases hr : isreserved c with
  | false => rfl
  | true => rw [isreserved_not_isdigit hr] at h; exact absurd h (by decide)

theorem strtol_digits_run (ds rest : List Char) (hd : ∀ c ∈ ds, isdigit c = true)
    (hr : isdigit (char0 rest) = false) :
    ∀ acc, strtol_digits acc (ds ++ rest)
      = (ds.foldl (fun acc c => acc * 10 + (c.toNat - 48)) acc, rest) := by
  induction ds with
  | nil =>
    intro acc
    cases rest with
    | nil => rfl
    | cons c cs =>
      simp only [char0] at hr
      simp [strtol_digits, hr]
  | cons d ds ih =>
    intro acc
    have hd1 : isdigit d = true := hd d (by simp)
    simp only [List.cons_append, strtol_digits, hd1, if_true, List.foldl_cons]
    exact ih (fun c hc => hd c (by simp [hc])) _

theorem long_to_int_small (v : Nat) (h : v < 2 ^ 31) :
    long_to_int ((min v LONG_MAX : Nat) : Int) = v := by
  have h1 : min v LONG_MAX = v := by
    apply Nat.min_eq_left
    unfold LONG_MAX
    omega
  rw [h1]
  unfold long_to_int
  omega

theorem tokenize_reserved (c : Char) (rest : List Char) (h : isreserved c = true) :
    tokenize (c :: rest) =
      (tokenize rest).bind fun ts =>
        .ok ({ kind := .TK_RESERVED, val := 0, str := c :: rest } :: ts) := by
  rw [tokenize_cons]
  simp [isreserved_not_isspace h, h, new_token]

theorem tokenize_space (c : Char) (rest : List Char) (h : isspace c = true) :
    tokenize (c :: rest) = tokenize rest := by
  rw [tokenize_cons]
  simp [h]

theorem tokenize_digits (ds rest : List Char) (hne : ds ≠ [])
    (hd : ∀ c ∈ ds, isdigit c = true) (hr : isdigit (char0 rest) = false) :
    tokenize (ds ++ rest) =
      (tokenize rest).bind fun ts =>
        .ok ({ kind := .TK_NUM, val := long_to_int ((min (decimal ds) LONG_MAX : Nat) : Int),
               str := ds ++ rest } :: ts) := by
  cases ds with
  | nil => exact absurd rfl hne
  | cons d ds =>
    have hd1 : isdigit d = true := hd d (by simp)
    have hrun := strtol_digits_run (d :: ds) rest hd hr 0
    simp only [List.cons_append] at hrun ⊢
    rw [tokenize_cons]
    simp only [isdigit_not_isspace hd1, isdigit_not_isreserved hd1, hd1, if_true,
      Bool.false_eq_true, if_false, strtol, hrun, new_token, decimal]

theorem is_literal_iff (ds : List Char) :
    is_literal ds = true ↔ ds ≠ [] ∧ (∀ c ∈ ds, isdigit c = true) ∧ decimal ds < 2 ^ 31 := by
  cases ds <;> simp [is_literal, and_assoc]

theorem tokenize_literal (ds rest : List Char) (hl : is_literal ds = true)
    (hr : isdigit (char0 rest) = false) :
    tokenize (ds ++ rest) =
      (tokenize rest).bind fun ts =>
        .ok ({ kind := .TK_NUM, val := decimal ds, str := ds ++ rest } :: ts) := by
  obtain ⟨hne, hd, hv⟩ := (is_literal_iff ds).1 hl
  rw [tokenize_digits ds rest hne hd hr, long_to_int_small _ hv]

theorem tokenize_literal_end (ds : List Char) (hl : is_literal ds = true) :
    tokenize ds = .ok [{ kind := .TK_NUM, val := decimal ds, str := ds },
                       { kind := .TK_EOF, val := 0, str := [] }] := by
  have := tokenize_literal ds [] hl rfl
  simpa [tokenize_nil, Res.bind, new_token] using this

theorem is_digits_iff (ds : List Char) :
    is_digits ds = true ↔ ds ≠ [] ∧ ∀ c ∈ ds, isdigit c = true := by
  cases ds <;> simp [is_digits]

theorem literal_val_eq (ds : List Char) (hl : is_literal ds = true) :
    is_digits ds = true ∧ literal_val ds = (decimal ds : Int) := by
  obtain ⟨hne, hd, hv⟩ := (is_literal_iff ds).1 hl
  exact ⟨(is_digits_iff ds).2 ⟨hne, hd⟩, long_to_int_small _ hv⟩

theorem tokenize_number (ds rest : List Char) (h : is_digits ds = true)
    (hr : isdigit (char0 rest) = false) :
    tokenize (ds ++ rest) =
      (tokenize rest).bind fun ts =>
        .ok ({ kind := .TK_NUM, val := literal_val ds, str := ds ++ rest } :: ts) := by
  obtain ⟨hne, hd⟩ := (is_digits_iff ds).1 h
  exact tokenize_digits ds rest hne hd hr

theorem tokenize_number_end (ds : List Char) (h : is_digits ds = true) :
    tokenize ds = .ok [{ kind := .TK_NUM, val := literal_val ds, str := ds },
                       { kind := .TK_EOF, val := 0, str := [] }] := by
  have := tokenize_number ds [] h rfl
  simpa [tokenize_nil, Res.bind, new_token] using this

/-! ### Precedence -/

theorem derives_mul_of_primary {p : List Token} {a : Node} (h : Derives .primary p a) :
    Derives .mul p a := by
  have := Derives.mul p [] a a h (Derives.mul_done a)
  simpa using this

theorem derives_expr_of_mul {m : List Token} {a : Node} (h : Derives .mul m a) :
    Derives .expr m a := by
  have := Derives.expr m [] a a h (Derives.expr_done a)
  simpa using this

theorem derives_mul_snoc {w : List Token} {a : Node} (h : Derives .mul w a) {c : Char}
    (hc : c = '*' ∨ c = '/') {t : Token} (ht : is_op c t) {p : List Token} {b : Node}
    (hp : Derives .primary p b) :
    Derives .mul (w ++ t :: p) (new_binary (binop_kind c) a b) := by
  cases h with
  | mul p0 r a0 _ hp0 hr =>
    have hext := derives_extends hr t p b hp
    rcases hc with rfl | rfl
    · have := Derives.mul p0 _ a0 _ hp0 (hext.1 ht)
      simpa [binop_kind] using this
    · have := Derives.mul p0 _ a0 _ hp0 (hext.2 ht)
      simpa [binop_kind] using this

theorem derives_expr_snoc {w : List Token} {a : Node} (h : Derives .expr w a) {c : Char}
    (hc : c = '+' ∨ c = '-') {t : Token} (ht : is_op c t) {m : List Token} {b : Node}
    (hm : Derives .mul m b) :
    Derives .expr (w ++ t :: m) (new_binary (binop_kind c) a b) := by
  cases h with
  | expr m0 r a0 _ hm0 hr =>
    have hext := derives_extends hr t m b hm
    rcases hc with rfl | rfl
    · have := Derives.expr m0 _ a0 _ hm0 (hext.1 ht)
      simpa [binop_kind] using this
    · have := Derives.expr m0 _ a0 _ hm0 (hext.2 ht)
      simpa [binop_kind] using this

theorem front_end_of_derives {user_input : List Char} {w : List Token} {node : Node}
    (htok : tokenize user_input = .ok (w ++ [{ kind := .TK_EOF, val := 0, str := [] }]))
    (hder : Derives .expr w node) :
    front_end user_input = .ok (node, [{ kind := .TK_EOF, val := 0, str := [] }]) := by
  simp only [front_end, htok, Res.bind]
  exact derives_parse hder (eof_expr_stop rfl [])

theorem reserved_of_op {c : Char} (h : c = '+' ∨ c = '-' ∨ c = '*' ∨ c = '/' ∨ c = '(' ∨ c = ')') :
    isreserved c = true := by
  rcases h with rfl | rfl | rfl | rfl | rfl | rfl <;> rfl

theorem derives_low_high (ta t1 tb t2 tc : Token) (ha : ta.kind = .TK_NUM)
    (hb : tb.kind = .TK_NUM) (hc : tc.kind = .TK_NUM) (o1 o2 : Char)
    (h1 : o1 = '+' ∨ o1 = '-') (h2 : o2 = '*' ∨ o2 = '/') (ht1 : is_op o1 t1)
    (ht2 : is_op o2 t2) :
    Derives .expr [ta, t1, tb, t2, tc]
      (new_binary (binop_kind o1) (new_num ta.val)
        (new_binary (binop_kind o2) (new_num tb.val) (new_num tc.val))) :=
  derives_expr_snoc (derives_expr_of_mul (derives_mul_of_primary (Derives.num ta ha)))
    h1 ht1
    (derives_mul_snoc (derives_mul_of_primary (Derives.num tb hb)) h2 ht2
      (Derives.num tc hc))

theorem derives_high_low (ta t2 tb t1 tc : Token) (ha : ta.kind = .TK_NUM)
    (hb : tb.kind = .TK_NUM) (hc : tc.kind = .TK_NUM) (o1 o2 : Char)
    (h1 : o1 = '+' ∨ o1 = '-') (h2 : o2 = '*' ∨ o2 = '/') (ht1 : is_op o1 t1)
    (ht2 : is_op o2 t2) :
    Derives .expr [ta, t2, tb, t1, tc]
      (new_binary (binop_kind o1)
        (new_binary (binop_kind o2) (new_num ta.val) (new_num tb.val))
        (new_num tc.val)) :=
  derives_expr_snoc
    (derives_expr_of_mul
      (derives_mul_snoc (derives_mul_of_primary (Derives.num ta ha)) h2 ht2
        (Derives.num tb hb)))
    h1 ht1 (derives_mul_of_primary (Derives.num tc hc))

theorem front_end_low_high (a b c : List Char) (ha : is_literal a = true)
    (hb : is_literal b = true) (hc : is_literal c = true) (o1 o2 : Char)
    (h1 : o1 = '+' ∨ o1 = '-') (h2 : o2 = '*' ∨ o2 = '/') :
    front_end (a ++ o1 :: (b ++ o2 :: c))
      = .ok (new_binary (binop_kind o1) (new_num (decimal a))
               (new_binary (binop_kind o2) (new_num (decimal b)) (new_num (decimal c))),
             [{ kind := .TK_EOF, val := 0, str := [] }]) := by
  have r1 : isreserved o1 = true := by rcases h1 with rfl | rfl <;> rfl
  have r2 : isreserved o2 = true := by rcases h2 with rfl | rfl <;> rfl
  have htok : tokenize (a ++ o1 :: (b ++ o2 :: c))
      = .ok ([{ kind := .TK_NUM, val := decimal a, str := a ++ o1 :: (b ++ o2 :: c) },
              { kind := .TK_RESERVED, val := 0, str := o1 :: (b ++ o2 :: c) },
              { kind := .TK_NUM, val := decimal b, str := b ++ o2 :: c },
              { kind := .TK_RESERVED, val := 0, str := o2 :: c },
              { kind := .TK_NUM, val := decimal c, str := c }]
             ++ [{ kind := .TK_EOF, val := 0, str := [] }]) := by
    rw [tokenize_literal a (o1 :: (b ++ o2 :: c)) ha (isreserved_not_isdigit r1),
      tokenize_reserved _ _ r1,
      tokenize_literal b (o2 :: c) hb (isreserved_not_isdigit r2),
      tokenize_reserved _ _ r2, tokenize_literal_end c hc]
    simp [Res.bind]
  refine front_end_of_derives htok ?_
  exact derives_low_high _ _ _ _ _ rfl rfl rfl o1 o2 h1 h2 ⟨rfl, rfl⟩ ⟨rfl, rfl⟩

theorem front_end_high_low (a b c : List Char) (ha : is_literal a = true)
    (hb : is_literal b = true) (hc : is_literal c = true) (o1 o2 : Char)
    (h1 : o1 = '+' ∨ o1 = '-') (h2 : o2 = '*' ∨ o2 = '/') :
    front_end (a ++ o2 :: (b ++ o1 :: c))
      = .ok (new_binary (binop_kind o1)
               (new_binary (binop_kind o2) (new_num (decimal a)) (new_num (decimal b)))
               (new_num (decimal c)),
             [{ kind := .TK_EOF, val := 0, str := [] }]) := by
  have r1 : isreserved o1 = true := by rcases h1 with rfl | rfl <;> rfl
  have r2 : isreserved o2 = true := by rcases h2 with rfl | rfl <;> rfl
  have htok : tokenize (a ++ o2 :: (b ++ o1 :: c))
      = .ok ([{ kind := .TK_NUM, val := decimal a, str := a ++ o2 :: (b ++ o1 :: c) },
              { kind := .TK_RESERVED, val := 0, str := o2 :: (b ++ o1 :: c) },
              { kind := .TK_NUM, val := decimal b, str := b ++ o1 :: c },
              { kind := .TK_RESERVED, val := 0, str := o1 :: c },
              { kind := .TK_NUM, val := decimal c, str := c }]
             ++ [{ kind := .TK_EOF, val := 0, str := [] }]) := by
    rw [tokenize_literal a (o2 :: (b ++ o1 :: c)) ha (isreserved_not_isdigit r2),
      tokenize_reserved _ _ r2,
      tokenize_literal b (o1 :: c) hb (isreserved_not_isdigit r1),
      tokenize_reserved _ _ r1, tokenize_literal_end c hc]
    simp [Res.bind]
  refine front_end_of_derives htok ?_
  exact derives_high_low _ _ _ _ _ rfl rfl rfl o1 o2 h1 h2 ⟨rfl, rfl⟩ ⟨rfl, rfl⟩

/-- C4: `*` and `/` bind tighter than `+` and `-`. For all integer literals `a`, `b`, `c`
within `int` range the input `a+b*c` parses to `Add(Lit a, Mul(Lit b, Lit c))` and `a*b+c`
to `Add(Mul(Lit a, Lit b), Lit c)`, with the cursor left on the end-of-input token; the
same holds with `-` for `+` and `/` for `*` (`o1` the additive and `o2` the multiplicative
operator); and the code generated for `1+2*3` leaves 7 in `x0`. -/
theorem precedence (a b c : List Char) (ha : is_literal a = true)
    (hb : is_literal b = true) (hc : is_literal c = true) :
    front_end (a ++ '+' :: (b ++ '*' :: c))
      = .ok (new_binary .ND_ADD (new_num (decimal a))
               (new_binary .ND_MUL (new_num (decimal b)) (new_num (decimal c))),
             [{ kind := .TK_EOF, val := 0, str := [] }]) ∧
    front_end (a ++ '*' :: (b ++ '+' :: c))
      = .ok (new_binary .ND_ADD
               (new_binary .ND_MUL (new_num (decimal a)) (new_num (decimal b)))
               (new_num (decimal c)),
             [{ kind := .TK_EOF, val := 0, str := [] }]) ∧
    (∀ o1 o2 : Char, o1 = '+' ∨ o1 = '-' → o2 = '*' ∨ o2 = '/' →
      front_end (a ++ o1 :: (b ++ o2 :: c))
        = .ok (new_binary (binop_kind o1) (new_num (decimal a))
                 (new_binary (binop_kind o2) (new_num (decimal b)) (new_num (decimal c))),
               [{ kind := .TK_EOF, val := 0, str := [] }]) ∧
      front_end (a ++ o2 :: (b ++ o1 :: c))
        = .ok (new_binary (binop_kind o1)
                 (new_binary (binop_kind o2) (new_num (decimal a)) (new_num (decimal b)))
                 (new_num (decimal c)),
               [{ kind := .TK_EOF, val := 0, str := [] }])) ∧
    ∀ m : Machine, result_x0 "1+2*3".toList m = some 7 := by
  refine ⟨?_, ?_, ?_, ?_⟩
  · exact front_end_low_high a b c ha hb hc '+' '*' (Or.inl rfl) (Or.inl rfl)
  · exact front_end_high_low a b c ha hb hc '+' '*' (Or.inl rfl) (Or.inl rfl)
  · intro o1 o2 h1 h2
    exact ⟨front_end_low_high a b c ha hb hc o1 o2 h1 h2,
      front_end_high_low a b c ha hb hc o1 o2 h1 h2⟩
  · intro m
    have h : front_end "1+2*3".toList
        = .ok (new_binary .ND_ADD (new_num 1) (new_binary .ND_MUL (new_num 2) (new_num 3)),
               [{ kind := .TK_EOF, val := 0, str := [] }]) := by decide
    exact result_x0_eq h (by decide) (by decide) m

theorem precedence_witness :
    is_literal "12".toList = true ∧ is_literal "034".toList = true ∧
    is_literal "5".toList = true ∧
    front_end ("12".toList ++ '+' :: ("034".toList ++ '*' :: "5".toList))
      = .ok (new_binary .ND_ADD (new_num (decimal "12".toList))
               (new_binary .ND_MUL (new_num (decimal "034".toList))
                 (new_num (decimal "5".toList))),
             [{ kind := .TK_EOF, val := 0, str := [] }]) :=
  ⟨by decide, by decide, by decide,
    (precedence "12".toList "034".toList "5".toList (by decide) (by decide) (by decide)).1⟩

/-! ### Associativity -/

theorem derives_mul_chain (ls : List Link) :
    ∀ (w : List Token) (a : Node), Derives .mul w a → (∀ l ∈ ls, mul_link l) →
      Derives .mul (w ++ links_tokens ls) (left_tree a ls) := by
  induction ls with
  | nil => intro w a h _; simpa [links_tokens, left_tree] using h
  | cons l ls ih =>
    intro w a h hl
    obtain ⟨hop, htok, hder⟩ := hl l (by simp)
    have h1 := derives_mul_snoc h hop htok hder
    have h2 := ih _ _ h1 (fun x hx => hl x (by simp [hx]))
    simpa [links_tokens, left_tree] using h2

theorem derives_expr_chain (ls : List Link) :
    ∀ (w : List Token) (a : Node), Derives .expr w a → (∀ l ∈ ls, expr_link l) →
      Derives .expr (w ++ links_tokens ls) (left_tree a ls) := by
  induction ls with
  | nil => intro w a h _; simpa [links_tokens, left_tree] using h
  | cons l ls ih =>
    intro w a h hl
    obtain ⟨hop, htok, hder⟩ := hl l (by simp)
    have h1 := derives_expr_snoc h hop htok (derives_mul_of_primary hder)
    have h2 := ih _ _ h1 (fun x hx => hl x (by simp [hx]))
    simpa [links_tokens, left_tree] using h2

theorem mul_loop_step (node : Node) (c : Char) (hc : c = '*' ∨ c = '/') (t : Token)
    (ht : is_op c t) (p : List Token) (b : Node) (hp : Derives .primary p b)
    (rest : List Token) (n : Nat) (hn : 3 * p.length ≤ n) :
    mul_loop (n + 1) node (t :: (p ++ rest))
      = mul_loop n (new_binary (binop_kind c) node b) rest := by
  have h1 : primary n (p ++ rest) = .ok (b, rest) :=
    (derives_complete hp : Complete .primary p b) n rest hn
  rcases hc with rfl | rfl
  · simp [mul_loop, consume_hit _ _ _ ht, Res.bind, h1, binop_kind]
  · have hm : ¬ is_op '*' t := is_op_ne ht (by decide)
    simp [mul_loop, consume_miss _ _ _ hm, consume_hit _ _ _ ht, Res.bind, h1, binop_kind]

theorem expr_loop_step (node : Node) (c : Char) (hc : c = '+' ∨ c = '-') (t : Token)
    (ht : is_op c t) (p : List Token) (b : Node) (hp : Derives .primary p b)
    (rest : List Token) (hstop : mul_stop rest) (n : Nat) (hn : 3 * p.length + 2 ≤ n) :
    expr_loop (n + 1) node (t :: (p ++ rest))
      = expr_loop n (new_binary (binop_kind c) node b) rest := by
  have h1 : mul n (p ++ rest) = .ok (b, rest) :=
    (derives_complete (derives_mul_of_primary hp) : Complete .mul p b) n rest hn hstop
  rcases hc with rfl | rfl
  · simp [expr_loop, consume_hit _ _ _ ht, Res.bind, h1, binop_kind]
  · have hm : ¬ is_op '+' t := is_op_ne ht (by decide)
    simp [expr_loop, consume_miss _ _ _ hm, consume_hit _ _ _ ht, Res.bind, h1, binop_kind]

/-- C5: a chain `p0 op1 p1 ... opn pn` of primaries joined by operators of one precedence
level parses to the left-leaning tree `(((p0 op1 p1) op2 p2) ... opn pn)`: with all
operators in `*`, `/`, by `mul` (for every sufficient fuel and every continuation that does
not start with `*` or `/`); with all operators in `+`, `-`, by `expr` as called by `main`
(for every continuation that does not start with an operator of the grammar). Each loop
step makes the tree built so far the left child of the new node. The programs generated
for `10-2-3` and `6/3/2` leave 5 and 1 in `x0`. -/
theorem left_associative (p0 : List Token) (a0 : Node) (ls : List Link)
    (h0 : Derives .primary p0 a0) :
    ((∀ l ∈ ls, mul_link l) → ∀ rest, mul_stop rest →
      ∀ n, 3 * (p0 ++ links_tokens ls).length + 2 ≤ n →
        mul n (p0 ++ links_tokens ls ++ rest) = .ok (left_tree a0 ls, rest)) ∧
    ((∀ l ∈ ls, expr_link l) → ∀ rest, expr_stop rest →
      parse (p0 ++ links_tokens ls ++ rest) = .ok (left_tree a0 ls, rest)) ∧
    (∀ (node : Node) (c : Char) (t : Token) (p : List Token) (b : Node) (rest : List Token)
        (n : Nat), is_op c t → Derives .primary p b → 3 * p.length + 2 ≤ n →
      (c = '*' ∨ c = '/' →
        mul_loop (n + 1) node (t :: (p ++ rest))
          = mul_loop n (new_binary (binop_kind c) node b) rest) ∧
      (c = '+' ∨ c = '-' → mul_stop rest →
        expr_loop (n + 1) node (t :: (p ++ rest))
          = expr_loop n (new_binary (binop_kind c) node b) rest)) ∧
    (∀ m : Machine, result_x0 "10-2-3".toList m = some 5) ∧
    (∀ m : Machine, result_x0 "6/3/2".toList m = some 1) := by
  refine ⟨?_, ?_, ?_, ?_, ?_⟩
  · intro hl rest hstop n hn
    have hd := derives_mul_chain ls p0 a0 (derives_mul_of_primary h0) hl
    exact (derives_complete hd : Complete .mul _ _) n rest hn hstop
  · intro hl rest hstop
    have hd := derives_expr_chain ls p0 a0
      (derives_expr_of_mul (derives_mul_of_primary h0)) hl
    exact derives_parse hd hstop
  · intro node c t p b rest n ht hp hn
    exact ⟨fun hc => mul_loop_step node c hc t ht p b hp rest n (by omega),
      fun hc hstop => expr_loop_step node c hc t ht p b hp rest hstop n hn⟩
  · intro m
    have h : front_end "10-2-3".toList
        = .ok (new_binary .ND_SUB (new_binary .ND_SUB (new_num 10) (new_num 2)) (new_num 3),
               [{ kind := .TK_EOF, val := 0, str := [] }]) := by decide
    exact result_x0_eq h (by decide) (by decide) m
  · intro m
    have h : front_end "6/3/2".toList
        = .ok (new_binary .ND_DIV (new_binary .ND_DIV (new_num 6) (new_num 3)) (new_num 2),
               [{ kind := .TK_EOF, val := 0, str := [] }]) := by decide
    exact result_x0_eq h (by decide) (by decide) m

theorem left_associative_witness :
    Derives .primary [{ kind := .TK_NUM, val := 10, str := "10-2-3".toList }] (new_num 10) ∧
    parse ([{ kind := .TK_NUM, val := 10, str := "10-2-3".toList }]
        ++ links_tokens
            [{ op := '-', tok := { kind := .TK_RESERVED, val := 0, str := "-2-3".toList },
               operand := [{ kind := .TK_NUM, val := 2, str := "2-3".toList }],
               tree := new_num 2 },
             { op := '-', tok := { kind := .TK_RESERVED, val := 0, str := "-3".toList },
               operand := [{ kind := .TK_NUM, val := 3, str := "3".toList }],
               tree := new_num 3 }]
        ++ [{ kind := .TK_EOF, val := 0, str := [] }])
      = .ok (new_binary .ND_SUB (new_binary .ND_SUB (new_num 10) (new_num 2)) (new_num 3),
             [{ kind := .TK_EOF, val := 0, str := [] }]) :=
  have h0 : Derives .primary [{ kind := .TK_NUM, val := 10, str := "10-2-3".toList }]
      (new_num 10) :=
    Derives.num { kind := .TK_NUM, val := 10, str := "10-2-3".toList } rfl
  ⟨h0,
    (left_associative _ _
      [{ op := '-', tok := { kind := .TK_RESERVED, val := 0, str := "-2-3".toList },
         operand := [{ kind := .TK_NUM, val := 2, str := "2-3".toList }],
         tree := new_num 2 },
       { op := '-', tok := { kind := .TK_RESERVED, val := 0, str := "-3".toList },
         operand := [{ kind := .TK_NUM, val := 3, str := "3".toList }],
         tree := new_num 3 }] h0).2.1
      (by
        intro l hl
        simp only [List.mem_cons, List.mem_singleton, List.not_mem_nil, or_false] at hl
        rcases hl with rfl | rfl
        · exact ⟨Or.inr rfl, ⟨rfl, rfl⟩,
            Derives.num { kind := .TK_NUM, val := 2, str := "2-3".toList } rfl⟩
        · exact ⟨Or.inr rfl, ⟨rfl, rfl⟩,
            Derives.num { kind := .TK_NUM, val := 3, str := "3".toList } rfl⟩)
      _ (eof_expr_stop rfl [])⟩

/-! ### Tokens of a text inside a longer text -/

theorem strtol_digits_append (p q : List Char) (hq : isdigit (char0 q) = false) :
    ∀ acc, strtol_digits acc (p ++ q)
      = ((strtol_digits acc p).1, (strtol_digits acc p).2 ++ q) := by
  induction p with
  | nil =>
    intro acc
    cases q with
    | nil => rfl
    | cons c cs =>
      simp only [char0] at hq
      simp [strtol_digits, hq]
  | cons d ds ih =>
    intro acc
    by_cases hd : isdigit d = true
    · simp only [List.cons_append, strtol_digits, hd, if_true]
      exact ih _
    · simp [strtol_digits, hd]

theorem tokenize_append_aux (q : List Char) (tq : List Token) (hq : tokenize q = .ok tq)
    (hd : isdigit (char0 q) = false) (n : Nat) :
    ∀ (p : List Char) (ts : List Token), p.length ≤ n → tokenize p = .ok ts →
      tokenize (p ++ q) = .ok (splice q tq ts) := by
  induction n with
  | zero =>
    intro p ts hn hp
    have : p = [] := List.length_eq_zero.1 (by omega)
    subst this
    rw [tokenize_nil] at hp
    cases hp
    simpa [splice, new_token] using hq
  | succ n ih =>
    intro p ts hn hp
    cases p with
    | nil =>
      rw [tokenize_nil] at hp
      cases hp
      simpa [splice, new_token] using hq
    | cons c cs =>
      simp only [List.length_cons] at hn
      rw [tokenize_cons] at hp
      rw [List.cons_append, tokenize_cons]
      by_cases hs : isspace c = true
      · simp only [hs, if_true] at hp ⊢
        exact ih cs ts (by omega) hp
      · by_cases hr : isreserved c = true
        · simp only [hs, hr, if_true, Bool.false_eq_true, if_false] at hp ⊢
          obtain ⟨ts1, h1, h2⟩ := bind_eq_ok hp
          cases h2
          rw [ih cs ts1 (by omega) h1]
          simp [Res.bind, splice, new_token]
        · by_cases hdg : isdigit c = true
          · simp only [hs, hr, hdg, if_true, Bool.false_eq_true, if_false] at hp ⊢
            obtain ⟨ts1, h1, h2⟩ := bind_eq_ok hp
            cases h2
            have hlen := strtol_end_length c cs hdg
            have happ : strtol (c :: (cs ++ q))
                = ((strtol (c :: cs)).1, (strtol (c :: cs)).2 ++ q) := by
              have := strtol_digits_append (c :: cs) q hd 0
              simp only [List.cons_append] at this
              simp [strtol, this]
            rw [happ]
            simp only []
            rw [ih _ ts1 (by omega) h1]
            simp [Res.bind, splice, new_token]
          · simp [hs, hr, hdg] at hp

theorem tokenize_append {p q : List Char} {ts tq : List Token} (hp : tokenize p = .ok ts)
    (hq : tokenize q = .ok tq) (hd : isdigit (char0 q) = false) :
    tokenize (p ++ q) = .ok (splice q tq ts) :=
  tokenize_append_aux q tq hq hd p.length p ts (Nat.le_refl _) hp

theorem derives_map {f : Token → Token} (hf : Respects f) {s : Sym} {w : List Token}
    {node : Node} (h : Derives s w node) : Derives s (w.map f) node := by
  induction h with
  | num t ht =>
    have := Derives.num (f t) (by rw [(hf t).1]; exact ht)
    rw [(hf t).2.1] at this
    simpa using this
  | paren l r w node hl _ hr ih =>
    have := Derives.paren (f l) (f r) _ node ((hf l).2.2 _ (by decide) hl) ih
      ((hf r).2.2 _ (by decide) hr)
    simpa using this
  | mul p r a node _ _ ih1 ih2 =>
    have := Derives.mul _ _ a node ih1 ih2
    simpa using this
  | mul_done a => exact Derives.mul_done a
  | mul_times a t p b r node ht _ _ ih1 ih2 =>
    have := Derives.mul_times a (f t) _ b _ node ((hf t).2.2 _ (by decide) ht) ih1 ih2
    simpa using this
  | mul_over a t p b r node ht _ _ ih1 ih2 =>
    have := Derives.mul_over a (f t) _ b _ node ((hf t).2.2 _ (by decide) ht) ih1 ih2
    simpa using this
  | expr m r a node _ _ ih1 ih2 =>
    have := Derives.expr _ _ a node ih1 ih2
    simpa using this
  | expr_done a => exact Derives.expr_done a
  | expr_plus a t m b r node ht _ _ ih1 ih2 =>
    have := Derives.expr_plus a (f t) _ b _ node ((hf t).2.2 _ (by decide) ht) ih1 ih2
    simpa using this
  | expr_minus a t m b r node ht _ _ ih1 ih2 =>
    have := Derives.expr_minus a (f t) _ b _ node ((hf t).2.2 _ (by decide) ht) ih1 ih2
    simpa using this

theorem derives_no_eof {s : Sym} {w : List Token} {node : Node} (h : Derives s w node) :
    ∀ t ∈ w, t.kind ≠ .TK_EOF := by
  induction h with
  | num t ht => intro x hx; simp at hx; subst hx; rw [ht]; decide
  | paren l r w node hl _ hr ih =>
    intro x hx
    simp at hx
    rcases hx with rfl | hx | rfl
    · rw [hl.1]; decide
    · exact ih x hx
    · rw [hr.1]; decide
  | mul p r a node _ _ ih1 ih2 =>
    intro x hx
    simp at hx
    rcases hx with hx | hx
    · exact ih1 x hx
    · exact ih2 x hx
  | mul_done a => intro x hx; simp at hx
  | mul_times a t p b r node ht _ _ ih1 ih2 =>
    intro x hx
    simp at hx
    rcases hx with rfl | hx | hx
    · rw [ht.1]; decide
    · exact ih1 x hx
    · exact ih2 x hx
  | mul_over a t p b r node ht _ _ ih1 ih2 =>
    intro x hx
    simp at hx
    rcases hx with rfl | hx | hx
    · rw [ht.1]; decide
    · exact ih1 x hx
    · exact ih2 x hx
  | expr m r a node _ _ ih1 ih2 =>
    intro x hx
    simp at hx
    rcases hx with hx | hx
    · exact ih1 x hx
    · exact ih2 x hx
  | expr_done a => intro x hx; simp at hx
  | expr_plus a t m b r node ht _ _ ih1 ih2 =>
    intro x hx
    simp at hx
    rcases hx with rfl | hx | hx
    · rw [ht.1]; decide
    · exact ih1 x hx
    · exact ih2 x hx
  | expr_minus a t m b r node ht _ _ ih1 ih2 =>
    intro x hx
    simp at hx
    rcases hx with rfl | hx | hx
    · rw [ht.1]; decide
    · exact ih1 x hx
    · exact ih2 x hx

theorem splice_append_eof (q : List Char) (tq : List Token) (w : List Token)
    (hw : ∀ t ∈ w, t.kind ≠ .TK_EOF) (eof : Token) (he : eof.kind = .TK_EOF) :
    splice q tq (w ++ [eof]) = w.map (fun t => { t with str := t.str ++ q }) ++ tq := by
  induction w with
  | nil => simp [splice, he]
  | cons t ts ih =>
    have h1 : t.kind ≠ .TK_EOF := hw t (by simp)
    have h2 := ih (fun x hx => hw x (by simp [hx]))
    simp only [List.cons_append, splice, h1, if_false, List.map_cons, List.cons.injEq,
      true_and]
    exact h2

theorem respects_retarget (q : List Char) :
    Respects (fun t => { t with str := t.str ++ q }) := by
  intro t
  refine ⟨rfl, rfl, ?_⟩
  intro c hc hop
  refine ⟨hop.1, ?_⟩
  have h2 := hop.2
  cases hstr : t.str with
  | nil => rw [hstr] at h2; exact absurd h2.symm hc
  | cons d ds =>
    rw [hstr] at h2
    show char0 (t.str ++ q) = c
    rw [hstr]
    exact h2

theorem expr_text_append {e : List Char} {node : Node}
    (he : front_end e = .ok (node, [{ kind := .TK_EOF, val := 0, str := [] }]))
    {q : List Char} {tq : List Token} (hq : tokenize q = .ok tq)
    (hd : isdigit (char0 q) = false) :
    ∃ w, tokenize (e ++ q) = .ok (w ++ tq) ∧ Derives .expr w node := by
  obtain ⟨token, htok, hparse⟩ := front_end_ok he
  obtain ⟨w, hsplit, hder⟩ := parse_derives hparse
  subst hsplit
  refine ⟨w.map (fun t => { t with str := t.str ++ q }), ?_,
    derives_map (respects_retarget q) hder⟩
  rw [tokenize_append htok hq hd, splice_append_eof q tq w (derives_no_eof hder) _ rfl]

/-! ### Parentheses -/

theorem derives_binop {p q : List Token} {x y : Node} (hp : Derives .primary p x)
    (hq : Derives .primary q y) {o : Char} (ho : is_binop o) {t : Token} (ht : is_op o t) :
    Derives .expr (p ++ t :: q) (new_binary (binop_kind o) x y) := by
  rcases ho with h | h | h | h
  · exact derives_expr_snoc (derives_expr_of_mul (derives_mul_of_primary hp)) (Or.inl h) ht
      (derives_mul_of_primary hq)
  · exact derives_expr_snoc (derives_expr_of_mul (derives_mul_of_primary hp)) (Or.inr h) ht
      (derives_mul_of_primary hq)
  · exact derives_expr_of_mul (derives_mul_snoc (derives_mul_of_primary hp) (Or.inl h) ht hq)
  · exact derives_expr_of_mul (derives_mul_snoc (derives_mul_of_primary hp) (Or.inr h) ht hq)

theorem derives_paren (sl sr : List Char) {w : List Token} {node : Node}
    (h : Derives .expr w node) :
    Derives .primary
      ({ kind := .TK_RESERVED, val := 0, str := '(' :: sl } :: w
        ++ [{ kind := .TK_RESERVED, val := 0, str := ')' :: sr }]) node :=
  Derives.paren _ _ w node ⟨rfl, rfl⟩ h ⟨rfl, rfl⟩

theorem is_binop_reserved {o : Char} (ho : is_binop o) : isreserved o = true := by
  rcases ho with rfl | rfl | rfl | rfl <;> rfl

theorem front_end_binop (a b : List Char) (ha : is_digits a = true)
    (hb : is_digits b = true) (o : Char) (ho : is_binop o) :
    front_end (a ++ o :: b)
      = .ok (new_binary (binop_kind o) (new_num (literal_val a)) (new_num (literal_val b)),
             [{ kind := .TK_EOF, val := 0, str := [] }]) := by
  have r : isreserved o = true := is_binop_reserved ho
  have htok : tokenize (a ++ o :: b)
      = .ok ([{ kind := .TK_NUM, val := literal_val a, str := a ++ o :: b },
              { kind := .TK_RESERVED, val := 0, str := o :: b },
              { kind := .TK_NUM, val := literal_val b, str := b }]
             ++ [{ kind := .TK_EOF, val := 0, str := [] }]) := by
    rw [tokenize_number a (o :: b) ha (isreserved_not_isdigit r), tokenize_reserved _ _ r,
      tokenize_number_end b hb]
    simp [Res.bind]
  refine front_end_of_derives htok ?_
  exact derives_binop (p := [_]) (q := [_]) (Derives.num _ rfl) (Derives.num _ rfl) ho
    ⟨rfl, rfl⟩

theorem front_end_paren {e : List Char} {node : Node}
    (he : front_end e = .ok (node, [{ kind := .TK_EOF, val := 0, str := [] }])) :
    front_end ('(' :: (e ++ [')']))
      = .ok (node, [{ kind := .TK_EOF, val := 0, str := [] }]) := by
  have hq : tokenize [')'] = .ok [{ kind := .TK_RESERVED, val := 0, str := [')'] },
      { kind := .TK_EOF, val := 0, str := [] }] := by decide
  obtain ⟨w, hw, hder⟩ := expr_text_append he hq rfl
  have htok : tokenize ('(' :: (e ++ [')']))
      = .ok (({ kind := .TK_RESERVED, val := 0, str := '(' :: (e ++ [')']) } :: w
              ++ [{ kind := .TK_RESERVED, val := 0, str := [')'] }])
             ++ [{ kind := .TK_EOF, val := 0, str := [] }]) := by
    rw [tokenize_reserved '(' _ rfl, hw]
    simp [Res.bind]
  refine front_end_of_derives htok ?_
  exact derives_expr_of_mul (derives_mul_of_primary
    (derives_paren _ _ hder))

theorem front_end_paren_left {e : List Char} {node : Node}
    (he : front_end e = .ok (node, [{ kind := .TK_EOF, val := 0, str := [] }]))
    (a : List Char) (ha : is_digits a = true) (o : Char) (ho : is_binop o) :
    front_end ('(' :: (e ++ ')' :: o :: a))
      = .ok (new_binary (binop_kind o) node (new_num (literal_val a)),
             [{ kind := .TK_EOF, val := 0, str := [] }]) := by
  have r : isreserved o = true := is_binop_reserved ho
  have hq : tokenize (')' :: o :: a)
      = .ok [{ kind := .TK_RESERVED, val := 0, str := ')' :: o :: a },
             { kind := .TK_RESERVED, val := 0, str := o :: a },
             { kind := .TK_NUM, val := literal_val a, str := a },
             { kind := .TK_EOF, val := 0, str := [] }] := by
    rw [tokenize_reserved ')' _ rfl, tokenize_reserved _ _ r, tokenize_number_end a ha]
    simp [Res.bind]
  obtain ⟨w, hw, hder⟩ := expr_text_append he hq rfl
  have htok : tokenize ('(' :: (e ++ ')' :: o :: a))
      = .ok ((({ kind := .TK_RESERVED, val := 0, str := '(' :: (e ++ ')' :: o :: a) } :: w
              ++ [{ kind := .TK_RESERVED, val := 0, str := ')' :: o :: a }])
              ++ { kind := .TK_RESERVED, val := 0, str := o :: a }
                :: [{ kind := .TK_NUM, val := literal_val a, str := a }])
             ++ [{ kind := .TK_EOF, val := 0, str := [] }]) := by
    rw [tokenize_reserved '(' _ rfl, hw]
    simp [Res.bind]
  refine front_end_of_derives htok ?_
  exact derives_binop (derives_paren _ _ hder)
    (Derives.num _ rfl) ho ⟨rfl, rfl⟩

theorem front_end_paren_right {e : List Char} {node : Node}
    (he : front_end e = .ok (node, [{ kind := .TK_EOF, val := 0, str := [] }]))
    (a : List Char) (ha : is_digits a = true) (o : Char) (ho : is_binop o) :
    front_end (a ++ o :: '(' :: (e ++ [')']))
      = .ok (new_binary (binop_kind o) (new_num (literal_val a)) node,
             [{ kind := .TK_EOF, val := 0, str := [] }]) := by
  have r : isreserved o = true := is_binop_reserved ho
  have hq : tokenize [')'] = .ok [{ kind := .TK_RESERVED, val := 0, str := [')'] },
      { kind := .TK_EOF, val := 0, str := [] }] := by decide
  obtain ⟨w, hw, hder⟩ := expr_text_append he hq rfl
  have htok : tokenize (a ++ o :: '(' :: (e ++ [')']))
      = .ok (([{ kind := .TK_NUM, val := literal_val a, str := a ++ o :: '(' :: (e ++ [')']) }]
              ++ { kind := .TK_RESERVED, val := 0, str := o :: '(' :: (e ++ [')']) }
                :: ({ kind := .TK_RESERVED, val := 0, str := '(' :: (e ++ [')']) } :: w
                    ++ [{ kind := .TK_RESERVED, val := 0, str := [')'] }]))
             ++ [{ kind := .TK_EOF, val := 0, str := [] }]) := by
    rw [tokenize_number a (o :: '(' :: (e ++ [')'])) ha (isreserved_not_isdigit r),
      tokenize_reserved _ _ r, tokenize_reserved '(' _ rfl, hw]
    simp [Res.bind]
  refine front_end_of_derives htok ?_
  exact derives_binop (Derives.num _ rfl)
    (derives_paren _ _ hder) ho ⟨rfl, rfl⟩

/-- C6: parentheses override precedence and associativity. For every expression text `e`
that tokenizes and parses completely to a tree, `(e)` parses to exactly that tree, and as
an operand beside a literal `a` and an operator `o` the texts `(e)oa` and `ao(e)` parse to
the binary node of `o` over the tree of `e` and `Lit a`; at the level of tokens, `primary`
on `(`, a sentence, `)` returns the tree of the sentence and leaves the cursor after the
`)`. So `(a+b)*c` parses to `Mul(Add(Lit a, Lit b), Lit c)` and `a-(b-c)` to
`Sub(Lit a, Sub(Lit b, Lit c))`, and the program for `(1+2)*3` leaves 9 in `x0`. Here
`a`, `b`, `c` are any non-empty strings of digits and `Lit a` carries the `int` that the
tokenizer stores for `a`, which is the decimal value of `a` when that is within `int`
range. -/
theorem parentheses (e : List Char) (node : Node)
    (he : front_end e = .ok (node, [{ kind := .TK_EOF, val := 0, str := [] }]))
    (a b c : List Char) (ha : is_digits a = true) (hb : is_digits b = true)
    (hc : is_digits c = true) :
    front_end ('(' :: (e ++ [')']))
      = .ok (node, [{ kind := .TK_EOF, val := 0, str := [] }]) ∧
    (∀ o : Char, is_binop o →
      front_end ('(' :: (e ++ ')' :: o :: a))
        = .ok (new_binary (binop_kind o) node (new_num (literal_val a)),
               [{ kind := .TK_EOF, val := 0, str := [] }]) ∧
      front_end (a ++ o :: '(' :: (e ++ [')']))
        = .ok (new_binary (binop_kind o) (new_num (literal_val a)) node,
               [{ kind := .TK_EOF, val := 0, str := [] }])) ∧
    (∀ (w : List Token) (tree : Node) (l r : Token) (rest : List Token) (n : Nat),
      Derives .expr w tree → is_op '(' l → is_op ')' r → 3 * (w.length + 2) ≤ n →
      primary n (l :: (w ++ r :: rest)) = .ok (tree, rest)) ∧
    front_end ('(' :: (a ++ '+' :: b ++ ')' :: '*' :: c))
      = .ok (new_binary .ND_MUL
               (new_binary .ND_ADD (new_num (literal_val a)) (new_num (literal_val b)))
               (new_num (literal_val c)),
             [{ kind := .TK_EOF, val := 0, str := [] }]) ∧
    front_end (a ++ '-' :: '(' :: (b ++ '-' :: c ++ [')']))
      = .ok (new_binary .ND_SUB (new_num (literal_val a))
               (new_binary .ND_SUB (new_num (literal_val b)) (new_num (literal_val c))),
             [{ kind := .TK_EOF, val := 0, str := [] }]) ∧
    (∀ m : Machine, result_x0 "(1+2)*3".toList m = some 9) ∧
    ∀ ds : List Char, is_literal ds = true →
      is_digits ds = true ∧ literal_val ds = (decimal ds : Int) := by
  refine ⟨front_end_paren he, ?_, ?_, ?_, ?_, ?_, fun ds hl => literal_val_eq ds hl⟩
  · intro o ho
    exact ⟨front_end_paren_left he a ha o ho, front_end_paren_right he a ha o ho⟩
  · intro w tree l r rest n hd hl hr hn
    have hp := Derives.paren l r w tree hl hd hr
    have := (derives_complete hp : Complete .primary _ _) n rest
      (by simp only [List.length_cons, List.length_append, List.length_nil]; omega)
    simpa using this
  · have h1 := front_end_binop a b ha hb '+' (Or.inl rfl)
    have := front_end_paren_left h1 c hc '*' (Or.inr (Or.inr (Or.inl rfl)))
    simpa [binop_kind] using this
  · have h1 := front_end_binop b c hb hc '-' (Or.inr (Or.inl rfl))
    have := front_end_paren_right h1 a ha '-' (Or.inr (Or.inl rfl))
    simpa [binop_kind] using this
  · intro m
    have h : front_end "(1+2)*3".toList
        = .ok (new_binary .ND_MUL (new_binary .ND_ADD (new_num 1) (new_num 2)) (new_num 3),
               [{ kind := .TK_EOF, val := 0, str := [] }]) := by decide
    exact result_x0_eq h (by decide) (by decide) m

theorem parentheses_witness :
    front_end "4*5-6".toList
      = .ok (new_binary .ND_SUB (new_binary .ND_MUL (new_num 4) (new_num 5)) (new_num 6),
             [{ kind := .TK_EOF, val := 0, str := [] }]) ∧
    is_digits "7".toList = true ∧ is_digits "8".toList = true ∧
    is_digits "9".toList = true ∧
    front_end ('(' :: ("4*5-6".toList ++ [')']))
      = .ok (new_binary .ND_SUB (new_binary .ND_MUL (new_num 4) (new_num 5)) (new_num 6),
             [{ kind := .TK_EOF, val := 0, str := [] }]) :=
  ⟨by decide, by decide, by decide, by decide,
    (parentheses "4*5-6".toList _ (by decide) "7".toList "8".toList "9".toList
      (by decide) (by decide) (by decide)).1⟩

/-! ### Literals and errors -/

theorem in_int64_of_int (n : Nat) (h : n < 2 ^ 31) : in_int64 (n : Int) = true := by
  simp only [in_int64, Bool.and_eq_true, decide_eq_true_eq]
  omega

/-- C7: for every non-empty input made only of decimal digits (leading zeros allowed) whose
value `n` fits in `int`, tokenize-then-parse returns the single node `Lit n`, whose
children are null, with the cursor on the end-of-input token; `main` prints the program
`mov x0, #n`, push, pop, `ret` and exits with status 0; and that program leaves exactly
`n` in `x0`. -/
theorem digits_only (ds : List Char) (h : is_literal ds = true) :
    front_end ds = .ok (new_num (decimal ds), [{ kind := .TK_EOF, val := 0, str := [] }]) ∧
    new_num (decimal ds) = Node.mk .ND_NUM .null .null (decimal ds) ∧
    compile ds
      = .ok { stdout := [".globl main", "main:",
                         Instr.text (.mov_x0_imm (decimal ds)), Instr.text .str_x0_push,
                         Instr.text .ldr_x0_pop, Instr.text .ret],
              stderr := [], status := 0 } ∧
    ∀ m : Machine, result_x0 ds m = some (decimal ds) := by
  have hfe : front_end ds
      = .ok (new_num (decimal ds), [{ kind := .TK_EOF, val := 0, str := [] }]) := by
    have htok : tokenize ds = .ok ([{ kind := .TK_NUM, val := decimal ds, str := ds }]
        ++ [{ kind := .TK_EOF, val := 0, str := [] }]) := tokenize_literal_end ds h
    exact front_end_of_derives htok
      (derives_expr_of_mul (derives_mul_of_primary (Derives.num _ rfl)))
  refine ⟨hfe, rfl, ?_, ?_⟩
  · simp [compile, hfe, gen, new_num]
  · intro m
    have hv := ((is_literal_iff ds).1 h).2.2
    have := result_x0_eq hfe (by simp [no_div_zero, new_num])
      (by simp [fits64, new_num, eval, in_int64_of_int _ hv]) m
    simpa [eval, new_num] using this

theorem digits_only_witness :
    is_literal "0042".toList = true ∧
    front_end "0042".toList
      = .ok (new_num (decimal "0042".toList),
             [{ kind := .TK_EOF, val := 0, str := [] }]) ∧
    decimal "0042".toList = 42 :=
  ⟨by decide, (digits_only "0042".toList (by decide)).1, by decide⟩

/-- C10: when tokenizing or parsing reports an error through `error_at`, the process
exits with status 1 having written the diagnostic to standard error and nothing at all to
standard output (no `.globl main`, no instruction); whenever `main` exits with a non-zero
status its standard output is empty. For the input `1+` the error `expect a number` is
reported and standard output is empty. -/
theorem no_output_on_error (user_input loc : List Char) (msg : ErrMsg)
    (h : tokenize user_input = .error_at loc msg ∨
      ∃ token, tokenize user_input = .ok token ∧ parse token = .error_at loc msg) :
    compile user_input
      = .ok { stdout := [], stderr := error_at user_input loc msg, status := 1 } ∧
    main ["9cc".toList, user_input]
      = .ok { stdout := [], stderr := error_at user_input loc msg, status := 1 } ∧
    (∀ (input : List Char) (p : Process), compile input = .ok p → p.status ≠ 0 →
      p.stdout = []) ∧
    front_end "1+".toList = .error_at [] .expect_number ∧
    compile "1+".toList
      = .ok { stdout := [], stderr := "1+\n  ^ expect a number\n".toList, status := 1 } := by
  have hfe : front_end user_input = .error_at loc msg := by
    rcases h with h | ⟨token, h1, h2⟩
    · simp [front_end, h, Res.bind]
    · simp [front_end, h1, h2, Res.bind]
  have hc : compile user_input
      = .ok { stdout := [], stderr := error_at user_input loc msg, status := 1 } := by
    simp [compile, hfe]
  refine ⟨hc, ?_, ?_, by decide, by decide⟩
  · simpa [main] using hc
  · intro input p hp hs
    unfold compile at hp
    split at hp
    · cases hp; rfl
    · cases hp
    · cases hp
    · split at hp
      · cases hp; rfl
      · cases hp
      · cases hp
      · cases hp
        exact absurd rfl hs

theorem no_output_on_error_witness :
    (tokenize "1&2".toList = .error_at "&2".toList .invalid_token ∨
      ∃ token, tokenize "1&2".toList = .ok token ∧
        parse token = .error_at "&2".toList .invalid_token) ∧
    compile "1&2".toList
      = .ok { stdout := [],
              stderr := error_at "1&2".toList "&2".toList .invalid_token, status := 1 } :=
  ⟨Or.inl (by decide),
    (no_output_on_error "1&2".toList "&2".toList .invalid_token (Or.inl (by decide))).1⟩

/-! ### Shape of the token sequence -/

theorem isdigit_char0_dropWhile (l : List Char) :
    isdigit (char0 (l.dropWhile isdigit)) = false := by
  induction l with
  | nil => decide
  | cons c cs ih =>
    by_cases h : isdigit c = true
    · simpa [List.dropWhile, h] using ih
    · simp only [List.dropWhile, h, char0]

theorem strtol_digits_eq (p : List Char) :
    strtol_digits 0 p = (decimal (p.takeWhile isdigit), p.dropWhile isdigit) := by
  have h := strtol_digits_run (p.takeWhile isdigit) (p.dropWhile isdigit)
    (fun c hc => (List.mem_takeWhile_imp hc)) (isdigit_char0_dropWhile p) 0
  rw [List.takeWhile_append_dropWhile] at h
  exact h

theorem expected_tokens_flag (rest : List Char) (h : isdigit (char0 rest) = false)
    (b1 b2 : Bool) : expected_tokens b1 rest = expected_tokens b2 rest := by
  cases rest with
  | nil => rfl
  | cons c cs =>
    simp only [char0] at h
    simp [expected_tokens, h]

theorem expected_tokens_skip (ds rest : List Char) (hd : ∀ c ∈ ds, isdigit c = true)
    (hr : isdigit (char0 rest) = false) (b : Bool) :
    expected_tokens true (ds ++ rest) = expected_tokens b rest := by
  induction ds with
  | nil => exact expected_tokens_flag rest hr true b
  | cons d ds ih =>
    have hd1 : isdigit d = true := hd d (by simp)
    simp only [List.cons_append, expected_tokens, isdigit_not_isreserved hd1, hd1]
    simpa using ih (fun c hc => hd c (by simp [hc]))

theorem expected_tokens_digit (c : Char) (cs : List Char) (h : isdigit c = true) :
    expected_tokens false (c :: cs)
      = { kind := .TK_NUM, val := decimal ((c :: cs).takeWhile isdigit), str := c :: cs }
        :: expected_tokens false ((c :: cs).dropWhile isdigit) := by
  have hskip := expected_tokens_skip (cs.takeWhile isdigit) (cs.dropWhile isdigit)
    (fun c hc => (List.mem_takeWhile_imp hc)) (isdigit_char0_dropWhile cs) false
  rw [List.takeWhile_append_dropWhile] at hskip
  simp [expected_tokens, isdigit_not_isreserved h, h, hskip, List.dropWhile]

theorem expected_tokens_eof (p : List Char) :
    ∀ b, ∃ body, expected_tokens b p = body ++ [{ kind := .TK_EOF, val := 0, str := [] }] ∧
      ∀ t ∈ body, t.kind ≠ .TK_EOF := by
  induction p with
  | nil => intro b; exact ⟨[], rfl, by simp⟩
  | cons c cs ih =>
    intro b
    unfold expected_tokens
    split
    · obtain ⟨body, h1, h2⟩ := ih false
      refine ⟨_ :: body, by rw [h1]; rfl, ?_⟩
      intro t ht
      simp only [List.mem_cons] at ht
      rcases ht with rfl | ht
      · simp
      · exact h2 t ht
    · split
      · obtain ⟨body, h1, h2⟩ := ih true
        refine ⟨_ :: body, by rw [h1]; rfl, ?_⟩
        intro t ht
        simp only [List.mem_cons] at ht
        rcases ht with rfl | ht
        · simp
        · exact h2 t ht
      · exact ih _

theorem expected_tokens_suffix (p : List Char) :
    ∀ b, ∀ t ∈ expected_tokens b p, ∃ pre, p = pre ++ t.str := by
  induction p with
  | nil =>
    intro b t ht
    simp only [expected_tokens, List.mem_singleton] at ht
    subst ht
    exact ⟨[], rfl⟩
  | cons c cs ih =>
    intro b t ht
    have hrec : ∀ b2, t ∈ expected_tokens b2 cs → ∃ pre, c :: cs = pre ++ t.str := by
      intro b2 h2
      obtain ⟨pre, hpre⟩ := ih b2 t h2
      exact ⟨c :: pre, by rw [List.cons_append, ← hpre]⟩
    unfold expected_tokens at ht
    split at ht
    · simp only [List.mem_cons] at ht
      rcases ht with rfl | ht
      · exact ⟨[], rfl⟩
      · exact hrec _ ht
    · split at ht
      · simp only [List.mem_cons] at ht
        rcases ht with rfl | ht
        · exact ⟨[], rfl⟩
        · exact hrec _ ht
      · exact hrec _ ht

theorem expected_tokens_count (p : List Char) :
    ∀ b, (expected_tokens b p).countP (fun t => decide (t.kind = .TK_RESERVED))
      = p.countP isreserved := by
  induction p with
  | nil => intro b; rfl
  | cons c cs ih =>
    intro b
    unfold expected_tokens
    split
    · rename_i h
      simp [List.countP_cons, h, ih false]
    · rename_i h
      split
      · simp [List.countP_cons, h, ih true]
      · simp [List.countP_cons, h, ih]

theorem stored_kind (t : Token) : (stored t).kind = t.kind := by
  unfold stored
  exact rfl

theorem stored_str (t : Token) : (stored t).str = t.str := by
  unfold stored
  exact rfl

theorem stored_small (t : Token) (h0 : 0 ≤ t.val) (h1 : t.val < (2 : Int) ^ 31) :
    stored t = t := by
  have hn : t.val.toNat < 2 ^ 31 := by omega
  have := long_to_int_small t.val.toNat hn
  unfold stored
  rw [this]
  have hv : ((t.val.toNat : Nat) : Int) = t.val := by omega
  rw [hv]

theorem expected_tokens_nonneg (p : List Char) :
    ∀ b, ∀ t ∈ expected_tokens b p, 0 ≤ t.val := by
  induction p with
  | nil =>
    intro b t ht
    simp only [expected_tokens, List.mem_singleton] at ht
    subst ht
    decide
  | cons c cs ih =>
    intro b t ht
    unfold expected_tokens at ht
    split at ht
    · simp only [List.mem_cons] at ht
      rcases ht with rfl | ht
      · exact Int.le_refl 0
      · exact ih _ t ht
    · split at ht
      · simp only [List.mem_cons] at ht
        rcases ht with rfl | ht
        · exact Int.ofNat_nonneg _
        · exact ih _ t ht
      · exact ih _ t ht

theorem stored_zero (kind : TokenKind) (str : List Char) :
    stored { kind := kind, val := 0, str := str } = { kind := kind, val := 0, str := str } :=
  stored_small _ (Int.le_refl 0) (by norm_num)

theorem tokenize_stored_aux (n : Nat) :
    ∀ p : List Char, p.length ≤ n → (∀ c ∈ p, lexical c = true) →
      tokenize p = .ok ((expected_tokens false p).map stored) := by
  induction n with
  | zero =>
    intro p hn _
    have : p = [] := List.length_eq_zero.1 (by omega)
    subst this
    simp [tokenize_nil, expected_tokens, stored_zero, new_token]
  | succ n ih =>
    intro p hn hlex
    cases p with
    | nil => simp [tokenize_nil, expected_tokens, stored_zero, new_token]
    | cons c cs =>
      simp only [List.length_cons] at hn
      have hlex2 : ∀ x ∈ cs, lexical x = true := fun x hx => hlex x (by simp [hx])
      by_cases hr : isreserved c = true
      · have hexp : expected_tokens false (c :: cs)
            = { kind := .TK_RESERVED, val := 0, str := c :: cs }
              :: expected_tokens false cs := by
          simp [expected_tokens, hr]
        rw [hexp, tokenize_reserved c cs hr, ih cs (by omega) hlex2]
        simp [Res.bind, stored_zero]
      · by_cases hd : isdigit c = true
        · rw [expected_tokens_digit c cs hd]
          have hlen := strtol_end_length c cs hd
          have hs : strtol (c :: cs)
              = (((min (decimal ((c :: cs).takeWhile isdigit)) LONG_MAX : Nat) : Int),
                 (c :: cs).dropWhile isdigit) := by
            simp [strtol, strtol_digits_eq]
          rw [hs] at hlen
          have hlen2 : ((c :: cs).dropWhile isdigit).length ≤ cs.length := by
            simpa using hlen
          rw [tokenize_cons]
          simp only [isdigit_not_isspace hd, hr, hd, if_true, Bool.false_eq_true, if_false,
            hs]
          rw [ih _ (by omega) (fun x hx => hlex x ((List.dropWhile_suffix _).subset hx))]
          simp [Res.bind, stored, new_token]
        · have hsp : isspace c = true := by
            have := hlex c (by simp)
            simpa [lexical, hr, hd] using this
          have hexp : expected_tokens false (c :: cs) = expected_tokens false cs := by
            simp only [expected_tokens, hr, Bool.false_eq_true, if_false]
            simp [hd]
          rw [hexp, tokenize_space c cs hsp]
          exact ih cs (by omega) hlex2

theorem tokenize_expected (p : List Char) (hlex : ∀ c ∈ p, lexical c = true)
    (hfit : ∀ t ∈ expected_tokens false p, t.val < (2 : Int) ^ 31) :
    tokenize p = .ok (expected_tokens false p) := by
  rw [tokenize_stored_aux p.length p (Nat.le_refl _) hlex]
  congr 1
  have : ∀ t ∈ expected_tokens false p, stored t = t :=
    fun t ht => stored_small t (expected_tokens_nonneg p false t ht) (hfit t ht)
  rw [List.map_congr_left this, List.map_id']

/-- C8: for every input made only of whitespace, decimal digits and the characters
`+ - * / ( )`, `tokenize` returns the token sequence of the specification as stored: in
source order one operator token per operator character, one literal token per maximal run
of digits, nothing for whitespace, and then the end-of-input token, which is last and is
the only token of its kind. Storing changes neither kind nor position, and a literal whose
run of digits has a value within `int` range carries exactly that value. Every token
points at its first character, so its source position is the offset of that character,
and there are as many operator tokens as operator characters. -/
theorem tokenizer_shape (p : List Char) (hlex : ∀ c ∈ p, lexical c = true) :
    tokenize p = .ok ((expected_tokens false p).map stored) ∧
    (∀ t ∈ expected_tokens false p,
      (stored t).kind = t.kind ∧ (stored t).str = t.str ∧
      (t.val < (2 : Int) ^ 31 → stored t = t)) ∧
    ((∀ t ∈ expected_tokens false p, t.val < (2 : Int) ^ 31) →
      tokenize p = .ok (expected_tokens false p)) ∧
    (∃ body, expected_tokens false p = body ++ [{ kind := .TK_EOF, val := 0, str := [] }] ∧
      ∀ t ∈ body, t.kind ≠ .TK_EOF) ∧
    (∀ t ∈ expected_tokens false p,
      ∃ pre, p = pre ++ t.str ∧ error_pos p t.str = pre.length) ∧
    (expected_tokens false p).countP (fun t => decide (t.kind = .TK_RESERVED))
      = p.countP isreserved := by
  refine ⟨tokenize_stored_aux p.length p (Nat.le_refl _) hlex, ?_,
    tokenize_expected p hlex, expected_tokens_eof p false, ?_,
    expected_tokens_count p false⟩
  · intro t ht
    exact ⟨stored_kind t, stored_str t,
      fun h => stored_small t (expected_tokens_nonneg p false t ht) h⟩
  · intro t ht
    obtain ⟨pre, hpre⟩ := expected_tokens_suffix p false t ht
    refine ⟨pre, hpre, ?_⟩
    have hlen := congrArg List.length hpre
    simp only [List.length_append] at hlen
    unfold error_pos
    omega

theorem tokenizer_shape_witness :
    (∀ c ∈ " 12+ 034*(5) ".toList, lexical c = true) ∧
    (∀ t ∈ expected_tokens false " 12+ 034*(5) ".toList, t.val < (2 : Int) ^ 31) ∧
    tokenize " 12+ 034*(5) ".toList
      = .ok [{ kind := .TK_NUM, val := 12, str := "12+ 034*(5) ".toList },
             { kind := .TK_RESERVED, val := 0, str := "+ 034*(5) ".toList },
             { kind := .TK_NUM, val := 34, str := "034*(5) ".toList },
             { kind := .TK_RESERVED, val := 0, str := "*(5) ".toList },
             { kind := .TK_RESERVED, val := 0, str := "(5) ".toList },
             { kind := .TK_NUM, val := 5, str := "5) ".toList },
             { kind := .TK_RESERVED, val := 0, str := ") ".toList },
             { kind := .TK_EOF, val := 0, str := [] }] :=
  ⟨by decide, by decide,
    (tokenizer_shape " 12+ 034*(5) ".toList (by decide)).2.2.1 (by decide)⟩

/-! ### Lexical errors -/

theorem isdigit_lexical {c : Char} (h : isdigit c = true) : lexical c = true := by
  simp [lexical, h]

theorem dropWhile_lexical_run (ds rest : List Char) (hd : ∀ c ∈ ds, isdigit c = true) :
    (ds ++ rest).dropWhile lexical = rest.dropWhile lexical := by
  induction ds with
  | nil => rfl
  | cons d ds ih =>
    have h1 : lexical d = true := isdigit_lexical (hd d (by simp))
    simp only [List.cons_append, List.dropWhile, h1]
    exact ih (fun c hc => hd c (by simp [hc]))

theorem tokenize_outcome_aux (n : Nat) :
    ∀ p : List Char, p.length ≤ n →
      ((∃ ts, tokenize p = .ok ts) ∧ ∀ c ∈ p, lexical c = true) ∨
      (tokenize p = .error_at (p.dropWhile lexical) .invalid_token ∧
        ∃ c ∈ p, lexical c = false) := by
  induction n with
  | zero =>
    intro p hn
    have : p = [] := List.length_eq_zero.1 (by omega)
    subst this
    exact Or.inl ⟨⟨_, rfl⟩, by simp⟩
  | succ n ih =>
    intro p hn
    cases p with
    | nil => exact Or.inl ⟨⟨_, rfl⟩, by simp⟩
    | cons c cs =>
      simp only [List.length_cons] at hn
      by_cases hs : isspace c = true
      · have hl : lexical c = true := by simp [lexical, hs]
        rw [tokenize_space c cs hs]
        rcases ih cs (by omega) with ⟨hok, hall⟩ | ⟨herr, d, hd, hbad⟩
        · exact Or.inl ⟨hok, by
            intro x hx
            simp only [List.mem_cons] at hx
            rcases hx with rfl | hx
            · exact hl
            · exact hall x hx⟩
        · exact Or.inr ⟨by simpa [List.dropWhile, hl] using herr, d, by simp [hd], hbad⟩
      · by_cases hr : isreserved c = true
        · have hl : lexical c = true := by simp [lexical, hr]
          rw [tokenize_reserved c cs hr]
          rcases ih cs (by omega) with ⟨⟨ts, hok⟩, hall⟩ | ⟨herr, d, hd, hbad⟩
          · exact Or.inl ⟨⟨_, by rw [hok]; rfl⟩, by
              intro x hx
              simp only [List.mem_cons] at hx
              rcases hx with rfl | hx
              · exact hl
              · exact hall x hx⟩
          · exact Or.inr ⟨by rw [herr]; simp [Res.bind, List.dropWhile, hl],
              d, by simp [hd], hbad⟩
        · by_cases hd : isdigit c = true
          · have hlen := strtol_end_length c cs hd
            have hsd : strtol (c :: cs)
                = (((min (decimal ((c :: cs).takeWhile isdigit)) LONG_MAX : Nat) : Int),
                   (c :: cs).dropWhile isdigit) := by
              simp [strtol, strtol_digits_eq]
            rw [hsd] at hlen
            have hlen2 : ((c :: cs).dropWhile isdigit).length ≤ cs.length := by
              simpa using hlen
            have hsplit : (c :: cs).takeWhile isdigit ++ (c :: cs).dropWhile isdigit
                = c :: cs := List.takeWhile_append_dropWhile _ _
            have hrun : ∀ x ∈ (c :: cs).takeWhile isdigit, isdigit x = true :=
              fun x hx => List.mem_takeWhile_imp hx
            rw [tokenize_cons]
            simp only [hs, hr, hd, if_true, Bool.false_eq_true, if_false, hsd]
            rcases ih _ (by omega : ((c :: cs).dropWhile isdigit).length ≤ n)
              with ⟨⟨ts, hok⟩, hall⟩ | ⟨herr, d, hdm, hbad⟩
            · refine Or.inl ⟨⟨_, by rw [hok]; rfl⟩, ?_⟩
              intro x hx
              rw [← hsplit] at hx
              rcases List.mem_append.1 hx with hx | hx
              · exact isdigit_lexical (hrun x hx)
              · exact hall x hx
            · refine Or.inr ⟨?_, d, ?_, hbad⟩
              · rw [herr]
                have := dropWhile_lexical_run _ ((c :: cs).dropWhile isdigit) hrun
                rw [hsplit] at this
                rw [this]
                rfl
              · rw [← hsplit]
                exact List.mem_append.2 (Or.inr hdm)
          · have hl : lexical c = false := by simp [lexical, hs, hr, hd]
            refine Or.inr ⟨?_, c, by simp, hl⟩
            rw [tokenize_cons]
            simp [hs, hr, hd, List.dropWhile, hl]

theorem tokenize_outcome (p : List Char) :
    ((∃ ts, tokenize p = .ok ts) ∧ ∀ c ∈ p, lexical c = true) ∨
    (tokenize p = .error_at (p.dropWhile lexical) .invalid_token ∧
      ∃ c ∈ p, lexical c = false) :=
  tokenize_outcome_aux p.length p (Nat.le_refl _)

theorem dropWhile_lexical_head (p : List Char) (h : ∃ c ∈ p, lexical c = false) :
    ∃ c rest, p.dropWhile lexical = c :: rest ∧ lexical c = false := by
  induction p with
  | nil => obtain ⟨c, hc, _⟩ := h; simp at hc
  | cons d ds ih =>
    by_cases hd : lexical d = true
    · obtain ⟨c, hc, hbad⟩ := h
      simp only [List.mem_cons] at hc
      rcases hc with rfl | hc
      · rw [hd] at hbad; exact absurd hbad (by decide)
      · simpa [List.dropWhile, hd] using ih ⟨c, hc, hbad⟩
    · exact ⟨d, ds, by simp [List.dropWhile, hd], by simpa using hd⟩

/-- C9: `tokenize` reports an error exactly when the input contains a character that is
not whitespace, a decimal digit or one of `+ - * / ( )`, and otherwise returns tokens. The
error is `invalid token`, reported at the first such character: the offset computed by
`error_at` is the number of characters before it, all of which are acceptable. For `1&2`
the error is reported at offset 1. -/
theorem lexical_errors (p : List Char) :
    ((∃ loc msg, tokenize p = .error_at loc msg) ↔ ∃ c ∈ p, lexical c = false) ∧
    ((∀ c ∈ p, lexical c = true) → ∃ ts, tokenize p = .ok ts) ∧
    (∀ loc msg, tokenize p = .error_at loc msg →
      msg = .invalid_token ∧ p = p.takeWhile lexical ++ loc ∧
      (∃ c rest, loc = c :: rest ∧ lexical c = false) ∧
      error_pos p loc = (p.takeWhile lexical).length) ∧
    tokenize "1&2".toList = .error_at "&2".toList .invalid_token ∧
    error_pos "1&2".toList "&2".toList = 1 := by
  refine ⟨⟨?_, ?_⟩, ?_, ?_, by decide, by decide⟩
  · rintro ⟨loc, msg, h⟩
    rcases tokenize_outcome p with ⟨⟨ts, hok⟩, _⟩ | ⟨_, hbad⟩
    · rw [hok] at h; cases h
    · exact hbad
  · intro hbad
    rcases tokenize_outcome p with ⟨_, hall⟩ | ⟨herr, _⟩
    · obtain ⟨c, hc, hf⟩ := hbad
      rw [hall c hc] at hf
      exact absurd hf (by decide)
    · exact ⟨_, _, herr⟩
  · intro hall
    rcases tokenize_outcome p with ⟨hok, _⟩ | ⟨_, c, hc, hf⟩
    · exact hok
    · rw [hall c hc] at hf
      exact absurd hf (by decide)
  · intro loc msg h
    rcases tokenize_outcome p with ⟨⟨ts, hok⟩, _⟩ | ⟨herr, hbad⟩
    · rw [hok] at h; cases h
    · rw [herr] at h
      cases h
      have hsplit : p.takeWhile lexical ++ p.dropWhile lexical = p :=
        List.takeWhile_append_dropWhile _ _
      refine ⟨rfl, hsplit.symm, dropWhile_lexical_head p hbad, ?_⟩
      have hlen := congrArg List.length hsplit
      simp only [List.length_append] at hlen
      unfold error_pos
      omega

/-! ### Diagnostics -/

theorem pad_field_eq (pos : Nat) (h : 1 ≤ pos) : pad_field pos = List.replicate pos ' ' := by
  obtain ⟨k, rfl⟩ : ∃ k, pos = k + 1 := ⟨pos - 1, by omega⟩
  simp [pad_field, List.replicate_succ']

/-- C11 (failing inputs): at offset 0 `error_at` writes one space before the caret, so the
caret is in column 1 while the character it reports is in column 0: for the inputs `&`,
`+` and the empty string the second line of standard error is a space, `^`, a space and
the message. From offset 1 on the line has exactly `pos` spaces before the caret. -/
theorem caret_misaligned_at_zero :
    compile "&".toList
      = .ok { stdout := [], stderr := "&\n ^ invalid token\n".toList, status := 1 } ∧
    compile "+".toList
      = .ok { stdout := [], stderr := "+\n ^ expect a number\n".toList, status := 1 } ∧
    compile []
      = .ok { stdout := [], stderr := "\n ^ expect a number\n".toList, status := 1 } ∧
    (∀ (user_input loc : List Char) (msg : ErrMsg), error_pos user_input loc = 0 →
      error_at user_input loc msg
        = user_input ++ ['\n'] ++ [' '] ++ "^ ".toList ++ msg.text ++ ['\n']) ∧
    (∀ (user_input loc : List Char) (msg : ErrMsg), 1 ≤ error_pos user_input loc →
      error_at user_input loc msg
        = user_input ++ ['\n'] ++ List.replicate (error_pos user_input loc) ' '
            ++ "^ ".toList ++ msg.text ++ ['\n']) := by
  refine ⟨by decide, by decide, by decide, ?_, ?_⟩
  · intro user_input loc msg h
    simp [error_at, h, pad_field]
  · intro user_input loc msg h
    simp [error_at, pad_field_eq _ h]

theorem tokenize_spaces (ws : List Char) (h : ∀ c ∈ ws, isspace c = true) :
    tokenize ws = .ok [{ kind := .TK_EOF, val := 0, str := [] }] := by
  induction ws with
  | nil => rfl
  | cons c cs ih =>
    rw [tokenize_space c cs (h c (by simp))]
    exact ih (fun x hx => h x (by simp [hx]))

/-- C14: when the argument is empty or contains only whitespace, `tokenize` returns just the
end-of-input token, parsing fails with `expect a number` reported at that token, whose
offset is the length of the input (0 for the empty string), and `main` exits with status 1
without any output. -/
theorem empty_input_rejected (ws : List Char) (h : ∀ c ∈ ws, isspace c = true) :
    tokenize ws = .ok [{ kind := .TK_EOF, val := 0, str := [] }] ∧
    front_end ws = .error_at [] .expect_number ∧
    error_pos ws [] = ws.length ∧
    compile ws = .ok { stdout := [], stderr := error_at ws [] .expect_number, status := 1 } ∧
    main ["9cc".toList, ws]
      = .ok { stdout := [], stderr := error_at ws [] .expect_number, status := 1 } ∧
    front_end [] = .error_at [] .expect_number ∧ error_pos [] [] = 0 := by
  have htok := tokenize_spaces ws h
  have hfe : front_end ws = .error_at [] .expect_number := by
    simp only [front_end, htok, Res.bind]
    decide
  have hc : compile ws
      = .ok { stdout := [], stderr := error_at ws [] .expect_number, status := 1 } := by
    simp [compile, hfe]
  refine ⟨htok, hfe, by simp [error_pos], hc, by simpa [main] using hc, by decide, by decide⟩

theorem empty_input_rejected_witness :
    (∀ c ∈ " \t ".toList, isspace c = true) ∧
    front_end " \t ".toList = .error_at [] .expect_number ∧
    error_pos " \t ".toList [] = 3 :=
  ⟨by decide, (empty_input_rejected " \t ".toList (by decide)).2.1, by decide⟩

/-! ### Pushes and pops -/

theorem mov_text_ne (val : Int) (i : Instr)
    (hi : i = .str_x0_push ∨ i = .ldr_x1_pop ∨ i = .ldr_x0_pop) :
    Instr.text (.mov_x0_imm val) ≠ Instr.text i := by
  intro h
  have h2 := congrArg String.data h
  rcases hi with rfl | rfl | rfl <;>
    simp [Instr.text, String.data_append] at h2

theorem text_eq_iff (i j : Instr)
    (hj : j = .str_x0_push ∨ j = .ldr_x1_pop ∨ j = .ldr_x0_pop) :
    Instr.text i = Instr.text j ↔ i = j := by
  constructor
  · intro h
    cases i with
    | mov_x0_imm val => exact absurd h (mov_text_ne val j hj)
    | _ => rcases hj with rfl | rfl | rfl <;> first | rfl | (revert h; decide)
  · intro h; rw [h]

theorem count_map_text (code : List Instr) (j : Instr)
    (hj : j = .str_x0_push ∨ j = .ldr_x1_pop ∨ j = .ldr_x0_pop) :
    (code.map Instr.text).count (Instr.text j) = code.count j := by
  induction code with
  | nil => rfl
  | cons i is ih =>
    simp only [List.map_cons, List.count_cons, ih, beq_iff_eq, text_eq_iff i j hj]

theorem gen_counts (node : Node) (hwf : well_formed node = true) :
    ∃ code, gen node = .ok code ∧
      code.count .str_x0_push = code.count .ldr_x1_pop + code.count .ldr_x0_pop + 1 := by
  induction node with
  | null => simp [well_formed] at hwf
  | mk kind lhs rhs val ihl ihr =>
    by_cases hk : kind = .ND_NUM
    · subst hk
      exact ⟨[.mov_x0_imm val, .str_x0_push], by simp [gen], by simp [List.count_cons]⟩
    · have hwf2 : well_formed lhs = true ∧ well_formed rhs = true := by
        cases kind <;> simp_all [well_formed]
      obtain ⟨cl, hcl, hl⟩ := ihl hwf2.1
      obtain ⟨cr, hcr, hr⟩ := ihr hwf2.2
      refine ⟨cl ++ cr ++ [.ldr_x1_pop, .ldr_x0_pop] ++ gen_switch kind ++ [.str_x0_push],
        by simp [gen, hk, hcl, hcr, Res.bind], ?_⟩
      have hsw : (gen_switch kind).count .str_x0_push = 0 ∧
          (gen_switch kind).count .ldr_x1_pop = 0 ∧
          (gen_switch kind).count .ldr_x0_pop = 0 := by
        cases kind <;> decide
      simp only [List.count_append, hsw.1, hsw.2.1, hsw.2.2, hl, hr]
      have e1 : List.count Instr.str_x0_push [Instr.ldr_x1_pop, Instr.ldr_x0_pop] = 0 := by
        decide
      have e2 : List.count Instr.str_x0_push [Instr.str_x0_push] = 1 := by decide
      have e3 : List.count Instr.ldr_x1_pop [Instr.ldr_x1_pop, Instr.ldr_x0_pop] = 1 := by
        decide
      have e4 : List.count Instr.ldr_x1_pop [Instr.str_x0_push] = 0 := by decide
      have e5 : List.count Instr.ldr_x0_pop [Instr.ldr_x1_pop, Instr.ldr_x0_pop] = 1 := by
        decide
      have e6 : List.count Instr.ldr_x0_pop [Instr.str_x0_push] = 0 := by decide
      rw [e1, e2, e3, e4, e5, e6]
      omega

/-- C12: for every tree (a literal without children, or a binary node over two trees) the
code emitted by `gen` contains exactly one more push instruction `str x0, [sp, -16]!` than
pop instructions `ldr x1, [sp], 16` and `ldr x0, [sp], 16`, counted as instructions and
as printed lines; so the whole program printed by `main`, which adds one final pop, has as
many pushes as pops. -/
theorem stack_balance_count (node : Node) (hwf : well_formed node = true) :
    ∃ code, gen node = .ok code ∧
      code.count .str_x0_push = code.count .ldr_x1_pop + code.count .ldr_x0_pop + 1 ∧
      (code.map Instr.text).count "  str x0, [sp, -16]!"
        = (code.map Instr.text).count "  ldr x1, [sp], 16"
          + (code.map Instr.text).count "  ldr x0, [sp], 16" + 1 ∧
      ([".globl main", "main:"] ++ code.map Instr.text
          ++ [Instr.text .ldr_x0_pop, Instr.text .ret]).count "  str x0, [sp, -16]!"
        = ([".globl main", "main:"] ++ code.map Instr.text
            ++ [Instr.text .ldr_x0_pop, Instr.text .ret]).count "  ldr x1, [sp], 16"
          + ([".globl main", "main:"] ++ code.map Instr.text
            ++ [Instr.text .ldr_x0_pop, Instr.text .ret]).count "  ldr x0, [sp], 16" := by
  obtain ⟨code, hgen, hcount⟩ := gen_counts node hwf
  have h1 := count_map_text code .str_x0_push (Or.inl rfl)
  have h2 := count_map_text code .ldr_x1_pop (Or.inr (Or.inl rfl))
  have h3 := count_map_text code .ldr_x0_pop (Or.inr (Or.inr rfl))
  have t1 : Instr.text .str_x0_push = "  str x0, [sp, -16]!" := rfl
  have t2 : Instr.text .ldr_x1_pop = "  ldr x1, [sp], 16" := rfl
  have t3 : Instr.text .ldr_x0_pop = "  ldr x0, [sp], 16" := rfl
  rw [t1] at h1
  rw [t2] at h2
  rw [t3] at h3
  refine ⟨code, hgen, hcount, by omega, ?_⟩
  simp only [List.count_append, h1, h2, h3]
  have e1 : List.count "  str x0, [sp, -16]!" [".globl main", "main:"] = 0 := by decide
  have e2 : List.count "  ldr x1, [sp], 16" [".globl main", "main:"] = 0 := by decide
  have e3 : List.count "  ldr x0, [sp], 16" [".globl main", "main:"] = 0 := by decide
  have e4 : List.count "  str x0, [sp, -16]!" [Instr.text .ldr_x0_pop, Instr.text .ret]
      = 0 := by decide
  have e5 : List.count "  ldr x1, [sp], 16" [Instr.text .ldr_x0_pop, Instr.text .ret]
      = 0 := by decide
  have e6 : List.count "  ldr x0, [sp], 16" [Instr.text .ldr_x0_pop, Instr.text .ret]
      = 1 := by decide
  rw [e1, e2, e3, e4, e5, e6]
  omega

theorem stack_balance_count_witness :
    well_formed (new_binary .ND_SUB (new_num 7) (new_binary .ND_DIV (new_num 6) (new_num 2)))
      = true ∧
    ∃ code,
      gen (new_binary .ND_SUB (new_num 7) (new_binary .ND_DIV (new_num 6) (new_num 2)))
        = .ok code ∧
      code.count .str_x0_push = code.count .ldr_x1_pop + code.count .ldr_x0_pop + 1 :=
  ⟨by decide,
    match stack_balance_count
      (new_binary .ND_SUB (new_num 7) (new_binary .ND_DIV (new_num 6) (new_num 2)))
      (by decide) with
    | ⟨code, h1, h2, _⟩ => ⟨code, h1, h2⟩⟩

/-! ### Stack discipline of the generated code -/

/-- C13: for every `ND_DIV` node over two trees with values `l` and `r`, `r` not zero and
all values within the signed 64-bit range, the emitted code is the code of the left
operand, the code of the right operand, the two pops, `sdiv` and a push; after the two
operand codes the stack holds `r` above `l`, the pops put `r` in `x1` and `l` in `x0`, and
the value pushed is `l` divided by `r` truncated toward zero (its magnitude is the floor
of the quotient of the magnitudes, also for negative `l`). The program for `(1-4)/2`
leaves -1 in `x0` and the program for `1-4` leaves -3. -/
theorem division_operand_order (lhs rhs : Node) (val : Int)
    (hl : well_formed lhs = true) (hr : well_formed rhs = true)
    (hdiv : no_div_zero (.mk .ND_DIV lhs rhs val) = true)
    (hfit : fits64 (.mk .ND_DIV lhs rhs val) = true) (m : Machine) :
    (∃ cl cr m2 m3 m4,
      gen lhs = .ok cl ∧ gen rhs = .ok cr ∧
      gen (.mk .ND_DIV lhs rhs val)
        = .ok (cl ++ cr ++ [.ldr_x1_pop, .ldr_x0_pop] ++ [.sdiv_x0_x0_x1] ++ [.str_x0_push]) ∧
      run (cl ++ cr) m = some m2 ∧ m2.stack = eval rhs :: eval lhs :: m.stack ∧
      run [.ldr_x1_pop, .ldr_x0_pop] m2 = some m3 ∧
      m3.x1 = eval rhs ∧ m3.x0 = eval lhs ∧ m3.stack = m.stack ∧
      run [.sdiv_x0_x0_x1, .str_x0_push] m3 = some m4 ∧
      m4.stack = Int.tdiv (eval lhs) (eval rhs) :: m.stack) ∧
    (Int.tdiv (eval lhs) (eval rhs)).natAbs = (eval lhs).natAbs / (eval rhs).natAbs ∧
    (eval lhs < 0 → 0 < eval rhs →
      Int.tdiv (eval lhs) (eval rhs) = -((-eval lhs) / eval rhs)) ∧
    (∀ m0 : Machine, result_x0 "(1-4)/2".toList m0 = some (-1)) ∧
    (∀ m0 : Machine, result_x0 "1-4".toList m0 = some (-3)) := by
  simp only [no_div_zero, fits64, Bool.and_eq_true] at hdiv hfit
  have hz : eval rhs ≠ 0 := by simpa using hdiv.2
  have hin := wrap64_of_in_int64 _ hfit.1.1
  simp only [eval] at hin
  obtain ⟨cl, hcl, hrl⟩ := gen_pushes lhs hl
  obtain ⟨cr, hcr, hrr⟩ := gen_pushes rhs hr
  obtain ⟨m1, hm1, hx1, hs1⟩ := hrl hdiv.1.1 hfit.1.2 m
  obtain ⟨m2, hm2, hx2, hs2⟩ := hrr hdiv.1.2 hfit.2 m1
  refine ⟨⟨cl, cr, m2, { m2 with x1 := eval rhs, x0 := eval lhs, stack := m.stack },
    { m2 with x1 := eval rhs, x0 := Int.tdiv (eval lhs) (eval rhs),
              stack := Int.tdiv (eval lhs) (eval rhs) :: m.stack },
    hcl, hcr, ?_, ?_, ?_, ?_, rfl, rfl, rfl, ?_, rfl⟩, ?_, ?_, ?_, ?_⟩
  · simp [gen, hcl, hcr, Res.bind, gen_switch]
  · simp [run_append, hm1, hm2]
  · rw [hs2, hs1]
  · simp [run, step, hs2, hs1]
  · simp [run, step, hz, hin]
  · rw [Int.natAbs_tdiv]
    rfl
  · intro hneg hpos
    have h1 : (-eval lhs).tdiv (eval rhs) = (-eval lhs) / eval rhs :=
      Int.tdiv_eq_ediv (by omega) (by omega)
    rw [← h1, Int.neg_tdiv, neg_neg]
  · intro m0
    have h : front_end "(1-4)/2".toList
        = .ok (new_binary .ND_DIV (new_binary .ND_SUB (new_num 1) (new_num 4)) (new_num 2),
               [{ kind := .TK_EOF, val := 0, str := [] }]) := by decide
    exact result_x0_eq h (by decide) (by decide) m0
  · intro m0
    have h : front_end "1-4".toList
        = .ok (new_binary .ND_SUB (new_num 1) (new_num 4),
               [{ kind := .TK_EOF, val := 0, str := [] }]) := by decide
    exact result_x0_eq h (by decide) (by decide) m0

theorem division_operand_order_witness :
    well_formed (new_binary .ND_SUB (new_num 1) (new_num 4)) = true ∧
    well_formed (new_num 2) = true ∧
    no_div_zero (.mk .ND_DIV (new_binary .ND_SUB (new_num 1) (new_num 4)) (new_num 2) 0)
      = true ∧
    fits64 (.mk .ND_DIV (new_binary .ND_SUB (new_num 1) (new_num 4)) (new_num 2) 0) = true ∧
    (Int.tdiv (eval (new_binary .ND_SUB (new_num 1) (new_num 4))) (eval (new_num 2))).natAbs
      = (eval (new_binary .ND_SUB (new_num 1) (new_num 4))).natAbs
        / (eval (new_num 2)).natAbs :=
  ⟨by decide, by decide, by decide, by decide,
    (division_operand_order (new_binary .ND_SUB (new_num 1) (new_num 4)) (new_num 2) 0
      (by decide) (by decide) (by decide) (by decide) { x0 := 0, x1 := 0, stack := [] }).2.1⟩

/-! ### Immediates of mov -/

set_option maxRecDepth 100000 in
theorem not_encodable_100000 : mov_encodable 100000 = false := by decide

theorem encodable_16bit (v : Int) (h0 : 0 ≤ v) (h1 : v < 65536) : mov_encodable v = true := by
  have hu : to_u64 v < 2 ^ 16 := by
    unfold to_u64
    omega
  simp [mov_encodable, is_wide_imm]
  left; left; left
  omega

/-- C15 (failing input): for the input `100000` the compiler exits with status 0 and prints
the line `mov x0,  #100000`, whose immediate is not a 16-bit value shifted by 0, 16, 32 or
48, nor the inverse of one, nor a bitmask immediate, so no single AArch64 `mov` encodes
it. Literals below 65536 are encodable. -/
theorem mov_immediate_not_encodable :
    compile "100000".toList
      = .ok { stdout := [".globl main", "main:", "  mov x0,  #100000",
                         "  str x0, [sp, -16]!", "  ldr x0, [sp], 16", "  ret"],
              stderr := [], status := 0 } ∧
    front_end "100000".toList
      = .ok (new_num 100000, [{ kind := .TK_EOF, val := 0, str := [] }]) ∧
    gen (new_num 100000) = .ok [.mov_x0_imm 100000, .str_x0_push] ∧
    mov_encodable 100000 = false ∧
    ∀ v : Int, 0 ≤ v → v < 65536 → mov_encodable v = true :=
  ⟨by decide, by decide, by decide, not_encodable_100000, encodable_16bit⟩

/-! ### The end-of-input token -/

theorem ends_eof_cons (t : Token) {ts : List Token} (h : ends_eof ts) : ends_eof (t :: ts) := by
  obtain ⟨body, eof, rfl, he⟩ := h
  exact ⟨t :: body, eof, rfl, he⟩

theorem ends_eof_tail {t : Token} {ts : List Token} (h : ends_eof (t :: ts))
    (ht : t.kind ≠ .TK_EOF) : ends_eof ts := by
  obtain ⟨body, eof, hb, he⟩ := h
  cases body with
  | nil =>
    simp only [List.nil_append, List.cons.injEq] at hb
    rw [hb.1] at ht
    exact absurd he ht
  | cons b body =>
    simp only [List.cons_append, List.cons.injEq] at hb
    exact ⟨body, eof, hb.2, he⟩

theorem ends_eof_ne_nil {ts : List Token} (h : ends_eof ts) : ∃ t tl, ts = t :: tl := by
  obtain ⟨body, eof, rfl, _⟩ := h
  cases body with
  | nil => exact ⟨eof, [], rfl⟩
  | cons b body => exact ⟨b, body ++ [eof], rfl⟩

theorem op_not_eof {c : Char} {t : Token} (h : is_op c t) : t.kind ≠ .TK_EOF := by
  rw [h.1]; decide

theorem num_not_eof {t : Token} (h : t.kind = .TK_NUM) : t.kind ≠ .TK_EOF := by
  rw [h]; decide

theorem tokenize_loop_ends_eof (n : Nat) :
    ∀ (p : List Char) (ts : List Token), tokenize_loop n p = .ok ts → ends_eof ts := by
  induction n with
  | zero => intro p ts h; simp [tokenize_loop] at h
  | succ n ih =>
    intro p ts h
    cases p with
    | nil =>
      simp only [tokenize_loop, Res.ok.injEq] at h
      subst h
      exact ⟨[], _, rfl, rfl⟩
    | cons c cs =>
      simp only [tokenize_loop] at h
      split at h
      · exact ih _ _ h
      · split at h
        · obtain ⟨ts1, h1, h2⟩ := bind_eq_ok h
          cases h2
          exact ends_eof_cons _ (ih _ _ h1)
        · split at h
          · obtain ⟨ts1, h1, h2⟩ := bind_eq_ok h
            cases h2
            exact ends_eof_cons _ (ih _ _ h1)
          · cases h

theorem tokenize_ends_eof {p : List Char} {ts : List Token} (h : tokenize p = .ok ts) :
    ends_eof ts :=
  tokenize_loop_ends_eof _ p ts h

theorem good_bind {ts : List Token} {r : Res (Node × List Token)}
    {f : Node × List Token → Res (Node × List Token)} (hr : Good ts r)
    (hf : ∀ node rest, r = .ok (node, rest) → ends_eof rest → rest.length ≤ ts.length →
      Good rest (f (node, rest))) :
    Good ts (r.bind f) := by
  cases r with
  | ok a =>
    obtain ⟨node, rest⟩ := a
    obtain ⟨h1, h2⟩ := hr.2 node rest rfl
    have hg := hf node rest rfl h1 h2
    refine ⟨hg.1, ?_⟩
    intro node2 rest2 h
    obtain ⟨h3, h4⟩ := hg.2 node2 rest2 h
    exact ⟨h3, by omega⟩
  | error_at loc msg => exact ⟨by simp [Res.bind], by intro _ _ h; simp [Res.bind] at h⟩
  | null_deref => exact absurd rfl hr.1
  | out_of_fuel => exact ⟨by simp [Res.bind], by intro _ _ h; simp [Res.bind] at h⟩

theorem good_weaken {ts ts2 : List Token} {r : Res (Node × List Token)} (h : Good ts r)
    (hlen : ts.length ≤ ts2.length) : Good ts2 r :=
  ⟨h.1, fun node rest hr => ⟨(h.2 node rest hr).1, by have := (h.2 node rest hr).2; omega⟩⟩

theorem good_fuel (ts : List Token) : Good ts (.out_of_fuel : Res (Node × List Token)) :=
  ⟨by simp, by intro _ _ h; cases h⟩

theorem keeps_primary (n : Nat) (ih : Keeps n) (ts : List Token) (h : ends_eof ts) :
    Good ts (primary (n + 1) ts) := by
  obtain ⟨t, tl, rfl⟩ := ends_eof_ne_nil h
  by_cases hp : is_op '(' t
  · have htl := ends_eof_tail h (op_not_eof hp)
    simp only [primary, consume_hit _ _ _ hp, Res.bind, if_true]
    refine good_weaken (good_bind (ih tl htl).2.2.2.2 ?_) (by simp)
    intro node rest _ hre _
    obtain ⟨t2, tl2, rfl⟩ := ends_eof_ne_nil hre
    by_cases hq : is_op ')' t2
    · simp only [expect_hit _ _ _ hq, Res.bind]
      refine ⟨by simp, ?_⟩
      intro node2 rest2 h2
      cases h2
      exact ⟨ends_eof_tail hre (op_not_eof hq), by simp⟩
    · simp only [expect_miss _ _ _ hq, Res.bind]
      exact ⟨by simp, by intro _ _ h2; cases h2⟩
  · simp only [primary, consume_miss _ _ _ hp, Res.bind]
    by_cases hk : t.kind = .TK_NUM
    · simp only [expect_number_hit _ _ hk, Res.bind, Bool.false_eq_true, if_false]
      refine ⟨by simp, ?_⟩
      intro node2 rest2 h2
      cases h2
      exact ⟨ends_eof_tail h (num_not_eof hk), by simp⟩
    · simp only [expect_number_miss _ _ hk, Res.bind, Bool.false_eq_true, if_false]
      exact ⟨by simp, by intro _ _ h2; cases h2⟩

theorem keeps_mul_loop (n : Nat) (ih : Keeps n) (ts : List Token) (h : ends_eof ts)
    (a : Node) : Good ts (mul_loop (n + 1) a ts) := by
  obtain ⟨t, tl, rfl⟩ := ends_eof_ne_nil h
  by_cases hp : is_op '*' t
  · have htl := ends_eof_tail h (op_not_eof hp)
    simp only [mul_loop, consume_hit _ _ _ hp, Res.bind, if_true]
    refine good_weaken (good_bind (ih tl htl).1 ?_) (by simp)
    intro node rest _ hre _
    exact ((ih rest hre).2.1 _)
  · by_cases hq : is_op '/' t
    · have htl := ends_eof_tail h (op_not_eof hq)
      simp only [mul_loop, consume_miss _ _ _ hp, consume_hit _ _ _ hq, Res.bind,
        Bool.false_eq_true, if_false, if_true]
      refine good_weaken (good_bind (ih tl htl).1 ?_) (by simp)
      intro node rest _ hre _
      exact ((ih rest hre).2.1 _)
    · simp only [mul_loop, consume_miss _ _ _ hp, consume_miss _ _ _ hq, Res.bind,
        Bool.false_eq_true, if_false]
      refine ⟨by simp, ?_⟩
      intro node2 rest2 h2
      cases h2
      exact ⟨h, Nat.le_refl _⟩

theorem keeps_expr_loop (n : Nat) (ih : Keeps n) (ts : List Token) (h : ends_eof ts)
    (a : Node) : Good ts (expr_loop (n + 1) a ts) := by
  obtain ⟨t, tl, rfl⟩ := ends_eof_ne_nil h
  by_cases hp : is_op '+' t
  · have htl := ends_eof_tail h (op_not_eof hp)
    simp only [expr_loop, consume_hit _ _ _ hp, Res.bind, if_true]
    refine good_weaken (good_bind (ih tl htl).2.2.1 ?_) (by simp)
    intro node rest _ hre _
    exact ((ih rest hre).2.2.2.1 _)
  · by_cases hq : is_op '-' t
    · have htl := ends_eof_tail h (op_not_eof hq)
      simp only [expr_loop, consume_miss _ _ _ hp, consume_hit _ _ _ hq, Res.bind,
        Bool.false_eq_true, if_false, if_true]
      refine good_weaken (good_bind (ih tl htl).2.2.1 ?_) (by simp)
      intro node rest _ hre _
      exact ((ih rest hre).2.2.2.1 _)
    · simp only [expr_loop, consume_miss _ _ _ hp, consume_miss _ _ _ hq, Res.bind,
        Bool.false_eq_true, if_false]
      refine ⟨by simp, ?_⟩
      intro node2 rest2 h2
      cases h2
      exact ⟨h, Nat.le_refl _⟩

theorem parser_keeps (n : Nat) : Keeps n := by
  induction n with
  | zero =>
    intro ts _
    simp only [primary, mul_loop, mul, expr_loop, expr]
    exact ⟨good_fuel ts, fun _ => good_fuel ts, good_fuel ts, fun _ => good_fuel ts,
      good_fuel ts⟩
  | succ n ih =>
    intro ts h
    refine ⟨keeps_primary n ih ts h, keeps_mul_loop n ih ts h, ?_,
      keeps_expr_loop n ih ts h, ?_⟩
    · simp only [mul]
      refine good_bind (ih ts h).1 ?_
      intro node rest _ hre _
      exact (ih rest hre).2.1 _
    · simp only [expr]
      refine good_bind (ih ts h).2.2.1 ?_
      intro node rest _ hre _
      exact (ih rest hre).2.2.2.1 _

theorem consume_advance (op : Char) (ts : List Token) (b : Bool) (ts2 : List Token)
    (h : consume op ts = .ok (b, ts2)) :
    (b = false ∧ ts2 = ts) ∨ (b = true ∧ ∃ t, ts = t :: ts2 ∧ is_op op t) := by
  cases ts with
  | nil => simp [consume] at h
  | cons t tl =>
    by_cases hp : is_op op t
    · rw [consume_hit _ _ _ hp] at h
      cases h
      exact Or.inr ⟨rfl, t, rfl, hp⟩
    · rw [consume_miss _ _ _ hp] at h
      cases h
      exact Or.inl ⟨rfl, rfl⟩

theorem expect_advance (op : Char) (ts ts2 : List Token) (h : expect op ts = .ok ts2) :
    ∃ t, ts = t :: ts2 ∧ is_op op t := by
  cases ts with
  | nil => simp [expect] at h
  | cons t tl =>
    by_cases hp : is_op op t
    · rw [expect_hit _ _ _ hp] at h
      cases h
      exact ⟨t, rfl, hp⟩
    · rw [expect_miss _ _ _ hp] at h
      cases h

theorem expect_number_advance (ts : List Token) (v : Int) (ts2 : List Token)
    (h : expect_number ts = .ok (v, ts2)) :
    ∃ t, ts = t :: ts2 ∧ t.kind = .TK_NUM ∧ v = t.val := by
  cases ts with
  | nil => simp [expect_number] at h
  | cons t tl =>
    by_cases hk : t.kind = .TK_NUM
    · rw [expect_number_hit _ _ hk] at h
      cases h
      exact ⟨t, rfl, hk, rfl⟩
    · rw [expect_number_miss _ _ hk] at h
      cases h

/-- C17: the token sequence returned by `tokenize` ends with the end-of-input token;
`consume` and `expect` advance the cursor only over an operator or punctuation token and
`expect_number` only over an integer-literal token, each by exactly one token; and from
every cursor that ends with the end-of-input token, with any fuel, none of `primary`,
`mul`, `expr` and their loops dereferences a null cursor (so `next` is never followed from
the end-of-input token), and a cursor they return still ends with the end-of-input token.
For `expr` on the whole sequence the returned cursor is a suffix of the sequence and no
token consumed is an end-of-input token. -/
theorem eof_never_consumed (user_input : List Char) (token : List Token)
    (h : tokenize user_input = .ok token) :
    ends_eof token ∧
    (∀ (op : Char) (ts : List Token) (b : Bool) (ts2 : List Token),
      consume op ts = .ok (b, ts2) →
        (b = false ∧ ts2 = ts) ∨ (b = true ∧ ∃ t, ts = t :: ts2 ∧ t.kind = .TK_RESERVED)) ∧
    (∀ (op : Char) (ts ts2 : List Token), expect op ts = .ok ts2 →
      ∃ t, ts = t :: ts2 ∧ t.kind = .TK_RESERVED) ∧
    (∀ (ts : List Token) (v : Int) (ts2 : List Token), expect_number ts = .ok (v, ts2) →
      ∃ t, ts = t :: ts2 ∧ t.kind = .TK_NUM) ∧
    (∀ (n : Nat) (ts : List Token), ends_eof ts →
      (primary n ts ≠ .null_deref ∧ mul n ts ≠ .null_deref ∧ expr n ts ≠ .null_deref ∧
        ∀ a, mul_loop n a ts ≠ .null_deref ∧ expr_loop n a ts ≠ .null_deref) ∧
      ∀ node rest,
        (primary n ts = .ok (node, rest) ∨ mul n ts = .ok (node, rest) ∨
          expr n ts = .ok (node, rest) ∨
          (∃ a, mul_loop n a ts = .ok (node, rest) ∨ expr_loop n a ts = .ok (node, rest))) →
        ends_eof rest) ∧
    parse token ≠ .null_deref ∧
    ∀ node rest, parse token = .ok (node, rest) →
      ends_eof rest ∧ ∃ consumed, token = consumed ++ rest ∧
        ∀ t ∈ consumed, t.kind ≠ .TK_EOF := by
  have he := tokenize_ends_eof h
  refine ⟨he, ?_, ?_, ?_, ?_, ((parser_keeps _) token he).2.2.2.2.1, ?_⟩
  · intro op ts b ts2 hc
    rcases consume_advance op ts b ts2 hc with h1 | ⟨h1, t, h2, h3⟩
    · exact Or.inl h1
    · exact Or.inr ⟨h1, t, h2, h3.1⟩
  · intro op ts ts2 hc
    obtain ⟨t, h1, h2⟩ := expect_advance op ts ts2 hc
    exact ⟨t, h1, h2.1⟩
  · intro ts v ts2 hc
    obtain ⟨t, h1, h2, _⟩ := expect_number_advance ts v ts2 hc
    exact ⟨t, h1, h2⟩
  · intro n ts hts
    obtain ⟨k1, k2, k3, k4, k5⟩ := parser_keeps n ts hts
    refine ⟨⟨k1.1, k3.1, k5.1, fun a => ⟨(k2 a).1, (k4 a).1⟩⟩, ?_⟩
    intro node rest hr
    rcases hr with hr | hr | hr | ⟨a, hr | hr⟩
    · exact (k1.2 node rest hr).1
    · exact (k3.2 node rest hr).1
    · exact (k5.2 node rest hr).1
    · exact ((k2 a).2 node rest hr).1
    · exact ((k4 a).2 node rest hr).1
  · intro node rest hp
    obtain ⟨consumed, hsplit, hder⟩ := parse_derives hp
    exact ⟨(((parser_keeps _) token he).2.2.2.2.2 node rest hp).1, consumed, hsplit,
      derives_no_eof hder⟩

theorem eof_never_consumed_witness :
    tokenize "(1+2)*3 4".toList
      = .ok [{ kind := .TK_RESERVED, val := 0, str := "(1+2)*3 4".toList },
             { kind := .TK_NUM, val := 1, str := "1+2)*3 4".toList },
             { kind := .TK_RESERVED, val := 0, str := "+2)*3 4".toList },
             { kind := .TK_NUM, val := 2, str := "2)*3 4".toList },
             { kind := .TK_RESERVED, val := 0, str := ")*3 4".toList },
             { kind := .TK_RESERVED, val := 0, str := "*3 4".toList },
             { kind := .TK_NUM, val := 3, str := "3 4".toList },
             { kind := .TK_NUM, val := 4, str := "4".toList },
             { kind := .TK_EOF, val := 0, str := [] }] ∧
    ends_eof [{ kind := .TK_RESERVED, val := 0, str := "(1+2)*3 4".toList },
             { kind := .TK_NUM, val := 1, str := "1+2)*3 4".toList },
             { kind := .TK_RESERVED, val := 0, str := "+2)*3 4".toList },
             { kind := .TK_NUM, val := 2, str := "2)*3 4".toList },
             { kind := .TK_RESERVED, val := 0, str := ")*3 4".toList },
             { kind := .TK_RESERVED, val := 0, str := "*3 4".toList },
             { kind := .TK_NUM, val := 3, str := "3 4".toList },
             { kind := .TK_NUM, val := 4, str := "4".toList },
             { kind := .TK_EOF, val := 0, str := [] }] :=
  ⟨by decide, (eof_never_consumed "(1+2)*3 4".toList _ (by decide)).1⟩

/-! ### Termination of the parser -/

theorem live_bind {α β : Type} {r : Res α} {f : α → Res β} (hr : r ≠ .out_of_fuel)
    (hf : ∀ a, r = .ok a → f a ≠ .out_of_fuel) : r.bind f ≠ .out_of_fuel := by
  cases r with
  | ok a => exact hf a rfl
  | error_at loc msg => simp [Res.bind]
  | null_deref => simp [Res.bind]
  | out_of_fuel => exact absurd rfl hr

theorem expect_live {β : Type} (c : Char) (ts : List Token) (g : List Token → β) :
    ((expect c ts).bind fun t => .ok (g t)) ≠ .out_of_fuel := by
  cases ts with
  | nil => simp [expect, Res.bind]
  | cons t tl =>
    by_cases hp : is_op c t
    · simp [expect_hit _ _ _ hp, Res.bind]
    · simp [expect_miss _ _ _ hp, Res.bind]

theorem enough_primary (n : Nat) (ih : Enough n) (ts : List Token) (h : ends_eof ts)
    (hn : 3 * ts.length ≤ n + 1) : primary (n + 1) ts ≠ .out_of_fuel := by
  obtain ⟨t, tl, rfl⟩ := ends_eof_ne_nil h
  simp only [List.length_cons] at hn
  by_cases hp : is_op '(' t
  · have htl := ends_eof_tail h (op_not_eof hp)
    simp only [primary, consume_hit _ _ _ hp, Res.bind, if_true]
    refine live_bind ((ih tl htl).2.2.2.2 (by omega)) ?_
    intro a _
    exact expect_live _ _ _
  · simp only [primary, consume_miss _ _ _ hp, Res.bind, Bool.false_eq_true, if_false]
    by_cases hk : t.kind = .TK_NUM
    · simp [expect_number_hit _ _ hk, Res.bind]
    · simp [expect_number_miss _ _ hk, Res.bind]

theorem enough_mul_loop (n : Nat) (ih : Enough n) (ts : List Token) (h : ends_eof ts)
    (a : Node) (hn : 3 * ts.length ≤ n + 1) : mul_loop (n + 1) a ts ≠ .out_of_fuel := by
  obtain ⟨t, tl, rfl⟩ := ends_eof_ne_nil h
  simp only [List.length_cons] at hn
  have step : ∀ kind, ends_eof tl →
      ((primary n tl).bind fun r => mul_loop n (new_binary kind a r.1) r.2)
        ≠ .out_of_fuel := by
    intro kind htl
    refine live_bind ((ih tl htl).1 (by omega)) ?_
    intro r hr
    obtain ⟨hre, hlen⟩ := ((parser_keeps n) tl htl).1.2 r.1 r.2 hr
    exact (ih r.2 hre).2.1 _ (by omega)
  by_cases hp : is_op '*' t
  · simp only [mul_loop, consume_hit _ _ _ hp, Res.bind, if_true]
    exact step _ (ends_eof_tail h (op_not_eof hp))
  · by_cases hq : is_op '/' t
    · simp only [mul_loop, consume_miss _ _ _ hp, consume_hit _ _ _ hq, Res.bind,
        Bool.false_eq_true, if_false, if_true]
      exact step _ (ends_eof_tail h (op_not_eof hq))
    · simp [mul_loop, consume_miss _ _ _ hp, consume_miss _ _ _ hq, Res.bind]

theorem enough_expr_loop (n : Nat) (ih : Enough n) (ts : List Token) (h : ends_eof ts)
    (a : Node) (hn : 3 * ts.length ≤ n + 1) : expr_loop (n + 1) a ts ≠ .out_of_fuel := by
  obtain ⟨t, tl, rfl⟩ := ends_eof_ne_nil h
  simp only [List.length_cons] at hn
  have step : ∀ kind, ends_eof tl →
      ((mul n tl).bind fun r => expr_loop n (new_binary kind a r.1) r.2)
        ≠ .out_of_fuel := by
    intro kind htl
    refine live_bind ((ih tl htl).2.2.1 (by omega)) ?_
    intro r hr
    obtain ⟨hre, hlen⟩ := ((parser_keeps n) tl htl).2.2.1.2 r.1 r.2 hr
    exact (ih r.2 hre).2.2.2.1 _ (by omega)
  by_cases hp : is_op '+' t
  · simp only [expr_loop, consume_hit _ _ _ hp, Res.bind, if_true]
    exact step _ (ends_eof_tail h (op_not_eof hp))
  · by_cases hq : is_op '-' t
    · simp only [expr_loop, consume_miss _ _ _ hp, consume_hit _ _ _ hq, Res.bind,
        Bool.false_eq_true, if_false, if_true]
      exact step _ (ends_eof_tail h (op_not_eof hq))
    · simp [expr_loop, consume_miss _ _ _ hp, consume_miss _ _ _ hq, Res.bind]

theorem parser_enough (n : Nat) : Enough n := by
  induction n with
  | zero =>
    intro ts h
    obtain ⟨t, tl, rfl⟩ := ends_eof_ne_nil h
    simp only [List.length_cons]
    exact ⟨fun h0 => by omega, fun _ h0 => by omega, fun h0 => by omega,
      fun _ h0 => by omega, fun h0 => by omega⟩
  | succ n ih =>
    intro ts h
    refine ⟨enough_primary n ih ts h, fun a => enough_mul_loop n ih ts h a, ?_,
      fun a => enough_expr_loop n ih ts h a, ?_⟩
    · intro hn
      simp only [mul]
      refine live_bind ((ih ts h).1 (by omega)) ?_
      intro r hr
      obtain ⟨hre, hlen⟩ := ((parser_keeps n) ts h).1.2 r.1 r.2 hr
      exact (ih r.2 hre).2.1 _ (by omega)
    · intro hn
      simp only [expr]
      refine live_bind ((ih ts h).2.2.1 (by omega)) ?_
      intro r hr
      obtain ⟨hre, hlen⟩ := ((parser_keeps n) ts h).2.2.1.2 r.1 r.2 hr
      exact (ih r.2 hre).2.2.2.1 _ (by omega)

theorem bind_stable {α β : Type} {r r2 : Res α} {f f2 : α → Res β}
    (hr : r ≠ .out_of_fuel → r2 = r)
    (hf : ∀ a, r = .ok a → f a ≠ .out_of_fuel → f2 a = f a)
    (h : r.bind f ≠ .out_of_fuel) : r2.bind f2 = r.bind f := by
  cases r with
  | ok a =>
    rw [hr (by simp)]
    exact hf a rfl h
  | error_at loc msg => rw [hr (by simp)]; rfl
  | null_deref => rw [hr (by simp)]; rfl
  | out_of_fuel => exact absurd rfl h

theorem stable_primary (n : Nat) (ih : Stable n) (ts : List Token)
    (h : primary (n + 1) ts ≠ .out_of_fuel) : primary (n + 2) ts = primary (n + 1) ts := by
  cases ts with
  | nil => simp [primary, consume, Res.bind]
  | cons t tl =>
    by_cases hp : is_op '(' t
    · simp only [primary, consume_hit _ _ _ hp, Res.bind, if_true] at h ⊢
      exact bind_stable (ih tl).2.2.2.2 (fun _ _ _ => rfl) h
    · simp [primary, consume_miss _ _ _ hp, Res.bind]

theorem stable_mul_loop (n : Nat) (ih : Stable n) (ts : List Token) (a : Node)
    (h : mul_loop (n + 1) a ts ≠ .out_of_fuel) :
    mul_loop (n + 2) a ts = mul_loop (n + 1) a ts := by
  cases ts with
  | nil => simp [mul_loop, consume, Res.bind]
  | cons t tl =>
    by_cases hp : is_op '*' t
    · simp only [mul_loop, consume_hit _ _ _ hp, Res.bind, if_true] at h ⊢
      exact bind_stable (ih tl).1 (fun r _ hr => (ih r.2).2.1 _ hr) h
    · by_cases hq : is_op '/' t
      · simp only [mul_loop, consume_miss _ _ _ hp, consume_hit _ _ _ hq, Res.bind,
          Bool.false_eq_true, if_false, if_true] at h ⊢
        exact bind_stable (ih tl).1 (fun r _ hr => (ih r.2).2.1 _ hr) h
      · simp [mul_loop, consume_miss _ _ _ hp, consume_miss _ _ _ hq, Res.bind]

theorem stable_expr_loop (n : Nat) (ih : Stable n) (ts : List Token) (a : Node)
    (h : expr_loop (n + 1) a ts ≠ .out_of_fuel) :
    expr_loop (n + 2) a ts = expr_loop (n + 1) a ts := by
  cases ts with
  | nil => simp [expr_loop, consume, Res.bind]
  | cons t tl =>
    by_cases hp : is_op '+' t
    · simp only [expr_loop, consume_hit _ _ _ hp, Res.bind, if_true] at h ⊢
      exact bind_stable (ih tl).2.2.1 (fun r _ hr => (ih r.2).2.2.2.1 _ hr) h
    · by_cases hq : is_op '-' t
      · simp only [expr_loop, consume_miss _ _ _ hp, consume_hit _ _ _ hq, Res.bind,
          Bool.false_eq_true, if_false, if_true] at h ⊢
        exact bind_stable (ih tl).2.2.1 (fun r _ hr => (ih r.2).2.2.2.1 _ hr) h
      · simp [expr_loop, consume_miss _ _ _ hp, consume_miss _ _ _ hq, Res.bind]

theorem parser_stable (n : Nat) : Stable n := by
  induction n with
  | zero =>
    intro ts
    refine ⟨fun h => ?_, fun _ h => ?_, fun h => ?_, fun _ h => ?_, fun h => ?_⟩ <;>
      simp [primary, mul_loop, mul, expr_loop, expr] at h
  | succ n ih =>
    intro ts
    refine ⟨stable_primary n ih ts, fun a => stable_mul_loop n ih ts a, ?_,
      fun a => stable_expr_loop n ih ts a, ?_⟩
    · intro h
      simp only [mul] at h ⊢
      exact bind_stable (ih ts).1 (fun r _ hr => (ih r.2).2.1 _ hr) h
    · intro h
      simp only [expr] at h ⊢
      exact bind_stable (ih ts).2.2.1 (fun r _ hr => (ih r.2).2.2.2.1 _ hr) h

theorem expr_fuel_irrelevant (ts : List Token) (n : Nat) (h : expr n ts ≠ .out_of_fuel) :
    ∀ k, expr (n + k) ts = expr n ts := by
  intro k
  induction k with
  | zero => rfl
  | succ k ih =>
    have h2 : expr (n + k) ts ≠ .out_of_fuel := by rw [ih]; exact h
    have := (parser_stable (n + k) ts).2.2.2.2 h2
    rw [← ih, ← this]
    rfl

/-- C20: on every token sequence that ends with an end-of-input token, `expr` as called by
`main` returns, with a tree or with an error: the fuel of the model is never exhausted
and no null cursor is dereferenced, and every larger amount of fuel gives the same result;
`mul` and `primary` return as well. When a tree is returned the cursor is a suffix of the
sequence that still holds the end-of-input token, so it never moved backward and at most
the tokens before the end-of-input token were consumed. The recursive call through `(`
and every further loop iteration run on the tail of the cursor, after one token has been
consumed. -/
theorem parser_terminates (ts : List Token) (h : ends_eof ts) :
    ((∃ node rest consumed, parse ts = .ok (node, rest) ∧ ts = consumed ++ rest ∧
        ends_eof rest ∧ consumed.length + 1 ≤ ts.length) ∨
      ∃ loc msg, parse ts = .error_at loc msg) ∧
    (∀ n, 3 * ts.length + 2 ≤ n → expr n ts = parse ts) ∧
    (∀ n, 3 * ts.length + 1 ≤ n → mul n ts ≠ .out_of_fuel ∧ mul n ts ≠ .null_deref) ∧
    (∀ n, 3 * ts.length ≤ n → primary n ts ≠ .out_of_fuel ∧ primary n ts ≠ .null_deref) ∧
    (∀ (n : Nat) (t : Token) (tl : List Token), is_op '(' t →
      primary (n + 1) (t :: tl)
        = (expr n tl).bind fun r => (expect ')' r.2).bind fun c => .ok (r.1, c)) ∧
    (∀ (n : Nat) (a : Node) (t : Token) (tl : List Token),
      mul_loop (n + 1) a (t :: tl)
        = if is_op '*' t then
            (primary n tl).bind fun r => mul_loop n (new_binary .ND_MUL a r.1) r.2
          else if is_op '/' t then
            (primary n tl).bind fun r => mul_loop n (new_binary .ND_DIV a r.1) r.2
          else .ok (a, t :: tl)) ∧
    (∀ (n : Nat) (a : Node) (t : Token) (tl : List Token),
      expr_loop (n + 1) a (t :: tl)
        = if is_op '+' t then
            (mul n tl).bind fun r => expr_loop n (new_binary .ND_ADD a r.1) r.2
          else if is_op '-' t then
            (mul n tl).bind fun r => expr_loop n (new_binary .ND_SUB a r.1) r.2
          else .ok (a, t :: tl)) := by
  have hlive : expr (3 * ts.length + 2) ts ≠ .out_of_fuel :=
    (parser_enough _ ts h).2.2.2.2 (Nat.le_refl _)
  have hsame : ∀ n, 3 * ts.length + 2 ≤ n → expr n ts = expr (3 * ts.length + 2) ts := by
    intro n hn
    obtain ⟨k, rfl⟩ : ∃ k, n = 3 * ts.length + 2 + k := ⟨n - (3 * ts.length + 2), by omega⟩
    exact expr_fuel_irrelevant ts _ hlive k
  have hparse : parse ts = expr (3 * ts.length + 2) ts :=
    hsame _ (by simp [parse_fuel])
  refine ⟨?_, ?_, ?_, ?_, ?_, ?_, ?_⟩
  · have hk := (parser_keeps (parse_fuel ts) ts h).2.2.2.2
    have hl : parse ts ≠ .out_of_fuel := by rw [hparse]; exact hlive
    cases hp : parse ts with
    | ok a =>
      obtain ⟨node, rest⟩ := a
      obtain ⟨consumed, hsplit, _⟩ := parse_derives hp
      obtain ⟨hre, _⟩ := hk.2 node rest hp
      obtain ⟨t, tl, hcons⟩ := ends_eof_ne_nil hre
      refine Or.inl ⟨node, rest, consumed, rfl, hsplit, hre, ?_⟩
      have hlen := congrArg List.length hsplit
      rw [hcons] at hlen
      simp only [List.length_append, List.length_cons] at hlen
      omega
    | error_at loc msg => exact Or.inr ⟨loc, msg, rfl⟩
    | null_deref => exact absurd hp hk.1
    | out_of_fuel => exact absurd hp hl
  · intro n hn
    rw [hparse]
    exact hsame n hn
  · intro n hn
    exact ⟨(parser_enough n ts h).2.2.1 hn, (parser_keeps n ts h).2.2.1.1⟩
  · intro n hn
    exact ⟨(parser_enough n ts h).1 hn, (parser_keeps n ts h).1.1⟩
  · intro n t tl hp
    simp [primary, consume_hit _ _ _ hp, Res.bind]
  · intro n a t tl
    by_cases hp : is_op '*' t
    · simp [mul_loop, consume_hit _ _ _ hp, Res.bind, hp]
    · by_cases hq : is_op '/' t
      · simp [mul_loop, consume_miss _ _ _ hp, consume_hit _ _ _ hq, Res.bind, hp, hq]
      · simp [mul_loop, consume_miss _ _ _ hp, consume_miss _ _ _ hq, Res.bind, hp, hq]
  · intro n a t tl
    by_cases hp : is_op '+' t
    · simp [expr_loop, consume_hit _ _ _ hp, Res.bind, hp]
    · by_cases hq : is_op '-' t
      · simp [expr_loop, consume_miss _ _ _ hp, consume_hit _ _ _ hq, Res.bind, hp, hq]
      · simp [expr_loop, consume_miss _ _ _ hp, consume_miss _ _ _ hq, Res.bind, hp, hq]

theorem parser_terminates_witness :
    ends_eof [{ kind := .TK_RESERVED, val := 0, str := "(1".toList },
              { kind := .TK_NUM, val := 1, str := "1".toList },
              { kind := .TK_EOF, val := 0, str := [] }] ∧
    ∀ n, 3 * [({ kind := .TK_RESERVED, val := 0, str := "(1".toList } : Token),
              { kind := .TK_NUM, val := 1, str := "1".toList },
              { kind := .TK_EOF, val := 0, str := [] }].length + 2 ≤ n →
      expr n [{ kind := .TK_RESERVED, val := 0, str := "(1".toList },
              { kind := .TK_NUM, val := 1, str := "1".toList },
              { kind := .TK_EOF, val := 0, str := [] }]
        = parse [{ kind := .TK_RESERVED, val := 0, str := "(1".toList },
                 { kind := .TK_NUM, val := 1, str := "1".toList },
                 { kind := .TK_EOF, val := 0, str := [] }] :=
  have he : ends_eof [{ kind := .TK_RESERVED, val := 0, str := "(1".toList },
      { kind := .TK_NUM, val := 1, str := "1".toList },
      { kind := .TK_EOF, val := 0, str := [] }] :=
    ⟨[{ kind := .TK_RESERVED, val := 0, str := "(1".toList },
      { kind := .TK_NUM, val := 1, str := "1".toList }],
     { kind := .TK_EOF, val := 0, str := [] }, rfl, rfl⟩
  ⟨he, (parser_terminates _ he).2.1⟩

/-! ### Where syntax errors are reported -/

theorem bind_eq_error {α β : Type} {r : Res α} {f : α → Res β} {loc : List Char}
    {msg : ErrMsg} (h : r.bind f = .error_at loc msg) :
    r = .error_at loc msg ∨ ∃ a, r = .ok a ∧ f a = .error_at loc msg := by
  cases r with
  | ok a => exact Or.inr ⟨a, rfl, h⟩
  | error_at loc2 msg2 =>
    simp only [Res.bind, Res.error_at.injEq] at h
    obtain ⟨rfl, rfl⟩ := h
    exact Or.inl rfl
  | null_deref => simp [Res.bind] at h
  | out_of_fuel => simp [Res.bind] at h

theorem tokenize_loop_suffix (n : Nat) :
    ∀ (p : List Char) (ts : List Token), tokenize_loop n p = .ok ts →
      ∀ t ∈ ts, ∃ before, p = before ++ t.str := by
  induction n with
  | zero => intro p ts h; simp [tokenize_loop] at h
  | succ n ih =>
    intro p ts h t ht
    cases p with
    | nil =>
      simp only [tokenize_loop, Res.ok.injEq] at h
      subst h
      simp only [List.mem_singleton] at ht
      subst ht
      exact ⟨[], rfl⟩
    | cons c cs =>
      simp only [tokenize_loop] at h
      split at h
      · obtain ⟨before, hb⟩ := ih _ _ h t ht
        exact ⟨c :: before, by rw [hb]; rfl⟩
      · split at h
        · obtain ⟨ts1, h1, h2⟩ := bind_eq_ok h
          cases h2
          simp only [List.mem_cons] at ht
          rcases ht with rfl | ht
          · exact ⟨[], rfl⟩
          · obtain ⟨before, hb⟩ := ih _ _ h1 t ht
            exact ⟨c :: before, by rw [hb]; rfl⟩
        · split at h
          · obtain ⟨ts1, h1, h2⟩ := bind_eq_ok h
            cases h2
            simp only [List.mem_cons] at ht
            rcases ht with rfl | ht
            · exact ⟨[], rfl⟩
            · obtain ⟨before, hb⟩ := ih _ _ h1 t ht
              have hs : (strtol (c :: cs)).2 = (c :: cs).dropWhile isdigit := by
                simp [strtol, strtol_digits_eq]
              rw [hs] at hb
              refine ⟨(c :: cs).takeWhile isdigit ++ before, ?_⟩
              rw [List.append_assoc, ← hb, List.takeWhile_append_dropWhile]
          · cases h

theorem returns_error_bind {α β : Type} {g : Nat → Res α} (h : Nat → α → Res β)
    {loc : List Char} {msg : ErrMsg} (hg : Returns g (.error_at loc msg)) :
    Returns (fun n => (g n).bind (h n)) (.error_at loc msg) := by
  obtain ⟨n0, hn⟩ := hg
  exact ⟨n0, fun n hle => by simp only [hn n hle, Res.bind]⟩

theorem returns_ok_bind {α β : Type} {g : Nat → Res α} {h : Nat → α → Res β} {a : α}
    {r : Res β} (hg : Returns g (.ok a)) (hh : Returns (fun n => h n a) r) :
    Returns (fun n => (g n).bind (h n)) r := by
  obtain ⟨n0, hn⟩ := hg
  obtain ⟨n1, hm⟩ := hh
  refine ⟨max n0 n1, fun n hle => ?_⟩
  have h1 := hn n (le_trans (le_max_left _ _) hle)
  have h2 := hm n (le_trans (le_max_right _ _) hle)
  simp only [h1, Res.bind]
  exact h2

theorem returns_succ {α : Type} {F G : Nat → Res α} {r : Res α} (hF : Returns F r)
    (hG : ∀ n, G (n + 1) = F n) : Returns G r := by
  obtain ⟨n0, hn⟩ := hF
  refine ⟨n0 + 1, fun n hle => ?_⟩
  obtain ⟨k, rfl⟩ : ∃ k, n = k + 1 := ⟨n - 1, by omega⟩
  rw [hG]
  exact hn k (by omega)

theorem returns_const {α : Type} (r : Res α) : Returns (fun _ => r) r :=
  ⟨0, fun _ _ => rfl⟩

theorem returns_step_error {f g : Nat → List Token → Res (Node × List Token)}
    (h : Nat → Node × List Token → Res (Node × List Token)) (x y : List Token)
    {loc : List Char} {msg : ErrMsg} (heq : ∀ k, f (k + 1) y = (g k x).bind (h k))
    (hr : Returns (fun k => g k x) (.error_at loc msg)) :
    Returns (fun k => f k y) (.error_at loc msg) :=
  returns_succ (returns_error_bind h hr) heq

theorem returns_step_ok {f g : Nat → List Token → Res (Node × List Token)}
    (h : Nat → Node × List Token → Res (Node × List Token)) (x y : List Token)
    (a : Node × List Token) {r : Res (Node × List Token)}
    (heq : ∀ k, f (k + 1) y = (g k x).bind (h k))
    (hg : Returns (fun k => g k x) (.ok a)) (hh : Returns (fun k => h k a) r) :
    Returns (fun k => f k y) r :=
  returns_succ (returns_ok_bind hg hh) heq

theorem primary_open (n : Nat) (t : Token) (tl : List Token) (hp : is_op '(' t) :
    primary (n + 1) (t :: tl)
      = (expr n tl).bind fun r => (expect ')' r.2).bind fun c => .ok (r.1, c) := by
  simp [primary, consume_hit _ _ _ hp, Res.bind]

theorem primary_leaf (n : Nat) (t : Token) (tl : List Token) (hp : ¬ is_op '(' t)
    (hk : t.kind ≠ .TK_NUM) :
    primary (n + 1) (t :: tl) = .error_at t.str .expect_number := by
  simp [primary, consume_miss _ _ _ hp, expect_number_miss _ _ hk, Res.bind]

theorem mul_loop_times (n : Nat) (a : Node) (t : Token) (tl : List Token)
    (hp : is_op '*' t) :
    mul_loop (n + 1) a (t :: tl)
      = (primary n tl).bind fun r => mul_loop n (new_binary .ND_MUL a r.1) r.2 := by
  simp [mul_loop, consume_hit _ _ _ hp, Res.bind]

theorem mul_loop_over (n : Nat) (a : Node) (t : Token) (tl : List Token)
    (hp : ¬ is_op '*' t) (hq : is_op '/' t) :
    mul_loop (n + 1) a (t :: tl)
      = (primary n tl).bind fun r => mul_loop n (new_binary .ND_DIV a r.1) r.2 := by
  simp [mul_loop, consume_miss _ _ _ hp, consume_hit _ _ _ hq, Res.bind]

theorem mul_loop_exit (n : Nat) (a : Node) (t : Token) (tl : List Token)
    (hp : ¬ is_op '*' t) (hq : ¬ is_op '/' t) :
    mul_loop (n + 1) a (t :: tl) = .ok (a, t :: tl) := by
  simp [mul_loop, consume_miss _ _ _ hp, consume_miss _ _ _ hq, Res.bind]

theorem expr_loop_plus (n : Nat) (a : Node) (t : Token) (tl : List Token)
    (hp : is_op '+' t) :
    expr_loop (n + 1) a (t :: tl)
      = (mul n tl).bind fun r => expr_loop n (new_binary .ND_ADD a r.1) r.2 := by
  simp [expr_loop, consume_hit _ _ _ hp, Res.bind]

theorem expr_loop_minus (n : Nat) (a : Node) (t : Token) (tl : List Token)
    (hp : ¬ is_op '+' t) (hq : is_op '-' t) :
    expr_loop (n + 1) a (t :: tl)
      = (mul n tl).bind fun r => expr_loop n (new_binary .ND_SUB a r.1) r.2 := by
  simp [expr_loop, consume_miss _ _ _ hp, consume_hit _ _ _ hq, Res.bind]

theorem expr_loop_exit (n : Nat) (a : Node) (t : Token) (tl : List Token)
    (hp : ¬ is_op '+' t) (hq : ¬ is_op '-' t) :
    expr_loop (n + 1) a (t :: tl) = .ok (a, t :: tl) := by
  simp [expr_loop, consume_miss _ _ _ hp, consume_miss _ _ _ hq, Res.bind]

theorem mul_loop_nil (n : Nat) (a : Node) : mul_loop (n + 1) a [] = .null_deref := by
  simp [mul_loop, consume, Res.bind]

theorem expr_loop_nil (n : Nat) (a : Node) : expr_loop (n + 1) a [] = .null_deref := by
  simp [expr_loop, consume, Res.bind]

theorem parser_stops (n : Nat) : Stops n := by
  induction n with
  | zero =>
    intro ts node rest
    refine ⟨fun _ h => ?_, fun h => ?_, fun _ _ h => ?_, fun h => ?_⟩ <;>
      simp [mul_loop, mul, expr_loop, expr] at h
  | succ n ih =>
    intro ts node rest
    refine ⟨?_, ?_, ?_, ?_⟩
    · intro a h
      cases ts with
      | nil => rw [mul_loop_nil] at h; cases h
      | cons t tl =>
        by_cases hp : is_op '*' t
        · rw [mul_loop_times n a t tl hp] at h
          obtain ⟨⟨b, r1⟩, _, h2⟩ := bind_eq_ok h
          exact (ih r1 node rest).1 _ h2
        · by_cases hq : is_op '/' t
          · rw [mul_loop_over n a t tl hp hq] at h
            obtain ⟨⟨b, r1⟩, _, h2⟩ := bind_eq_ok h
            exact (ih r1 node rest).1 _ h2
          · rw [mul_loop_exit n a t tl hp hq] at h
            cases h
            exact ⟨t, tl, rfl, hp, hq⟩
    · intro h
      simp only [mul] at h
      obtain ⟨⟨b, r1⟩, _, h2⟩ := bind_eq_ok h
      exact (ih r1 node rest).1 _ h2
    · intro a hstop h
      cases ts with
      | nil => rw [expr_loop_nil] at h; cases h
      | cons t tl =>
        by_cases hp : is_op '+' t
        · rw [expr_loop_plus n a t tl hp] at h
          obtain ⟨⟨b, r1⟩, h1, h2⟩ := bind_eq_ok h
          exact (ih r1 node rest).2.2.1 _ ((ih tl b r1).2.1 h1) h2
        · by_cases hq : is_op '-' t
          · rw [expr_loop_minus n a t tl hp hq] at h
            obtain ⟨⟨b, r1⟩, h1, h2⟩ := bind_eq_ok h
            exact (ih r1 node rest).2.2.1 _ ((ih tl b r1).2.1 h1) h2
          · rw [expr_loop_exit n a t tl hp hq] at h
            cases h
            obtain ⟨t2, tl2, hc, h3, h4⟩ := hstop
            cases hc
            exact ⟨t, tl, rfl, h3, h4, hp, hq⟩
    · intro h
      simp only [expr] at h
      obtain ⟨⟨b, r1⟩, h1, h2⟩ := bind_eq_ok h
      exact (ih r1 node rest).2.2.1 _ ((ih ts b r1).2.1 h1) h2

theorem mul_stop_head {pre : List Token} {t : Token} {rest : List Token}
    (h : mul_stop (pre ++ t :: rest)) (rest2 : List Token) :
    mul_stop (pre ++ t :: rest2) := by
  obtain ⟨x, xs, hx, h1, h2⟩ := h
  cases pre with
  | nil =>
    simp only [List.nil_append, List.cons.injEq] at hx
    obtain ⟨rfl, _⟩ := hx
    exact ⟨t, rest2, rfl, h1, h2⟩
  | cons p ps =>
    simp only [List.cons_append, List.cons.injEq] at hx
    obtain ⟨rfl, _⟩ := hx
    exact ⟨p, ps ++ t :: rest2, rfl, h1, h2⟩

theorem after_opener_append (lead : List Token) {pre : List Token} (h : after_opener pre) :
    after_opener (lead ++ pre) := by
  obtain ⟨p0, o, rfl, ho⟩ := h
  exact ⟨lead ++ p0, o, by simp, ho⟩

theorem after_group_append (lead : List Token) {pre : List Token} (h : after_group pre) :
    after_group (lead ++ pre) := by
  obtain ⟨p0, l, w, node, rfl, hl, hw⟩ := h
  exact ⟨lead ++ p0, l, w, node, by simp, hl, hw⟩

/-- An error of a call made after the tokens `lead` were consumed is an error of the
caller. -/
theorem fails_lift {start0 start : Bool} {f g : Nat → List Token → Res (Node × List Token)}
    {s sg : Sym} (lead : List Token) {ts : List Token} {loc : List Char} {msg : ErrMsg}
    (h : Fails start0 g sg ts loc msg)
    (hctx : start0 = true → (start = true ∧ lead = []) ∨ after_opener lead)
    (hview : ∀ w node, Derives sg w node → ∃ ext node2, Derives s (lead ++ (w ++ ext)) node2)
    (hrun : ∀ pre t rest rest2, ts = pre ++ t :: rest →
      Returns (fun k => g k (pre ++ t :: rest2)) (.error_at t.str msg) →
      Returns (fun k => f k (lead ++ (pre ++ t :: rest2))) (.error_at t.str msg)) :
    Fails start f s (lead ++ ts) loc msg := by
  obtain ⟨pre, t, rest, hsplit, hloc, hreq, ⟨ext0, node0, hd⟩, hret⟩ := h
  refine ⟨lead ++ pre, t, rest, by simp [hsplit], hloc, ?_, ?_, ?_⟩
  · rcases hreq with ⟨h1, h2, h3, h4⟩ | ⟨h1, h2, h3, h4⟩
    · exact Or.inl ⟨h1, h2, h3, after_group_append lead h4⟩
    · refine Or.inr ⟨h1, h2, h3, ?_⟩
      rcases h4 with ⟨h5, rfl⟩ | h5
      · simpa using hctx h5
      · exact Or.inr (after_opener_append lead h5)
  · obtain ⟨ext, node2, hd2⟩ := hview _ _ hd
    refine ⟨ext0 ++ ext, node2, ?_⟩
    simpa [List.append_assoc] using hd2
  · intro rest2
    have := hrun pre t rest rest2 hsplit (hret rest2)
    simpa [List.append_assoc] using this


theorem returns_primary {w : List Token} {a : Node} (h : Derives .primary w a)
    (rest : List Token) : Returns (fun k => primary k (w ++ rest)) (.ok (a, rest)) :=
  ⟨3 * w.length, fun n hn => derives_complete h n rest hn⟩

theorem returns_mul {w : List Token} {a : Node} (h : Derives .mul w a) {rest : List Token}
    (hs : mul_stop rest) : Returns (fun k => mul k (w ++ rest)) (.ok (a, rest)) :=
  ⟨3 * w.length + 2, fun n hn => derives_complete h n rest hn hs⟩

theorem returns_expr {w : List Token} {a : Node} (h : Derives .expr w a) {rest : List Token}
    (hs : expr_stop rest) : Returns (fun k => expr k (w ++ rest)) (.ok (a, rest)) :=
  ⟨3 * w.length + 4, fun n hn => derives_complete h n rest hn hs⟩

theorem pin_primary (n : Nat) (ih : Pinpoints n) (ts : List Token) (loc : List Char)
    (msg : ErrMsg) (h : primary (n + 1) ts = .error_at loc msg) :
    Fails true primary .primary ts loc msg := by
  have hrp : is_op ')' ({ kind := .TK_RESERVED, val := 0, str := [')'] } : Token) :=
    ⟨rfl, rfl⟩
  cases ts with
  | nil => simp [primary, consume, Res.bind] at h
  | cons t tl =>
    by_cases hp : is_op '(' t
    · rw [primary_open n t tl hp] at h
      rcases bind_eq_error h with h1 | ⟨⟨a, r1⟩, h1, h2⟩
      · have hf := (ih tl loc msg).2.2.2.2 h1
        have hl : Fails true primary .primary ([t] ++ tl) loc msg := by
          refine fails_lift [t] hf (fun _ => Or.inr ⟨[], t, rfl, Or.inl hp⟩) ?_ ?_
          · intro w node hd
            exact ⟨[{ kind := .TK_RESERVED, val := 0, str := [')'] }], node,
              by simpa using Derives.paren t _ w node hp hd hrp⟩
          · intro pre t2 rest rest2 _ hr
            exact returns_step_error (f := primary) (g := expr)
              (fun _ r => (expect ')' r.2).bind fun c => .ok (r.1, c))
              (pre ++ t2 :: rest2) _ (fun k => primary_open k t _ hp) hr
        exact hl
      · obtain ⟨w, hw, hd⟩ := (parser_sound n).2.2.2.2 tl a r1 h1
        obtain ⟨t2, tl2, rfl, s1, s2, s3, s4⟩ := (parser_stops n tl a r1).2.2.2 h1
        by_cases hq : is_op ')' t2
        · simp [expect_hit _ _ _ hq, Res.bind] at h2
        · simp only [expect_miss _ _ _ hq, Res.bind, Res.error_at.injEq] at h2
          obtain ⟨rfl, rfl⟩ := h2
          refine ⟨t :: w, t2, tl2, by simp [hw], rfl,
            Or.inl ⟨rfl, hq, ?_, ⟨[], t, w, a, rfl, hp, hd⟩⟩,
            ⟨[{ kind := .TK_RESERVED, val := 0, str := [')'] }], a,
              by simpa using Derives.paren t _ w a hp hd hrp⟩, ?_⟩
          · intro c hc
            rcases hc with rfl | rfl | rfl | rfl
            · exact s3
            · exact s4
            · exact s1
            · exact s2
          · intro rest2
            have hstop : expr_stop (t2 :: rest2) := ⟨t2, rest2, rfl, s1, s2, s3, s4⟩
            have hfail : Returns
                (fun _ : Nat => (expect ')' (t2 :: rest2)).bind fun c => Res.ok (a, c))
                (.error_at t2.str (.expect_char ')')) :=
              ⟨0, fun _ _ => by simp [expect_miss _ _ _ hq, Res.bind]⟩
            exact returns_step_ok (f := primary) (g := expr)
              (fun _ r => (expect ')' r.2).bind fun c => .ok (r.1, c))
              (w ++ t2 :: rest2) _ (a, t2 :: rest2) (fun k => primary_open k t _ hp)
              (returns_expr hd hstop) hfail
    · by_cases hk : t.kind = .TK_NUM
      · simp [primary, consume_miss _ _ _ hp, expect_number_hit _ _ hk, Res.bind] at h
      · rw [primary_leaf n t tl hp hk] at h
        simp only [Res.error_at.injEq] at h
        obtain ⟨rfl, rfl⟩ := h
        refine ⟨[], t, tl, rfl, rfl, Or.inr ⟨rfl, hk, hp, Or.inl ⟨rfl, rfl⟩⟩,
          ⟨[{ kind := .TK_NUM, val := 0, str := [] }], _, Derives.num _ rfl⟩, ?_⟩
        intro rest2
        refine ⟨1, fun k hk1 => ?_⟩
        obtain ⟨j, rfl⟩ : ∃ j, k = j + 1 := ⟨k - 1, by omega⟩
        exact primary_leaf j t rest2 hp hk

theorem pin_mul_step (n : Nat) (ih : Pinpoints n) (a : Node) (t : Token) (tl : List Token)
    (kind : NodeKind) (loc : List Char) (msg : ErrMsg)
    (hop : is_op '*' t ∨ is_op '/' t)
    (heq : ∀ k x, mul_loop (k + 1) a (t :: x)
      = (primary k x).bind fun r => mul_loop k (new_binary kind a r.1) r.2)
    (hder : ∀ w b r node, Derives .primary w b →
      Derives (.mul_rest (new_binary kind a b)) r node →
      Derives (.mul_rest a) (t :: w ++ r) node)
    (h : ((primary n tl).bind fun r => mul_loop n (new_binary kind a r.1) r.2)
      = .error_at loc msg) :
    Fails false (fun k => mul_loop k a) (.mul_rest a) (t :: tl) loc msg := by
  have hopen : after_opener [t] :=
    ⟨[], t, rfl, hop.elim (fun h => Or.inr (Or.inr (Or.inr (Or.inl h))))
      (fun h => Or.inr (Or.inr (Or.inr (Or.inr h))))⟩
  rcases bind_eq_error h with h1 | ⟨⟨b, r1⟩, h1, h2⟩
  · have hf := (ih tl loc msg).1 h1
    have hl : Fails false (fun k => mul_loop k a) (.mul_rest a) ([t] ++ tl) loc msg := by
      refine fails_lift [t] hf (fun _ => Or.inr hopen) ?_ ?_
      · intro w node hd
        exact ⟨[], _, by simpa using hder w node [] _ hd (Derives.mul_done _)⟩
      · intro pre t2 rest rest2 _ hr
        exact returns_step_error (f := fun k => mul_loop k a) (g := primary)
          (fun k r => mul_loop k (new_binary kind a r.1) r.2)
          (pre ++ t2 :: rest2) _ (fun k => heq k _) hr
    exact hl
  · obtain ⟨w, hw, hd⟩ := (parser_sound n).1 tl b r1 h1
    have hf := (ih r1 loc msg).2.1 _ h2
    have hl : Fails false (fun k => mul_loop k a) (.mul_rest a) ((t :: w) ++ r1) loc msg := by
      refine fails_lift (t :: w) hf (fun hc => by cases hc) ?_ ?_
      · intro w2 node hd2
        exact ⟨[], node, by simpa using hder w b w2 node hd hd2⟩
      · intro pre t2 rest rest2 _ hr
        exact returns_step_ok (f := fun k => mul_loop k a) (g := primary)
          (fun k r => mul_loop k (new_binary kind a r.1) r.2)
          (w ++ (pre ++ t2 :: rest2)) _ (b, pre ++ t2 :: rest2) (fun k => heq k _)
          (returns_primary hd _) hr
    rw [hw]
    exact hl

theorem pin_mul_loop (n : Nat) (ih : Pinpoints n) (ts : List Token) (loc : List Char)
    (msg : ErrMsg) (a : Node) (h : mul_loop (n + 1) a ts = .error_at loc msg) :
    Fails false (fun k => mul_loop k a) (.mul_rest a) ts loc msg := by
  cases ts with
  | nil => rw [mul_loop_nil] at h; cases h
  | cons t tl =>
    by_cases hp : is_op '*' t
    · rw [mul_loop_times n a t tl hp] at h
      exact pin_mul_step n ih a t tl .ND_MUL loc msg (Or.inl hp)
        (fun k x => mul_loop_times k a t x hp)
        (fun w b r node h1 h2 => Derives.mul_times a t w b r node hp h1 h2) h
    · by_cases hq : is_op '/' t
      · rw [mul_loop_over n a t tl hp hq] at h
        exact pin_mul_step n ih a t tl .ND_DIV loc msg (Or.inr hq)
          (fun k x => mul_loop_over k a t x hp hq)
          (fun w b r node h1 h2 => Derives.mul_over a t w b r node hq h1 h2) h
      · rw [mul_loop_exit n a t tl hp hq] at h
        cases h

theorem pin_mul (n : Nat) (ih : Pinpoints n) (ts : List Token) (loc : List Char)
    (msg : ErrMsg) (h : mul (n + 1) ts = .error_at loc msg) :
    Fails true mul .mul ts loc msg := by
  simp only [mul] at h
  rcases bind_eq_error h with h1 | ⟨⟨b, r1⟩, h1, h2⟩
  · have hf := (ih ts loc msg).1 h1
    have hl : Fails true mul .mul ([] ++ ts) loc msg := by
      refine fails_lift [] hf (fun _ => Or.inl ⟨rfl, rfl⟩) ?_ ?_
      · intro w node hd
        exact ⟨[], node, by simpa using Derives.mul w [] node node hd (Derives.mul_done _)⟩
      · intro pre t2 rest rest2 _ hr
        exact returns_step_error (f := mul) (g := primary)
          (fun k r => mul_loop k r.1 r.2) (pre ++ t2 :: rest2) _ (fun k => rfl) hr
    exact hl
  · obtain ⟨w, hw, hd⟩ := (parser_sound n).1 ts b r1 h1
    have hf := (ih r1 loc msg).2.1 _ h2
    have hl : Fails true mul .mul (w ++ r1) loc msg := by
      refine fails_lift w hf (fun hc => by cases hc) ?_ ?_
      · intro w2 node hd2
        exact ⟨[], node, by simpa using Derives.mul w w2 b node hd hd2⟩
      · intro pre t2 rest rest2 _ hr
        exact returns_step_ok (f := mul) (g := primary)
          (fun k r => mul_loop k r.1 r.2) (w ++ (pre ++ t2 :: rest2)) _
          (b, pre ++ t2 :: rest2) (fun k => rfl) (returns_primary hd _) hr
    rw [hw]
    exact hl

theorem pin_expr_step (n : Nat) (ih : Pinpoints n) (a : Node) (t : Token) (tl : List Token)
    (kind : NodeKind) (loc : List Char) (msg : ErrMsg)
    (hop : is_op '+' t ∨ is_op '-' t)
    (heq : ∀ k x, expr_loop (k + 1) a (t :: x)
      = (mul k x).bind fun r => expr_loop k (new_binary kind a r.1) r.2)
    (hder : ∀ w b r node, Derives .mul w b →
      Derives (.expr_rest (new_binary kind a b)) r node →
      Derives (.expr_rest a) (t :: w ++ r) node)
    (h : ((mul n tl).bind fun r => expr_loop n (new_binary kind a r.1) r.2)
      = .error_at loc msg) :
    Fails false (fun k => expr_loop k a) (.expr_rest a) (t :: tl) loc msg := by
  have hopen : after_opener [t] :=
    ⟨[], t, rfl, hop.elim (fun h => Or.inr (Or.inl h)) (fun h => Or.inr (Or.inr (Or.inl h)))⟩
  rcases bind_eq_error h with h1 | ⟨⟨b, r1⟩, h1, h2⟩
  · have hf := (ih tl loc msg).2.2.1 h1
    have hl : Fails false (fun k => expr_loop k a) (.expr_rest a) ([t] ++ tl) loc msg := by
      refine fails_lift [t] hf (fun _ => Or.inr hopen) ?_ ?_
      · intro w node hd
        exact ⟨[], _, by simpa using hder w node [] _ hd (Derives.expr_done _)⟩
      · intro pre t2 rest rest2 _ hr
        exact returns_step_error (f := fun k => expr_loop k a) (g := mul)
          (fun k r => expr_loop k (new_binary kind a r.1) r.2)
          (pre ++ t2 :: rest2) _ (fun k => heq k _) hr
    exact hl
  · obtain ⟨w, hw, hd⟩ := (parser_sound n).2.2.1 tl b r1 h1
    have hs := (parser_stops n tl b r1).2.1 h1
    have hf := (ih r1 loc msg).2.2.2.1 _ h2
    have hl : Fails false (fun k => expr_loop k a) (.expr_rest a) ((t :: w) ++ r1) loc msg := by
      refine fails_lift (t :: w) hf (fun hc => by cases hc) ?_ ?_
      · intro w2 node hd2
        exact ⟨[], node, by simpa using hder w b w2 node hd hd2⟩
      · intro pre t2 rest rest2 hsplit hr
        rw [hsplit] at hs
        exact returns_step_ok (f := fun k => expr_loop k a) (g := mul)
          (fun k r => expr_loop k (new_binary kind a r.1) r.2)
          (w ++ (pre ++ t2 :: rest2)) _ (b, pre ++ t2 :: rest2) (fun k => heq k _)
          (returns_mul hd (mul_stop_head hs rest2)) hr
    rw [hw]
    exact hl

theorem pin_expr_loop (n : Nat) (ih : Pinpoints n) (ts : List Token) (loc : List Char)
    (msg : ErrMsg) (a : Node) (h : expr_loop (n + 1) a ts = .error_at loc msg) :
    Fails false (fun k => expr_loop k a) (.expr_rest a) ts loc msg := by
  cases ts with
  | nil => rw [expr_loop_nil] at h; cases h
  | cons t tl =>
    by_cases hp : is_op '+' t
    · rw [expr_loop_plus n a t tl hp] at h
      exact pin_expr_step n ih a t tl .ND_ADD loc msg (Or.inl hp)
        (fun k x => expr_loop_plus k a t x hp)
        (fun w b r node h1 h2 => Derives.expr_plus a t w b r node hp h1 h2) h
    · by_cases hq : is_op '-' t
      · rw [expr_loop_minus n a t tl hp hq] at h
        exact pin_expr_step n ih a t tl .ND_SUB loc msg (Or.inr hq)
          (fun k x => expr_loop_minus k a t x hp hq)
          (fun w b r node h1 h2 => Derives.expr_minus a t w b r node hq h1 h2) h
      · rw [expr_loop_exit n a t tl hp hq] at h
        cases h

theorem pin_expr (n : Nat) (ih : Pinpoints n) (ts : List Token) (loc : List Char)
    (msg : ErrMsg) (h : expr (n + 1) ts = .error_at loc msg) :
    Fails true expr .expr ts loc msg := by
  simp only [expr] at h
  rcases bind_eq_error h with h1 | ⟨⟨b, r1⟩, h1, h2⟩
  · have hf := (ih ts loc msg).2.2.1 h1
    have hl : Fails true expr .expr ([] ++ ts) loc msg := by
      refine fails_lift [] hf (fun _ => Or.inl ⟨rfl, rfl⟩) ?_ ?_
      · intro w node hd
        exact ⟨[], node, by simpa using Derives.expr w [] node node hd (Derives.expr_done _)⟩
      · intro pre t2 rest rest2 _ hr
        exact returns_step_error (f := expr) (g := mul)
          (fun k r => expr_loop k r.1 r.2) (pre ++ t2 :: rest2) _ (fun k => rfl) hr
    exact hl
  · obtain ⟨w, hw, hd⟩ := (parser_sound n).2.2.1 ts b r1 h1
    have hs := (parser_stops n ts b r1).2.1 h1
    have hf := (ih r1 loc msg).2.2.2.1 _ h2
    have hl : Fails true expr .expr (w ++ r1) loc msg := by
      refine fails_lift w hf (fun hc => by cases hc) ?_ ?_
      · intro w2 node hd2
        exact ⟨[], node, by simpa using Derives.expr w w2 b node hd hd2⟩
      · intro pre t2 rest rest2 hsplit hr
        rw [hsplit] at hs
        exact returns_step_ok (f := expr) (g := mul)
          (fun k r => expr_loop k r.1 r.2) (w ++ (pre ++ t2 :: rest2)) _
          (b, pre ++ t2 :: rest2) (fun k => rfl)
          (returns_mul hd (mul_stop_head hs rest2)) hr
    rw [hw]
    exact hl

theorem parser_pinpoints (n : Nat) : Pinpoints n := by
  induction n with
  | zero =>
    intro ts loc msg
    refine ⟨fun h => ?_, fun _ h => ?_, fun h => ?_, fun _ h => ?_, fun h => ?_⟩ <;>
      simp [primary, mul_loop, mul, expr_loop, expr] at h
  | succ n ih =>
    intro ts loc msg
    exact ⟨pin_primary n ih ts loc msg, fun a => pin_mul_loop n ih ts loc msg a,
      pin_mul n ih ts loc msg, fun a => pin_expr_loop n ih ts loc msg a,
      pin_expr n ih ts loc msg⟩


theorem derives_spells {s : Sym} {w : List Token} {node : Node} (h : Derives s w node) :
    Spells s w := by
  induction h with
  | num t ht => exact Sentence.num t ht
  | paren l r w node hl _ hr ih => exact Sentence.paren l r w hl ih hr
  | mul p r a node _ _ ih1 ih2 => exact ih2 p (Sentence.mul_first p ih1)
  | mul_done a => intro w0 h0; simpa using h0
  | mul_times a t p b r node ht _ _ ih1 ih2 =>
    intro w0 h0
    have := ih2 (w0 ++ t :: p) (Sentence.mul_more w0 t p h0 (Or.inl ht) ih1)
    simpa [List.append_assoc] using this
  | mul_over a t p b r node ht _ _ ih1 ih2 =>
    intro w0 h0
    have := ih2 (w0 ++ t :: p) (Sentence.mul_more w0 t p h0 (Or.inr ht) ih1)
    simpa [List.append_assoc] using this
  | expr m r a node _ _ ih1 ih2 => exact ih2 m (Sentence.expr_first m ih1)
  | expr_done a => intro w0 h0; simpa using h0
  | expr_plus a t m b r node ht _ _ ih1 ih2 =>
    intro w0 h0
    have := ih2 (w0 ++ t :: m) (Sentence.expr_more w0 t m h0 (Or.inl ht) ih1)
    simpa [List.append_assoc] using this
  | expr_minus a t m b r node ht _ _ ih1 ih2 =>
    intro w0 h0
    have := ih2 (w0 ++ t :: m) (Sentence.expr_more w0 t m h0 (Or.inr ht) ih1)
    simpa [List.append_assoc] using this

theorem derives_sentence {w : List Token} {node : Node} (h : Derives .expr w node) :
    Sentence .expr w :=
  derives_spells h

theorem parse_returns {ts : List Token} (he : ends_eof ts) {r : Res (Node × List Token)}
    (h : Returns (fun k => expr k ts) r) : parse ts = r := by
  obtain ⟨n0, hn⟩ := h
  have hlive : expr (parse_fuel ts) ts ≠ .out_of_fuel :=
    (parser_enough _ ts he).2.2.2.2 (by simp [parse_fuel])
  have hsame := expr_fuel_irrelevant ts _ hlive n0
  unfold parse
  rw [← hsame]
  exact hn _ (by omega)

theorem split_unique {pre pre2 : List Token} {t t2 : Token} {rest rest2 : List Token}
    (h : pre ++ t :: rest = pre2 ++ t2 :: rest2) :
    (pre2 = pre ∧ t2 = t ∧ rest2 = rest) ∨ (∃ x, pre2 = pre ++ t :: x) ∨
      ∃ x, pre = pre2 ++ t2 :: x := by
  rcases List.append_eq_append_iff.1 h with ⟨a, h1, h2⟩ | ⟨c, h1, h2⟩
  · cases a with
    | nil =>
      simp only [List.nil_append, List.cons.injEq] at h2
      exact Or.inl ⟨by simpa using h1, h2.1.symm, h2.2.symm⟩
    | cons x xs =>
      simp only [List.cons_append, List.cons.injEq] at h2
      obtain ⟨rfl, _⟩ := h2
      exact Or.inr (Or.inl ⟨xs, h1⟩)
  · cases c with
    | nil =>
      simp only [List.nil_append, List.cons.injEq] at h2
      exact Or.inl ⟨by simpa using h1.symm, h2.1, h2.2⟩
    | cons x xs =>
      simp only [List.cons_append, List.cons.injEq] at h2
      obtain ⟨rfl, _⟩ := h2
      exact Or.inr (Or.inr ⟨xs, h1⟩)

theorem split_at_three (pre : List Token) (t : Token) (rest : List Token)
    (h : [({ kind := .TK_RESERVED, val := 0, str := "(1+2 3".toList } : Token),
          { kind := .TK_NUM, val := 1, str := "1+2 3".toList },
          { kind := .TK_RESERVED, val := 0, str := "+2 3".toList },
          { kind := .TK_NUM, val := 2, str := "2 3".toList },
          { kind := .TK_NUM, val := 3, str := "3".toList },
          { kind := .TK_EOF, val := 0, str := [] }] = pre ++ t :: rest)
    (hs : "3".toList = t.str) :
    pre = [{ kind := .TK_RESERVED, val := 0, str := "(1+2 3".toList },
          { kind := .TK_NUM, val := 1, str := "1+2 3".toList },
          { kind := .TK_RESERVED, val := 0, str := "+2 3".toList },
          { kind := .TK_NUM, val := 2, str := "2 3".toList }] ∧
      t = { kind := .TK_NUM, val := 3, str := "3".toList } := by
  rcases pre with _ | ⟨a1, _ | ⟨a2, _ | ⟨a3, _ | ⟨a4, _ | ⟨a5, _ | ⟨a6, pre⟩⟩⟩⟩⟩⟩ <;>
    simp only [List.nil_append, List.cons_append, List.cons.injEq] at h
  · obtain ⟨rfl, _⟩ := h
    exact absurd hs (by decide)
  · obtain ⟨_, rfl, _⟩ := h
    exact absurd hs (by decide)
  · obtain ⟨_, _, rfl, _⟩ := h
    exact absurd hs (by decide)
  · obtain ⟨_, _, _, rfl, _⟩ := h
    exact absurd hs (by decide)
  · obtain ⟨rfl, rfl, rfl, rfl, rfl, _⟩ := h
    exact ⟨rfl, rfl⟩
  · obtain ⟨_, _, _, _, _, rfl, _⟩ := h
    exact absurd hs (by decide)
  · obtain ⟨_, _, _, _, _, _, h7⟩ := h
    cases pre <;> simp at h7

/-- C18: whenever parsing fails, the error is reported on the token `t` that the cursor is
on, the first token that could not be consumed. The tokens `pre` before `t` were consumed:
they begin a sentence of the grammar, which the parser reads to its end, while no sentence
begins with `pre` followed by `t`, and the parser fails on `t` with the same message
whatever follows `t`; no other token of the sequence has these two properties. The location
passed to `error_at` is where `t` points, so the offset reported is the source position of
`t`. The message is `expect ')'` when a closing parenthesis was required: `pre` ends with
`(` and an expression, and `t` is neither `)` nor an operator; it is `expect a number` when
a primary was required: `pre` is empty or ends with `(` or an operator, and `t` is neither
an integer literal nor `(`. `main` exits with status 1 after writing that diagnostic. For
`1+` the error is `expect a number` at offset 2, the end of the input, and for `(1+2` it is
`expect ')'` at offset 4; for `(1+2 3` it is `expect ')'` at offset 5, on the token `3`,
and for `1+*2` it is `expect a number` at offset 2, on the token `*`. -/
theorem syntax_error_locality (user_input : List Char) (token : List Token)
    (loc : List Char) (msg : ErrMsg) (htok : tokenize user_input = .ok token)
    (hparse : parse token = .error_at loc msg) :
    (∃ pre t rest, token = pre ++ t :: rest ∧ loc = t.str ∧
      ((msg = .expect_char ')' ∧ ¬ is_op ')' t) ∨
        (msg = .expect_number ∧ t.kind ≠ .TK_NUM ∧ ¬ is_op '(' t)) ∧
      (∃ before, user_input = before ++ t.str ∧
        error_pos user_input loc = before.length) ∧
      (∃ ext, Sentence .expr (pre ++ ext) ∧
        ∀ eof : Token, eof.kind = .TK_EOF →
          ∃ node, parse ((pre ++ ext) ++ [eof]) = .ok (node, [eof])) ∧
      (∀ ext, ¬ Sentence .expr (pre ++ t :: ext)) ∧
      (∀ rest2, ends_eof (pre ++ t :: rest2) →
        parse (pre ++ t :: rest2) = .error_at t.str msg) ∧
      (∀ pre2 t2 rest2, token = pre2 ++ t2 :: rest2 →
        (∃ ext, Sentence .expr (pre2 ++ ext)) →
        (∀ ext, ¬ Sentence .expr (pre2 ++ t2 :: ext)) →
        pre2 = pre ∧ t2 = t ∧ rest2 = rest) ∧
      (msg = .expect_char ')' →
        (∀ c, is_binop c → ¬ is_op c t) ∧
        ∃ p0 l w, pre = p0 ++ l :: w ∧ is_op '(' l ∧ Sentence .expr w) ∧
      (msg = .expect_number →
        pre = [] ∨ ∃ p0 o, pre = p0 ++ [o] ∧
          (is_op '(' o ∨ is_op '+' o ∨ is_op '-' o ∨ is_op '*' o ∨ is_op '/' o))) ∧
    compile user_input
      = .ok { stdout := [], stderr := error_at user_input loc msg, status := 1 } ∧
    front_end "1+".toList = .error_at [] .expect_number ∧
    error_pos "1+".toList [] = 2 ∧
    front_end "(1+2".toList = .error_at [] (.expect_char ')') ∧
    error_pos "(1+2".toList [] = 4 ∧
    front_end "(1+2 3".toList = .error_at "3".toList (.expect_char ')') ∧
    error_pos "(1+2 3".toList "3".toList = 5 ∧
    front_end "1+*2".toList = .error_at "*2".toList .expect_number ∧
    error_pos "1+*2".toList "*2".toList = 2 := by
  refine ⟨?_, ?_, by decide, by decide, by decide, by decide, by decide, by decide,
    by decide, by decide⟩
  · obtain ⟨pre, t, rest, hsplit, hloc, hreq, ⟨ext, node, hd⟩, hret⟩ :=
      (parser_pinpoints (parse_fuel token) token loc msg).2.2.2.2 hparse
    have hmem : t ∈ token := by rw [hsplit]; simp
    obtain ⟨before, hb⟩ := tokenize_loop_suffix _ user_input token htok t hmem
    have hfail : ∀ rest2, ends_eof (pre ++ t :: rest2) →
        parse (pre ++ t :: rest2) = .error_at t.str msg :=
      fun rest2 he => parse_returns he (hret rest2)
    have hdead : ∀ ext, ¬ Sentence .expr (pre ++ t :: ext) := by
      intro ext hs
      obtain ⟨node2, hp2, _⟩ :=
        sentence_parses hs
          (rfl : ({ kind := .TK_EOF, val := 0, str := [] } : Token).kind = .TK_EOF)
      have he : ends_eof (pre ++ t :: (ext ++ [{ kind := .TK_EOF, val := 0, str := [] }])) :=
        ⟨pre ++ t :: ext, { kind := .TK_EOF, val := 0, str := [] }, by simp, rfl⟩
      have hf := hfail _ he
      simp only [List.append_assoc, List.cons_append] at hp2
      rw [hp2] at hf
      cases hf
    have hview : Sentence .expr (pre ++ ext) := derives_sentence hd
    refine ⟨pre, t, rest, hsplit, hloc, ?_, ⟨before, hb, ?_⟩, ⟨ext, hview, ?_⟩, hdead, hfail,
      ?_, ?_, ?_⟩
    · rcases hreq with ⟨h1, h2, _, _⟩ | ⟨h1, h2, h3, _⟩
      · exact Or.inl ⟨h1, h2⟩
      · exact Or.inr ⟨h1, h2, h3⟩
    · have hlen := congrArg List.length hb
      simp only [List.length_append] at hlen
      rw [hloc]
      unfold error_pos
      omega
    · intro eof heof
      obtain ⟨node2, hp2, _⟩ := sentence_parses hview heof
      exact ⟨node2, hp2⟩
    · intro pre2 t2 rest2 hsplit2 ⟨ext2, hv2⟩ hd2
      rw [hsplit] at hsplit2
      rcases split_unique hsplit2 with h1 | ⟨x, h1⟩ | ⟨x, h1⟩
      · exact h1
      · rw [h1, List.append_assoc] at hv2
        exact absurd hv2 (hdead _)
      · rw [h1, List.append_assoc] at hview
        exact absurd hview (hd2 _)
    · intro hm
      rcases hreq with ⟨_, _, h3, ⟨p0, l, w, a, h4, h5, h6⟩⟩ | ⟨h1, _⟩
      · exact ⟨h3, p0, l, w, h4, h5, derives_sentence h6⟩
      · rw [h1] at hm; cases hm
    · intro hm
      rcases hreq with ⟨h1, _⟩ | ⟨_, _, _, h4⟩
      · rw [h1] at hm; cases hm
      · rcases h4 with ⟨_, h5⟩ | h5
        · exact Or.inl h5
        · exact Or.inr h5
  · simp [compile, front_end, htok, hparse, Res.bind]

theorem syntax_error_locality_witness :
    tokenize "(1+2 3".toList
      = .ok [{ kind := .TK_RESERVED, val := 0, str := "(1+2 3".toList },
             { kind := .TK_NUM, val := 1, str := "1+2 3".toList },
             { kind := .TK_RESERVED, val := 0, str := "+2 3".toList },
             { kind := .TK_NUM, val := 2, str := "2 3".toList },
             { kind := .TK_NUM, val := 3, str := "3".toList },
             { kind := .TK_EOF, val := 0, str := [] }] ∧
    parse [{ kind := .TK_RESERVED, val := 0, str := "(1+2 3".toList },
           { kind := .TK_NUM, val := 1, str := "1+2 3".toList },
           { kind := .TK_RESERVED, val := 0, str := "+2 3".toList },
           { kind := .TK_NUM, val := 2, str := "2 3".toList },
           { kind := .TK_NUM, val := 3, str := "3".toList },
           { kind := .TK_EOF, val := 0, str := [] }]
      = .error_at "3".toList (.expect_char ')') ∧
    (∃ ext, Sentence .expr
      ([{ kind := .TK_RESERVED, val := 0, str := "(1+2 3".toList },
        { kind := .TK_NUM, val := 1, str := "1+2 3".toList },
        { kind := .TK_RESERVED, val := 0, str := "+2 3".toList },
        { kind := .TK_NUM, val := 2, str := "2 3".toList }] ++ ext)) ∧
    (∀ ext, ¬ Sentence .expr
      ([{ kind := .TK_RESERVED, val := 0, str := "(1+2 3".toList },
        { kind := .TK_NUM, val := 1, str := "1+2 3".toList },
        { kind := .TK_RESERVED, val := 0, str := "+2 3".toList },
        { kind := .TK_NUM, val := 2, str := "2 3".toList }]
        ++ { kind := .TK_NUM, val := 3, str := "3".toList } :: ext)) ∧
    (∀ rest2,
      ends_eof
        ([{ kind := .TK_RESERVED, val := 0, str := "(1+2 3".toList },
          { kind := .TK_NUM, val := 1, str := "1+2 3".toList },
          { kind := .TK_RESERVED, val := 0, str := "+2 3".toList },
          { kind := .TK_NUM, val := 2, str := "2 3".toList }]
          ++ { kind := .TK_NUM, val := 3, str := "3".toList } :: rest2) →
      parse
        ([{ kind := .TK_RESERVED, val := 0, str := "(1+2 3".toList },
          { kind := .TK_NUM, val := 1, str := "1+2 3".toList },
          { kind := .TK_RESERVED, val := 0, str := "+2 3".toList },
          { kind := .TK_NUM, val := 2, str := "2 3".toList }]
          ++ { kind := .TK_NUM, val := 3, str := "3".toList } :: rest2)
        = .error_at "3".toList (.expect_char ')')) ∧
    compile "(1+2 3".toList
      = .ok { stdout := [],
              stderr := error_at "(1+2 3".toList "3".toList (.expect_char ')'),
              status := 1 } := by
  have h1 : tokenize "(1+2 3".toList
      = .ok [{ kind := .TK_RESERVED, val := 0, str := "(1+2 3".toList },
             { kind := .TK_NUM, val := 1, str := "1+2 3".toList },
             { kind := .TK_RESERVED, val := 0, str := "+2 3".toList },
             { kind := .TK_NUM, val := 2, str := "2 3".toList },
             { kind := .TK_NUM, val := 3, str := "3".toList },
             { kind := .TK_EOF, val := 0, str := [] }] := by
    decide
  have h2 : parse
      [{ kind := .TK_RESERVED, val := 0, str := "(1+2 3".toList },
       { kind := .TK_NUM, val := 1, str := "1+2 3".toList },
       { kind := .TK_RESERVED, val := 0, str := "+2 3".toList },
       { kind := .TK_NUM, val := 2, str := "2 3".toList },
       { kind := .TK_NUM, val := 3, str := "3".toList },
       { kind := .TK_EOF, val := 0, str := [] }]
      = .error_at "3".toList (.expect_char ')') := by
    decide
  obtain ⟨⟨pre, t, rest, hsplit, hloc, _, _, ⟨ext, hview, _⟩, hdead, hfail, _⟩, hmain, _⟩ :=
    syntax_error_locality "(1+2 3".toList _ "3".toList (.expect_char ')') h1 h2
  obtain ⟨rfl, rfl⟩ := split_at_three pre t rest hsplit hloc
  exact ⟨h1, h2, ⟨ext, hview⟩, hdead, hfail, hmain⟩

/-! ### Printing and parsing again -/

theorem digitChar_val (k : Nat) (h : k < 10) : (Nat.digitChar k).toNat - 48 = k := by
  interval_cases k <;> rfl

theorem digitChar_isdigit (k : Nat) (h : k < 10) : isdigit (Nat.digitChar k) = true := by
  interval_cases k <;> rfl

theorem toDigitsCore_value (fuel : Nat) :
    ∀ (n : Nat) (ds : List Char), n < fuel →
      (Nat.toDigitsCore 10 fuel n ds).foldl (fun acc c => acc * 10 + (c.toNat - 48)) 0
        = ds.foldl (fun acc c => acc * 10 + (c.toNat - 48)) n := by
  induction fuel with
  | zero => intro n ds h; omega
  | succ fuel ih =>
    intro n ds h
    simp only [Nat.toDigitsCore]
    have hd := digitChar_val (n % 10) (Nat.mod_lt _ (by decide))
    split
    · rename_i h0
      simp only [List.foldl_cons, hd]
      have : n % 10 = n := by omega
      rw [Nat.zero_mul, Nat.zero_add, this]
    · rename_i h0
      rw [ih (n / 10) _ (by omega)]
      simp only [List.foldl_cons, hd]
      have : n / 10 * 10 + n % 10 = n := by omega
      rw [this]

theorem toDigitsCore_digits (fuel : Nat) :
    ∀ (n : Nat) (ds : List Char), (∀ c ∈ ds, isdigit c = true) →
      ∀ c ∈ Nat.toDigitsCore 10 fuel n ds, isdigit c = true := by
  induction fuel with
  | zero => intro n ds h; simpa [Nat.toDigitsCore] using h
  | succ fuel ih =>
    intro n ds h
    simp only [Nat.toDigitsCore]
    have hd := digitChar_isdigit (n % 10) (Nat.mod_lt _ (by decide))
    have hcons : ∀ c ∈ Nat.digitChar (n % 10) :: ds, isdigit c = true := by
      intro c hc
      simp only [List.mem_cons] at hc
      rcases hc with rfl | hc
      · exact hd
      · exact h c hc
    split
    · exact hcons
    · exact ih _ _ hcons

theorem toDigitsCore_ne_nil (fuel : Nat) :
    ∀ (n : Nat) (ds : List Char), (0 < fuel ∨ ds ≠ []) →
      Nat.toDigitsCore 10 fuel n ds ≠ [] := by
  induction fuel with
  | zero =>
    intro n ds h
    rcases h with h | h
    · omega
    · simpa [Nat.toDigitsCore] using h
  | succ fuel ih =>
    intro n ds _
    simp only [Nat.toDigitsCore]
    split
    · simp
    · exact ih _ _ (Or.inr (by simp))

theorem toDigits_literal (n : Nat) (h : n < 2 ^ 31) :
    is_literal (Nat.toDigits 10 n) = true ∧ decimal (Nat.toDigits 10 n) = n := by
  have hv : decimal (Nat.toDigits 10 n) = n := by
    unfold decimal Nat.toDigits
    rw [toDigitsCore_value (n + 1) n [] (by omega)]
    rfl
  refine ⟨?_, hv⟩
  rw [is_literal_iff]
  refine ⟨toDigitsCore_ne_nil _ _ _ (Or.inl (by omega)),
    toDigitsCore_digits _ _ _ (by simp), by rw [hv]; exact h⟩

theorem binop_kind_op_char (kind : NodeKind) (h : kind ≠ .ND_NUM) :
    binop_kind (op_char kind) = kind ∧ is_binop (op_char kind) := by
  cases kind with
  | ND_NUM => exact absurd rfl h
  | ND_ADD => exact ⟨by decide, Or.inl rfl⟩
  | ND_SUB => exact ⟨by decide, Or.inr (Or.inl rfl)⟩
  | ND_MUL => exact ⟨by decide, Or.inr (Or.inr (Or.inl rfl))⟩
  | ND_DIV => exact ⟨by decide, Or.inr (Or.inr (Or.inr rfl))⟩

theorem render_tokens (node : Node) (h : is_ast node = true) :
    ∀ (q : List Char) (tq : List Token), tokenize q = .ok tq → isdigit (char0 q) = false →
      ∃ w, tokenize (render node ++ q) = .ok (w ++ tq) ∧ Derives .primary w node := by
  induction node with
  | null => simp [is_ast] at h
  | mk kind lhs rhs val ihl ihr =>
    intro q tq hq hd
    by_cases hk : kind = .ND_NUM
    · subst hk
      simp only [is_ast, Bool.and_eq_true, decide_eq_true_eq] at h
      obtain ⟨⟨⟨rfl, rfl⟩, h0⟩, h1⟩ := h
      have hn : val.toNat < 2 ^ 31 := by omega
      obtain ⟨hlit, hval⟩ := toDigits_literal val.toNat hn
      refine ⟨[{ kind := .TK_NUM, val := decimal (Nat.toDigits 10 val.toNat),
                 str := Nat.toDigits 10 val.toNat ++ q }], ?_, ?_⟩
      · simp only [render]
        rw [tokenize_literal _ q hlit hd, hq]
        rfl
      · have := Derives.num { kind := .TK_NUM, val := decimal (Nat.toDigits 10 val.toNat),
                              str := Nat.toDigits 10 val.toNat ++ q } rfl
        have hv : ((decimal (Nat.toDigits 10 val.toNat) : Nat) : Int) = val := by
          rw [hval]
          omega
        rw [hv]
        simp only [hv] at this
        exact this
    · have hast : val = 0 ∧ is_ast lhs = true ∧ is_ast rhs = true := by
        cases kind <;> simp_all [is_ast]
      obtain ⟨rfl, hal, har⟩ := hast
      obtain ⟨hkind, hbin⟩ := binop_kind_op_char kind hk
      have hres := is_binop_reserved hbin
      have hq1 : tokenize (')' :: q)
          = .ok ({ kind := .TK_RESERVED, val := 0, str := ')' :: q } :: tq) := by
        rw [tokenize_reserved ')' q rfl, hq]
        rfl
      obtain ⟨wr, hwr, hdr⟩ := ihr har (')' :: q) _ hq1 rfl
      have hq2 : tokenize (op_char kind :: (render rhs ++ ')' :: q))
          = .ok ({ kind := .TK_RESERVED, val := 0,
                   str := op_char kind :: (render rhs ++ ')' :: q) }
                 :: (wr ++ { kind := .TK_RESERVED, val := 0, str := ')' :: q } :: tq)) := by
        rw [tokenize_reserved _ _ hres, hwr]
        rfl
      obtain ⟨wl, hwl, hdl⟩ := ihl hal _ _ hq2 (isreserved_not_isdigit hres)
      have hrender : render (.mk kind lhs rhs 0) ++ q
          = '(' :: (render lhs ++ op_char kind :: (render rhs ++ ')' :: q)) := by
        cases kind with
        | ND_NUM => exact absurd rfl hk
        | _ => simp [render]
      refine ⟨{ kind := .TK_RESERVED, val := 0,
                str := '(' :: (render lhs ++ op_char kind :: (render rhs ++ ')' :: q)) }
              :: (wl ++ { kind := .TK_RESERVED, val := 0,
                          str := op_char kind :: (render rhs ++ ')' :: q) } :: wr)
              ++ [{ kind := .TK_RESERVED, val := 0, str := ')' :: q }], ?_, ?_⟩
      · rw [hrender, tokenize_reserved '(' _ rfl, hwl]
        simp [Res.bind]
      · have hinner := derives_binop hdl hdr hbin
          (t := { kind := .TK_RESERVED, val := 0,
                  str := op_char kind :: (render rhs ++ ')' :: q) }) ⟨rfl, rfl⟩
        rw [hkind] at hinner
        exact Derives.paren _ _ _ _ ⟨rfl, rfl⟩ hinner ⟨rfl, rfl⟩

/-- C19: for every tree built by `new_num` and `new_binary` whose literals are non-negative
and fit in `int`, the text that writes every binary node as `(` left op right `)` and
every literal in decimal is tokenized and parsed by `tokenize` followed by `expr` without
error, the tree returned is equal to the original, and the cursor is left on the
end-of-input token. -/
theorem print_parse_round_trip (node : Node) (h : is_ast node = true) :
    front_end (render node) = .ok (node, [{ kind := .TK_EOF, val := 0, str := [] }]) := by
  obtain ⟨w, hw, hd⟩ := render_tokens node h [] _ tokenize_nil rfl
  rw [List.append_nil] at hw
  exact front_end_of_derives hw (derives_expr_of_mul (derives_mul_of_primary hd))

theorem print_parse_round_trip_witness :
    is_ast (new_binary .ND_SUB (new_num 10)
      (new_binary .ND_DIV (new_binary .ND_ADD (new_num 2) (new_num 30)) (new_num 4))) = true ∧
    render (new_binary .ND_SUB (new_num 10)
      (new_binary .ND_DIV (new_binary .ND_ADD (new_num 2) (new_num 30)) (new_num 4)))
      = "(10-((2+30)/4))".toList ∧
    front_end (render (new_binary .ND_SUB (new_num 10)
      (new_binary .ND_DIV (new_binary .ND_ADD (new_num 2) (new_num 30)) (new_num 4))))
      = .ok (new_binary .ND_SUB (new_num 10)
              (new_binary .ND_DIV (new_binary .ND_ADD (new_num 2) (new_num 30)) (new_num 4)),
             [{ kind := .TK_EOF, val := 0, str := [] }]) :=
  ⟨by decide, by decide, print_parse_round_trip _ (by decide)⟩

/-! ### Compiler correctness -/

theorem front_end_lexical {user_input : List Char} {node : Node} {rest : List Token}
    (h : front_end user_input = .ok (node, rest)) : ∀ c ∈ user_input, lexical c = true := by
  obtain ⟨token, htok, _⟩ := front_end_ok h
  rcases tokenize_outcome user_input with ⟨_, hall⟩ | ⟨herr, _⟩
  · exact hall
  · rw [herr] at htok
    cases htok

/-- C1 (counterexample): the input `4294967297` is a single literal whose value fits in a
signed 64-bit register but not in `int`. It tokenizes and parses to the tree `Lit 1`,
which has no division and whose only value fits in 64 bits, and the generated program
leaves 1 in `x0`, not 4294967297, the value of the expression. -/
theorem literal_beyond_int_truncated :
    is_digits "4294967297".toList = true ∧
    decimal "4294967297".toList = 4294967297 ∧
    in_int64 4294967297 = true ∧
    front_end "4294967297".toList
      = .ok (new_num 1, [{ kind := .TK_EOF, val := 0, str := [] }]) ∧
    no_div_zero (new_num 1) = true ∧ fits64 (new_num 1) = true ∧
    compile "4294967297".toList
      = .ok { stdout := [".globl main", "main:", "  mov x0,  #1", "  str x0, [sp, -16]!",
                         "  ldr x0, [sp], 16", "  ret"],
              stderr := [], status := 0 } ∧
    (∀ m : Machine, result_x0 "4294967297".toList m = some 1) ∧
    ∀ m : Machine,
      result_x0 "4294967297".toList m ≠ some ((decimal "4294967297".toList : Nat) : Int) := by
  have h : front_end "4294967297".toList
      = .ok (new_num 1, [{ kind := .TK_EOF, val := 0, str := [] }]) := by decide
  have hr : ∀ m : Machine, result_x0 "4294967297".toList m = some 1 := by
    intro m
    exact result_x0_eq h (by decide) (by decide) m
  refine ⟨by decide, by decide, by decide, h, by decide, by decide, by decide, hr, ?_⟩
  intro m
  rw [hr m]
  decide

/-- C1 (amended): for every input in which every integer literal is within `int` range and
that tokenizes and parses to a tree in which no division has a zero right operand and
every intermediate value fits in a signed 64-bit register: the tokens are those of the
specification, whose literals carry the decimal values of the text; the tokens consumed
derive the tree in the grammar (so `*` and `/` bind tighter than `+` and `-`, and chains
group to the left); the program is printed with exit status 0; and running the code of
`gen` followed by the final `ldr x0, [sp], 16` from any machine state leaves the value of
the tree in `x0` and the stack as it was. -/
theorem compiler_correct (user_input : List Char) (node : Node) (rest : List Token)
    (h : front_end user_input = .ok (node, rest))
    (hlit : ∀ t ∈ expected_tokens false user_input, t.val < (2 : Int) ^ 31)
    (hdiv : no_div_zero node = true) (hfit : fits64 node = true) :
    ∃ consumed code,
      tokenize user_input = .ok (expected_tokens false user_input) ∧
      expected_tokens false user_input = consumed ++ rest ∧
      Derives .expr consumed node ∧ gen node = .ok code ∧
      compile user_input = .ok { stdout := [".globl main", "main:"] ++ code.map Instr.text
                                   ++ [Instr.text .ldr_x0_pop, Instr.text .ret],
                                 stderr := [], status := 0 } ∧
      ∀ m : Machine, ∃ m1, run (code ++ [.ldr_x0_pop]) m = some m1 ∧
        m1.x0 = eval node ∧ m1.stack = m.stack := by
  obtain ⟨token, htok, hparse⟩ := front_end_ok h
  have hexp := tokenize_expected user_input (front_end_lexical h) hlit
  rw [hexp] at htok
  cases htok
  obtain ⟨consumed, hsplit, hder⟩ := parse_derives hparse
  have hwf : well_formed node = true := derives_shaped hder
  obtain ⟨code, hgen, _⟩ := gen_pushes node hwf
  refine ⟨consumed, code, hexp, hsplit, hder, hgen, ?_, ?_⟩
  · simp [compile, h, hgen]
  · exact run_program hwf hgen hdiv hfit

theorem compiler_correct_witness :
    front_end "7-6/(1+2)".toList
      = .ok (new_binary .ND_SUB (new_num 7)
          (new_binary .ND_DIV (new_num 6) (new_binary .ND_ADD (new_num 1) (new_num 2))),
        [{ kind := .TK_EOF, val := 0, str := [] }]) ∧
    (∀ t ∈ expected_tokens false "7-6/(1+2)".toList, t.val < (2 : Int) ^ 31) ∧
    ∃ consumed code,
      tokenize "7-6/(1+2)".toList = .ok (expected_tokens false "7-6/(1+2)".toList) ∧
      expected_tokens false "7-6/(1+2)".toList
        = consumed ++ [{ kind := .TK_EOF, val := 0, str := [] }] ∧
      Derives .expr consumed
        (new_binary .ND_SUB (new_num 7)
          (new_binary .ND_DIV (new_num 6) (new_binary .ND_ADD (new_num 1) (new_num 2)))) ∧
      gen (new_binary .ND_SUB (new_num 7)
          (new_binary .ND_DIV (new_num 6) (new_binary .ND_ADD (new_num 1) (new_num 2))))
        = .ok code ∧
      compile "7-6/(1+2)".toList
        = .ok { stdout := [".globl main", "main:"] ++ code.map Instr.text
                  ++ [Instr.text .ldr_x0_pop, Instr.text .ret],
                stderr := [], status := 0 } ∧
      ∀ m : Machine, ∃ m1, run (code ++ [.ldr_x0_pop]) m = some m1 ∧
        m1.x0 = eval (new_binary .ND_SUB (new_num 7)
          (new_binary .ND_DIV (new_num 6) (new_binary .ND_ADD (new_num 1) (new_num 2)))) ∧
        m1.stack = m.stack :=
  ⟨by decide, by decide,
    compiler_correct "7-6/(1+2)".toList _ _ (by decide) (by decide) (by decide) (by decide)⟩

end NineCC
